import Mathlib

/-!
# gr-ook: the OOK decode block (`lib/decode_impl.cc`)

A shallow embedding of `gr::ook::decode_impl::state`, the sample-driven decoding
engine, and theorems about it.

Modelling conventions.

* A sample (`float`) and a `double` are the rational number they denote.  The only thing
  the program does with a sample is to compare it with `0.5`; a NaN sample compares like
  the sample `1/2` (neither high nor low), an infinite one like `1` or `-1`.
* Every `double` operation is the exact operation followed by `fl`, rounding to the
  nearest binary64 value, ties to even.  Overflow and subnormal results cannot arise from
  the 32-bit counts the program works on and are not modelled.
* `int` is `Int`.  Signed overflow is undefined in C++ and the model has none: the model is
  the program as long as every `int` value stays within 32 bits.  `int_ok` says so of a
  value and `detect_sync_width_ok` of a run of the estimator; the theorems that depend on
  the values of the counts bound the samples read accordingly.
* The coroutine (`ucontext`) is defunctionalised: the saved `process_context` is the call
  site of `count_until` at which the procedure waits inside `next()`, together with the
  locals that are live there.
* `[data, endptr)` is the list of samples not yet read; `next()` takes its head.
* `std::vector<char>::pop_back()` on an empty vector is undefined behaviour; the model
  stops there with `Fault.pop_back_empty`.
-/

namespace decode_impl

/-! ## `double` arithmetic -/

/-- Round to the nearest integer, ties to the even one. -/
def round_even (x : ℚ) : ℤ :=
  let f := ⌊x⌋
  if x - f < 1 / 2 then f
  else if 1 / 2 < x - f then f + 1
  else if f % 2 = 0 then f else f + 1

/-- The binary64 value nearest to `q` (53 significant bits, ties to even). -/
@[irreducible]
def fl (q : ℚ) : ℚ :=
  if q = 0 then 0
  else
    let e := Int.log 2 |q|
    (round_even (q / (2 : ℚ) ^ (e - 52)) : ℚ) * (2 : ℚ) ^ (e - 52)

/-- The literal `0.01`. -/
def lit_0_01 : ℚ := fl (1 / 100)

/-- The literal `0.1`. -/
def lit_0_1 : ℚ := fl (1 / 10)

/-- The literal `1.7`. -/
def lit_1_7 : ℚ := fl (17 / 10)

/-- Lines 42-47.
`bool within_range(double act, double exp, double tolerance)`;
`1.0f` is the float 1, exactly. -/
@[irreducible]
def within_range (act exp tolerance : ℚ) : Bool :=
  let max := fl (exp * fl (1 + tolerance))
  let min := fl (exp * fl (1 - tolerance))
  decide (act > min) && decide (act < max)

/-! ## Samples and the edge-counting primitive -/

/-- One amplitude sample (`float`). -/
abbrev Sample := ℚ

/-- Lines 117-119. -/
def is_high (f : Sample) : Bool := decide (f > 1 / 2)

/-- Lines 120-122. -/
def is_low (f : Sample) : Bool := decide (f < 1 / 2)

/-- What one evaluation of the loop condition of `count_until` (line 128), on the sample
`x` that `next()` has just returned, leads to. -/
inductive CountStep
  | again (count : Int)
  | ret (count : Int)
  | timeout_error
  deriving DecidableEq, Repr

/-- Lines 128-134, for one sample: the loop either runs its body (`count++`) and comes back
to `next()`, or is left, and then line 131 decides between the throw and the return.
`count` is the `int` of line 127, here an integer: the two agree as long as `count + 1`
fits an `int` (`int_ok`), that is up to 2^31 - 1 samples counted. -/
def count_until_step (fn : Sample → Bool) (max count : Int) (x : Sample) : CountStep :=
  if !fn x && (max == -1 || decide (count < max)) then .again (count + 1)
  else if max != -1 && decide (count > max) then .timeout_error
  else .ret count

/-- How a call of `count_until` on a finite supply of samples comes out. -/
inductive CountResult
  | ret (count : Int) (rest : List Sample)
  | timeout_error (rest : List Sample)
  | blocked (count : Int)
  deriving DecidableEq, Repr

/-- Lines 126-135, run on the unread samples `xs`, entered with the local `count`
(0 at the call).  `blocked` is `next()` finding no sample left. -/
def count_until_from (fn : Sample → Bool) (max : Int) : Int → List Sample → CountResult
  | count, [] => .blocked count
  | count, x :: rest =>
    match count_until_step fn max count x with
    | .again count' => count_until_from fn max count' rest
    | .ret k => .ret k rest
    | .timeout_error => .timeout_error rest

/-- Lines 126-135: `int count_until(predicate fn, int max = -1)`. -/
def count_until (fn : Sample → Bool) (max : Int) (xs : List Sample) : CountResult :=
  count_until_from fn max 0 xs


/-! ## The report -/

/-- Lines 150-158: the character printed for position `idx`. -/
def print_packet_at (packet_data packet_check : List Char) (idx : Nat) : Char :=
  if idx ≥ packet_data.length then 'C'
  else if idx ≥ packet_check.length then 'D'
  else if packet_data.getD idx '?' ≠ packet_check.getD idx '?' then 'X'
  else packet_data.getD idx '?'

/-- Lines 147-163: the second loop of `print_packet`, entered with the value `idx` of the
loop variable; the first argument bounds the number of iterations. -/
def print_packet_loop (packet_data packet_check : List Char) : Nat → Nat → List Char
  | 0, _ => []
  | fuel + 1, idx =>
    if idx < Nat.max packet_data.length packet_check.length then
      print_packet_at packet_data packet_check idx ::
        ((if (idx + 1) % 4 = 0 then [' '] else []) ++
          print_packet_loop packet_data packet_check fuel (idx + 1))
    else []

/-- Lines 141-165: the text `print_packet` writes. -/
def print_packet (sync_count : Int) (packet_data packet_check : List Char) : List Char :=
  List.replicate sync_count.toNat 'S' ++ ['P', ' '] ++
    print_packet_loop packet_data packet_check
      (Nat.max packet_data.length packet_check.length) 0 ++
    ['\n']

/-- The character the specification (4.5) gives position `i` of a report. -/
def report_char (d c : List Char) (i : Nat) : Char :=
  match d.get? i, c.get? i with
  | none, _ => 'C'
  | some _, none => 'D'
  | some x, some y => if x ≠ y then 'X' else x

/-- The report as the specification (4.5) words it: `s` characters `S`, the literal `P `,
one character for each position below the longer length with a space after every fourth
position, and a newline. -/
def report_format (s : Nat) (d c : List Char) : List Char :=
  List.replicate s 'S' ++ ['P', ' '] ++
    (List.range (Nat.max d.length c.length)).flatMap
      (fun i => report_char d c i :: (if (i + 1) % 4 = 0 then [' '] else [])) ++
    ['\n']

/-! ## The sync width estimator -/

/-- What one iteration of the loop of `detect_sync_width` leads to. -/
inductive SyncStep
  | ret (result : Bool)
  | again (detected_width sync_count wait_time : Int)
  deriving DecidableEq, Repr

/-- Lines 193-205: the iteration of `detect_sync_width` once both counts are measured.  The
sums, products and the quotient of lines 197 and 203-205 are those of the integers: they
are the `int` values of the program where `detect_sync_width_body_ok` holds. -/
def detect_sync_width_body (detected_width sync_count hi_count lo_count : Int) : SyncStep :=
  if decide (detected_width > 1) &&
      decide ((lo_count : ℚ) > fl (lit_1_7 * (detected_width : ℚ))) then .ret true
  else
    let total := hi_count + lo_count
    if !within_range hi_count (fl ((total : ℚ) / 2)) lit_0_01 ||
        !within_range lo_count (fl ((total : ℚ) / 2)) lit_0_01 then .ret false
    else
      let detected_width := (detected_width * sync_count + hi_count).tdiv (sync_count + 1)
      .again detected_width (sync_count + 1) (detected_width * 4)

/-- The two calls of `count_until` in `detect_sync_width`, with the locals live across
them. -/
inductive SyncSite
  /-- Line 190. -/
  | hi (wait_time : Int)
  /-- Line 191. -/
  | lo (wait_time hi_count : Int)
  deriving DecidableEq, Repr

/-- The predicate passed at the call. -/
def SyncSite.fn : SyncSite → Sample → Bool
  | .hi _ => is_low
  | .lo _ _ => is_high

/-- The bound passed at the call. -/
def SyncSite.max : SyncSite → Int
  | .hi wait_time => wait_time
  | .lo wait_time _ => wait_time

/-- Where `detect_sync_width` goes once a call of `count_until` has returned. -/
inductive SyncControl
  | call (site : SyncSite) (detected_width sync_count : Int)
  | ret (result : Bool) (detected_width sync_count : Int)
  deriving DecidableEq, Repr

/-- Lines 190-206: `detect_sync_width` from the return of `count_until` at `site` with
value `k` up to its next call of `count_until` or its return. -/
def detect_sync_width_step (detected_width sync_count : Int) : SyncSite → Int → SyncControl
  | .hi wait_time, hi_count => .call (.lo wait_time hi_count) detected_width sync_count
  | .lo _ hi_count, lo_count =>
    match detect_sync_width_body detected_width sync_count hi_count lo_count with
    | .ret result => .ret result detected_width sync_count
    | .again detected_width' sync_count' wait_time => .call (.hi wait_time) detected_width' sync_count'

/-- How `detect_sync_width` comes out on a finite supply of samples: it returns, leaving
the members `detected_width` and `sync_count` as given, or a read throws, or `next()` finds
no sample left. -/
inductive SyncResult
  | ret (result : Bool) (detected_width sync_count : Int) (rest : List Sample)
  | timeout_error (detected_width sync_count : Int) (rest : List Sample)
  | blocked (site : SyncSite) (count detected_width sync_count : Int)
  deriving DecidableEq, Repr

/-- Lines 189-206 run on the unread samples, from inside `count_until` at `site` with
local `count`. -/
def detect_sync_width_from :
    SyncSite → Int → Int → Int → List Sample → SyncResult
  | site, count, detected_width, sync_count, [] =>
    .blocked site count detected_width sync_count
  | site, count, detected_width, sync_count, x :: rest =>
    match count_until_step site.fn site.max count x with
    | .again count' => detect_sync_width_from site count' detected_width sync_count rest
    | .timeout_error => .timeout_error detected_width sync_count rest
    | .ret k =>
      match detect_sync_width_step detected_width sync_count site k with
      | .call site' detected_width' sync_count' =>
        detect_sync_width_from site' 0 detected_width' sync_count' rest
      | .ret result detected_width' sync_count' =>
        .ret result detected_width' sync_count' rest

/-- Lines 186-207: `bool detect_sync_width()`, called with the member `sync_count` as
given, on the unread samples `xs`. -/
def detect_sync_width (sync_count : Int) (xs : List Sample) : SyncResult :=
  detect_sync_width_from (.hi (-1)) 0 0 sync_count xs

/-! ## The frame receiver -/

/-- The `const int` locals of `receive_data`, lines 210-214. -/
structure Widths where
  one_width : Int
  zero_width : Int
  preamb_width : Int
  end_width : Int
  timeout : Int
  deriving DecidableEq, Repr

/-- Lines 210-214. -/
def receive_data_locals (detected_width : Int) : Widths :=
  { one_width := detected_width
    zero_width := detected_width.tdiv 2
    preamb_width := detected_width * 2
    end_width := detected_width * 4
    timeout := detected_width * 4 * 2 }

/-- The calls of `count_until` in `receive_data`, with the locals live across them. -/
inductive RecvSite
  /-- Line 217. -/
  | hi
  /-- Line 230. -/
  | lo (hi : Int) (logic_val : Bool)
  /-- Line 235. -/
  | mid_low
  /-- Line 236. -/
  | mid_high
  deriving DecidableEq, Repr

/-- The predicate passed at the call. -/
def RecvSite.fn : RecvSite → Sample → Bool
  | .hi => is_low
  | .lo _ _ => is_high
  | .mid_low => is_low
  | .mid_high => is_high

/-- Where `receive_data` goes once a call of `count_until` has returned; `out` is the
vector as it then stands. -/
inductive RecvControl
  | call (site : RecvSite) (out : List Char)
  | ret (out : List Char)
  | too_many_bits_error (out : List Char)
  | undefined
  deriving DecidableEq, Repr

/-- Lines 219-228: the bit a high run of `hi` counts stands for, `none` when the function
returns because it is neither. -/
def receive_data_hi (w : Widths) (hi : Int) : Option Bool :=
  if within_range hi w.one_width lit_0_1 then some true
  else if within_range hi w.zero_width lit_0_1 then some false
  else none

/-- The member `pop_back` of `std::vector<char>`: `none` on an empty vector, where the
call has no defined behaviour. -/
def pop_back (v : List Char) : Option (List Char) :=
  if v = [] then none else some v.dropLast

/-- Lines 249-254. -/
def receive_data_push (out : List Char) (logic_val : Bool) : RecvControl :=
  let out := out ++ [if logic_val then '1' else '0']
  if out.length > 1024 then .too_many_bits_error out else .call .hi out

/-- Lines 232-254: the rest of an iteration of `receive_data` once `lo` is measured. -/
def receive_data_lo (w : Widths) (out : List Char) (logic_val : Bool) (lo : Int) :
    RecvControl :=
  if within_range lo w.preamb_width lit_0_1 then
    match pop_back out with
    | none => .undefined
    | some out => .call .mid_low out
  else if lo > w.end_width then
    match pop_back out with
    | none => .undefined
    | some out => .ret out
  else if within_range lo w.zero_width lit_0_1 then receive_data_push out logic_val
  else if within_range lo w.one_width lit_0_1 then receive_data_push out logic_val
  else .ret out

/-- Lines 216-255: `receive_data` from the return of `count_until` at `site` with value
`k` up to its next call of `count_until`, its return or its throw. -/
def receive_data_step (w : Widths) (out : List Char) : RecvSite → Int → RecvControl
  | .hi, hi =>
    match receive_data_hi w hi with
    | some logic_val => .call (.lo hi logic_val) out
    | none => .ret out
  | .lo _ logic_val, lo => receive_data_lo w out logic_val lo
  | .mid_low, _ => .call .mid_high out
  | .mid_high, _ => .ret out

/-- How `receive_data` comes out on a finite supply of samples. -/
inductive RecvResult
  | ret (out : List Char) (rest : List Sample)
  | too_many_bits_error (out : List Char) (rest : List Sample)
  | timeout_error (out : List Char) (rest : List Sample)
  | undefined
  | blocked (site : RecvSite) (count : Int) (out : List Char)
  deriving DecidableEq, Repr

/-- Lines 216-255 run on the unread samples, from inside `count_until` at `site` with
local `count`. -/
def receive_data_from (w : Widths) :
    RecvSite → Int → List Char → List Sample → RecvResult
  | site, count, out, [] => .blocked site count out
  | site, count, out, x :: rest =>
    match count_until_step site.fn w.timeout count x with
    | .again count' => receive_data_from w site count' out rest
    | .timeout_error => .timeout_error out rest
    | .ret k =>
      match receive_data_step w out site k with
      | .call site' out' => receive_data_from w site' 0 out' rest
      | .ret out' => .ret out' rest
      | .too_many_bits_error out' => .too_many_bits_error out' rest
      | .undefined => .undefined

/-- Lines 209-256: `void receive_data(std::vector<char>& out)`, called with the member
`detected_width` and the vector `out` as given, on the unread samples `xs`. -/
def receive_data (detected_width : Int) (out : List Char) (xs : List Sample) : RecvResult :=
  receive_data_from (receive_data_locals detected_width) .hi 0 out xs

/-! ## The decoding procedure as a resumable computation -/

/-- The members of `decode_impl::state` the decoding procedure works on (lines 94-97), and
the text written to the standard output so far. -/
structure decoder_state where
  sync_count : Int
  detected_width : Int
  packet_data : List Char
  packet_check : List Char
  stdout : List Char
  deriving DecidableEq, Repr

/-- The vector the reference parameter `out` of `receive_data` is bound to. -/
inductive Frame
  /-- The call of line 275. -/
  | packet_data
  /-- The call of line 276. -/
  | packet_check
  deriving DecidableEq, Repr

/-- The vector `out` refers to. -/
def decoder_state.out (d : decoder_state) : Frame → List Char
  | .packet_data => d.packet_data
  | .packet_check => d.packet_check

/-- Assignment to the vector `out` refers to. -/
def decoder_state.set_out (d : decoder_state) : Frame → List Char → decoder_state
  | .packet_data, v => { d with packet_data := v }
  | .packet_check, v => { d with packet_check := v }

/-- The calls of `count_until` (directly or through `wait_until`) in the procedure `run`
and the functions it calls, each with the locals that are live across it. -/
inductive Site
  /-- `run`, line 259. -/
  | run_rising
  /-- `detect_sync_width`, called at line 261. -/
  | sync (site : SyncSite)
  /-- `run`, line 267. -/
  | run_preamble (timeout : Int)
  /-- `run`, line 273. -/
  | run_gap (timeout : Int)
  /-- `receive_data(out)`, called at line 275 or 276. -/
  | recv (out : Frame) (w : Widths) (site : RecvSite)
  deriving DecidableEq, Repr

/-- The predicate passed at a call site. -/
def Site.fn : Site → Sample → Bool
  | .run_rising => is_high
  | .sync site => site.fn
  | .run_preamble _ => is_low
  | .run_gap _ => is_high
  | .recv _ _ site => site.fn

/-- The bound passed at a call site (`-1`: none). -/
def Site.max : Site → Int
  | .run_rising => -1
  | .sync site => site.max
  | .run_preamble timeout => timeout
  | .run_gap timeout => timeout
  | .recv _ w _ => w.timeout

/-- The ways an attempt (one execution of `call_run`) ends. -/
inductive Ending
  /-- `run` returned after line 278. -/
  | completed
  /-- `run` returned at line 262. -/
  | no_sync
  /-- `run` returned at line 270. -/
  | bad_preamble
  /-- A `timeout_error` reached the handler at line 180. -/
  | timeout_error
  /-- A `too_many_bits_error` reached the handler at line 181. -/
  | too_many_bits_error
  deriving DecidableEq, Repr

/-- Where the procedure goes once the code between two reads has run. -/
inductive Control
  /-- It calls `count_until` at this site. -/
  | call (site : Site)
  /-- `call_run` returns. -/
  | ended (how : Ending)
  /-- It has popped an empty vector. -/
  | undefined
  deriving DecidableEq, Repr

/-- A call `receive_data(out)`: lines 210-214, up to the first read at line 217. -/
def call_receive_data (d : decoder_state) (out : Frame) : decoder_state × Control :=
  (d, .call (.recv out (receive_data_locals d.detected_width) .hi))

/-- `run` from the return of `receive_data(out)` on: line 276 after the data frame, line
278 after the check frame. -/
def run_after_receive (d : decoder_state) : Frame → decoder_state × Control
  | .packet_data => call_receive_data d .packet_check
  | .packet_check =>
    ({ d with stdout := d.stdout ++ print_packet d.sync_count d.packet_data d.packet_check },
      .ended .completed)

/-- The code the procedure runs from the return of `count_until` at `site` with value `k`
up to its next call of `count_until`, or to the end of the attempt. -/
def continue_from (d : decoder_state) : Site → Int → decoder_state × Control
  | .run_rising, _ =>
    -- lines 261, 187-190
    ({ d with detected_width := 0 }, .call (.sync (.hi (-1))))
  | .sync site, k =>
    match detect_sync_width_step d.detected_width d.sync_count site k with
    | .call site' detected_width sync_count =>
      ({ d with detected_width := detected_width, sync_count := sync_count },
        .call (.sync site'))
    | .ret true detected_width sync_count =>
      -- lines 261-267
      ({ d with detected_width := detected_width, sync_count := sync_count },
        .call (.run_preamble (4 * detected_width)))
    | .ret false detected_width sync_count =>
      -- lines 261-262
      ({ d with detected_width := detected_width, sync_count := sync_count },
        .ended .no_sync)
  | .run_preamble timeout, preamble_size =>
    -- lines 268-273
    if !within_range preamble_size (fl (2 * (d.detected_width : ℚ))) lit_0_1 then
      (d, .ended .bad_preamble)
    else (d, .call (.run_gap timeout))
  | .run_gap _, _ =>
    -- line 275
    call_receive_data d .packet_data
  | .recv out w site, k =>
    match receive_data_step w (d.out out) site k with
    | .call site' v => (d.set_out out v, .call (.recv out w site'))
    | .ret v => run_after_receive (d.set_out out v) out
    | .too_many_bits_error v => (d.set_out out v, .ended .too_many_bits_error)
    | .undefined => (d, .undefined)

/-- Lines 172-176: the start of `call_run`, up to the call of `run`. -/
def call_run_clear (d : decoder_state) : decoder_state :=
  { d with sync_count := 0, packet_data := [], packet_check := [] }

/-- The saved `process_context`. -/
inductive Context
  /-- As `reset` makes it: resuming it enters `call_run`. -/
  | call_run
  /-- Inside `next()`, called from `count_until` at `site` whose local `count` has the
  given value. -/
  | next (site : Site) (count : Int)
  deriving DecidableEq, Repr

/-- How the procedure stands after it was given one sample. -/
inductive Progress
  /-- It is back in `next()`. -/
  | reading (site : Site) (count : Int) (d : decoder_state)
  /-- `call_run` has returned. -/
  | ended (how : Ending) (d : decoder_state)
  /-- It has popped an empty vector. -/
  | undefined
  deriving DecidableEq, Repr

/-- The procedure, inside `count_until` at `site` with local `count`, gets the sample `x`
from `next()` and runs up to its next call of `next()`. -/
def take (d : decoder_state) (site : Site) (count : Int) (x : Sample) : Progress :=
  match count_until_step site.fn site.max count x with
  | .again count' => .reading site count' d
  | .timeout_error => .ended .timeout_error d
  | .ret k =>
    match continue_from d site k with
    | (d', .call site') => .reading site' 0 d'
    | (d', .ended how) => .ended how d'
    | (_, .undefined) => .undefined

/-- The procedure is resumed from the context `c` with the sample `x` at hand: a fresh
context first runs lines 167-179 and 259 up to the first `next()`. -/
def deliver (d : decoder_state) (c : Context) (x : Sample) : Progress :=
  match c with
  | .call_run => take (call_run_clear d) .run_rising 0 x
  | .next site count => take d site count x

/-! ## The engine -/

/-- The struct `decode_impl::state` (lines 83-97): `process_context` is the context as
last saved (by `yield`) or made (by `reset`), `data` the samples from `data` up to
`endptr`. -/
structure state where
  need_reset : Bool
  process_context : Context
  data : List Sample
  vars : decoder_state
  deriving DecidableEq, Repr

/-- Line 103. -/
def state.hasNext (s : state) : Bool := !s.data.isEmpty

/-- Lines 281-283, reached through `uc_link` when `call_run` returns. -/
def fallthrough (s : state) : state :=
  { s with need_reset := true }

/-- Lines 285-294. -/
def reset (s : state) : state :=
  { s with need_reset := false, process_context := .call_run }

/-- Line 310 with the member initialisers of lines 83-97. -/
def state.new : state :=
  reset
    { need_reset := false, process_context := .call_run, data := [],
      vars := { sync_count := 0, detected_width := 0, packet_data := [], packet_check := [],
                stdout := [] } }

/-- How a stretch of execution of the procedure on the process stack comes out. -/
inductive ProcessResult
  /-- `next()` found no sample and yielded (lines 99-101, 110). -/
  | yielded (c : Context) (d : decoder_state)
  /-- `call_run` returned, with `rest` unread. -/
  | returned (how : Ending) (d : decoder_state) (rest : List Sample)
  /-- It has popped an empty vector. -/
  | undefined
  deriving DecidableEq, Repr

/-- The procedure run from the context `c` on the unread samples: each `next()` takes the
head of the list (lines 112-113). -/
def run_process : List Sample → Context → decoder_state → ProcessResult
  | [], c, d => .yielded c d
  | x :: rest, c, d =>
    match deliver d c x with
    | .reading site count d' => run_process rest (.next site count) d'
    | .ended how d' => .returned how d' rest
    | .undefined => .undefined

/-- What stops the engine for good. -/
inductive Fault
  /-- `pop_back` on an empty vector (lines 234, 239). -/
  | pop_back_empty
  /-- The assertion of line 297 failed. -/
  | assertion_failed
  /-- The loop of `resume` was cut off by the bound on its iterations. -/
  | out_of_fuel
  deriving DecidableEq, Repr

/-- The outcome of an engine operation. -/
inductive Outcome
  | ok (s : state)
  | fault (f : Fault)
  deriving DecidableEq, Repr

/-- Sequencing of engine operations. -/
def Outcome.bind (o : Outcome) (f : state → Outcome) : Outcome :=
  match o with
  | .ok s => f s
  | .fault e => .fault e

/-- Line 303: `swapcontext(&main_context, &process_context)`.  The procedure runs until it
yields, which saves its context, or until `call_run` returns, after which `fallthrough`
runs and control is back in `resume`. -/
def swapcontext (s : state) : Outcome :=
  match run_process s.data s.process_context s.vars with
  | .yielded c d => .ok { s with process_context := c, data := [], vars := d }
  | .returned _ d rest => .ok (fallthrough { s with data := rest, vars := d })
  | .undefined => .fault .pop_back_empty

/-- Lines 302-307, with a bound on the number of iterations. -/
def resume_loop : Nat → state → Outcome
  | 0, s => if s.hasNext then .fault .out_of_fuel else .ok s
  | fuel + 1, s =>
    if s.hasNext then
      match swapcontext s with
      | .ok s' => resume_loop fuel (if s'.need_reset then reset s' else s')
      | .fault f => .fault f
    else .ok s

/-- Lines 296-308: `void resume(const float *new_data, int size)`; the loop is given as
many iterations as there are samples. -/
def resume (s : state) (new_data : List Sample) : Outcome :=
  if s.hasNext then .fault .assertion_failed
  else resume_loop new_data.length { s with data := new_data }

/-- The samples delivered to the procedure one after the other, a fresh context taking the
place of one whose `call_run` has returned: what the hand-offs of `resume` add up to. -/
def steps : List Sample → Context → decoder_state → ProcessResult
  | [], c, d => .yielded c d
  | x :: rest, c, d =>
    match deliver d c x with
    | .reading site count d' => steps rest (.next site count) d'
    | .ended _ d' => steps rest .call_run d'
    | .undefined => .undefined

/-- The engine as `resume` leaves it when the procedure stands as given; `steps` never
comes out as `returned`. -/
def ProcessResult.outcome : ProcessResult → Outcome
  | .yielded c d => .ok { need_reset := false, process_context := c, data := [], vars := d }
  | .returned _ _ _ => .fault .out_of_fuel
  | .undefined => .fault .pop_back_empty

/-! ## Waveforms -/

/-- A run of `n` equal samples. -/
def run_of (x : Sample) (n : Nat) : List Sample := List.replicate n x

/-- A pulse pair: a high run of `h` samples `a` and a low run of `l` samples `b`. -/
def pulse (a b : Sample) (h l : Nat) : List Sample := run_of a h ++ run_of b l

/-- The waveform `w` repeated `n` times. -/
def cycles (w : List Sample) : Nat → List Sample
  | 0 => []
  | n + 1 => w ++ cycles w n

/-- The count `k` is in the 10% class of the width `width`, as `receive_data` tests it. -/
def in_class (k : ℕ) (width : Int) : Bool :=
  within_range ((k : Int) : ℚ) (width : ℚ) lit_0_1

/-- The character `receive_data` appends for a bit (line 249). -/
def bit_char (logic_val : Bool) : Char := if logic_val then '1' else '0'

/-- The waveform of a sequence of pulse pairs, each given by the lengths of its high run
and of its low run. -/
def pulses (a b : Sample) : List (ℕ × ℕ) → List Sample
  | [] => []
  | p :: ps => pulse a b p.1 p.2 ++ pulses a b ps

/-- The waveform of a sequence of pulse pairs as the counts see it, each pair given by its
two counts: the high samples counted, the low sample that ends the count, the low samples
counted, the high sample that ends the count. -/
def counted (a b : Sample) : List (ℕ × ℕ) → List Sample
  | [] => []
  | p :: ps => run_of a p.1 ++ b :: (run_of b p.2 ++ a :: counted a b ps)

/-! ## Successive calls -/

/-- The calls `state_->resume(...)` of successive calls of `general_work` (line 337), one
chunk each; a call that does not come back ends the sequence. -/
def resume_all (s : state) : List (List Sample) → Outcome
  | [] => .ok s
  | chunk :: chunks => (resume s chunk).bind (fun s' => resume_all s' chunks)

/-- The assertion of line 297 as evaluated at the entry of each of the successive calls of
`resume`, up to the first call that does not come back. -/
def resume_assertions (s : state) : List (List Sample) → List Bool
  | [] => []
  | chunk :: chunks =>
    (!s.hasNext) ::
      (match resume s chunk with
        | .ok s' => resume_assertions s' chunks
        | .fault _ => [])

/-! ## The history of the estimate -/

/-- The member `detected_width` as `detect_sync_width` leaves it, whichever way it comes
out. -/
def SyncResult.detected_width : SyncResult → Int
  | .ret _ detected_width _ _ => detected_width
  | .timeout_error detected_width _ _ => detected_width
  | .blocked _ _ detected_width _ => detected_width

/-- The member `sync_count` as `detect_sync_width` leaves it, whichever way it comes
out. -/
def SyncResult.sync_count : SyncResult → Int
  | .ret _ _ sync_count _ => sync_count
  | .timeout_error _ sync_count _ => sync_count
  | .blocked _ _ _ sync_count => sync_count

/-- The values of `hi_count` that line 203 folds into the estimate, in order, while
`detect_sync_width` runs on the unread samples: the recursion of `detect_sync_width_from`,
a value being recorded each time an iteration gets past the tests of lines 193-201. -/
def detect_sync_width_folds :
    SyncSite → Int → Int → Int → List Sample → List Int
  | _, _, _, _, [] => []
  | site, count, detected_width, sync_count, x :: rest =>
    match count_until_step site.fn site.max count x with
    | .again count' => detect_sync_width_folds site count' detected_width sync_count rest
    | .timeout_error => []
    | .ret k =>
      match detect_sync_width_step detected_width sync_count site k with
      | .call site' detected_width' sync_count' =>
        (match site with
          | .hi _ => []
          | .lo _ hi_count => [hi_count]) ++
          detect_sync_width_folds site' 0 detected_width' sync_count' rest
      | .ret _ _ _ => []

/-- Lines 203-204 applied to the high counts `hs` in turn, from the given estimate and pair
count: the estimate they lead to. -/
def fold_widths : Int → Int → List Int → Int
  | detected_width, _, [] => detected_width
  | detected_width, sync_count, hi_count :: hs =>
    fold_widths ((detected_width * sync_count + hi_count).tdiv (sync_count + 1))
      (sync_count + 1) hs

/-! ## The unit width between the sync and the frames -/

/-- What holds of the member `detected_width` while the procedure waits at a call site:
from the success of `detect_sync_width` on (lines 267-276) it is at least 2, and inside
`receive_data` the locals are those that lines 210-214 compute from it. -/
def Site.width_known : Site → decoder_state → Prop
  | .run_preamble _, d => 2 ≤ d.detected_width
  | .run_gap _, d => 2 ≤ d.detected_width
  | .recv _ w _, d => 2 ≤ d.detected_width ∧ w = receive_data_locals d.detected_width
  | .run_rising, _ => True
  | .sync _, _ => True

/-- The same of a saved context; nothing is asked of a fresh one. -/
def Context.width_known : Context → decoder_state → Prop
  | .call_run, _ => True
  | .next site _, d => site.width_known d

/-! ## The range of `int` -/

/-- The value fits the type `int` (32 bits, two's complement). -/
def int_ok (x : Int) : Bool := decide (-2147483648 ≤ x) && decide (x ≤ 2147483647)

/-- The `int` operations of one iteration of `detect_sync_width` all give a value of type
`int`: `hi_count + lo_count` (line 197) unless rule 1 has returned, and, when the pair is
folded, `detected_width * sync_count`, `... + hi_count` and `sync_count + 1` (lines
203-204) and `detected_width * 4` (line 205). -/
def detect_sync_width_body_ok (detected_width sync_count hi_count lo_count : Int) : Bool :=
  if decide (detected_width > 1) &&
      decide ((lo_count : ℚ) > fl (lit_1_7 * (detected_width : ℚ))) then true
  else
    let total := hi_count + lo_count
    int_ok total &&
      (if !within_range hi_count (fl ((total : ℚ) / 2)) lit_0_01 ||
          !within_range lo_count (fl ((total : ℚ) / 2)) lit_0_01 then true
        else
          int_ok (detected_width * sync_count) &&
            int_ok (detected_width * sync_count + hi_count) &&
            int_ok (sync_count + 1) &&
            int_ok ((detected_width * sync_count + hi_count).tdiv (sync_count + 1) * 4))

/-- No `int` operation overflows while `detect_sync_width` runs on the unread samples: the
recursion of `detect_sync_width_from`, with `count++` (line 129) checked at every sample
that is counted and the iteration checked each time a low count is returned.  Where it
holds, the integers of the model are the `int` values of the program. -/
def detect_sync_width_ok :
    SyncSite → Int → Int → Int → List Sample → Bool
  | _, _, _, _, [] => true
  | site, count, detected_width, sync_count, x :: rest =>
    match count_until_step site.fn site.max count x with
    | .again count' =>
      int_ok count' && detect_sync_width_ok site count' detected_width sync_count rest
    | .timeout_error => true
    | .ret k =>
      (match site with
        | .hi _ => true
        | .lo _ hi_count => detect_sync_width_body_ok detected_width sync_count hi_count k) &&
        (match detect_sync_width_step detected_width sync_count site k with
          | .call site' detected_width' sync_count' =>
            detect_sync_width_ok site' 0 detected_width' sync_count' rest
          | .ret _ _ _ => true)

/-! ## `double` arithmetic: theorems -/

theorem round_even_intCast (n : ℤ) : round_even (n : ℚ) = n := by
  simp [round_even]

theorem round_even_sub_le (x : ℚ) : (round_even x : ℚ) - x ≤ 1 / 2 := by
  have h1 := Int.floor_le x
  have h2 := Int.lt_floor_add_one x
  unfold round_even
  simp only
  split_ifs with a b c
  · linarith
  · push_cast; linarith
  · linarith
  · push_cast; linarith

theorem sub_round_even_le (x : ℚ) : x - (round_even x : ℚ) ≤ 1 / 2 := by
  have h1 := Int.floor_le x
  have h2 := Int.lt_floor_add_one x
  unfold round_even
  simp only
  split_ifs with a b c
  · linarith
  · push_cast; linarith
  · linarith
  · push_cast; linarith

theorem round_even_mono {x y : ℚ} (h : x ≤ y) : round_even x ≤ round_even y := by
  by_contra hlt
  push_neg at hlt
  have h1 : (round_even y : ℚ) + 1 ≤ (round_even x : ℚ) := by exact_mod_cast hlt
  have h2 := round_even_sub_le x
  have h3 := sub_round_even_le y
  have hxy : x = y := by linarith
  subst hxy
  exact lt_irrefl _ hlt

theorem fl_zero : fl 0 = 0 := by simp [fl]

theorem two_zpow_pos (k : ℤ) : (0 : ℚ) < (2 : ℚ) ^ k := zpow_pos (by norm_num) k

/-- A positive value with at most 53 significant bits is a binary64 value. -/
theorem fl_natCast_mul_zpow (n : ℕ) (k : ℤ) (hn : n < 2 ^ 53) :
    fl ((n : ℚ) * (2 : ℚ) ^ k) = (n : ℚ) * (2 : ℚ) ^ k := by
  rcases Nat.eq_zero_or_pos n with h0 | hpos
  · subst h0; simp [fl]
  have hx : (0 : ℚ) < (n : ℚ) * (2 : ℚ) ^ k :=
    mul_pos (by exact_mod_cast hpos) (two_zpow_pos k)
  unfold fl
  rw [if_neg (ne_of_gt hx), abs_of_pos hx]
  simp only
  set e := Int.log 2 ((n : ℚ) * (2 : ℚ) ^ k) with he
  have hle : (2 : ℚ) ^ e ≤ (n : ℚ) * (2 : ℚ) ^ k := by
    have := Int.zpow_log_le_self (b := 2) (by norm_num) hx
    simpa using this
  have hlt : (n : ℚ) * (2 : ℚ) ^ k < (2 : ℚ) ^ ((53 : ℤ) + k) := by
    rw [zpow_add₀ (by norm_num : (2 : ℚ) ≠ 0)]
    have : (n : ℚ) < (2 : ℚ) ^ (53 : ℤ) := by
      have h' : (n : ℚ) < ((2 ^ 53 : ℕ) : ℚ) := by exact_mod_cast hn
      have h'' : (((2 : ℕ) ^ 53 : ℕ) : ℚ) = (2 : ℚ) ^ (53 : ℤ) := by norm_num
      rwa [h''] at h'
    exact mul_lt_mul_of_pos_right this (two_zpow_pos k)
  have hek : e < 53 + k := by
    have := lt_of_le_of_lt hle hlt
    exact (zpow_lt_zpow_iff_right₀ (by norm_num : (1 : ℚ) < 2)).mp this
  obtain ⟨t, ht⟩ : ∃ t : ℕ, (t : ℤ) = k - (e - 52) := ⟨(k - (e - 52)).toNat, by
    rw [Int.toNat_of_nonneg]; omega⟩
  have hdiv : (n : ℚ) * (2 : ℚ) ^ k / (2 : ℚ) ^ (e - 52) = (((n * 2 ^ t : ℕ) : ℤ) : ℚ) := by
    rw [mul_div_assoc, ← zpow_sub₀ (by norm_num : (2 : ℚ) ≠ 0), ← ht]
    push_cast
    rw [zpow_natCast]
  rw [hdiv, round_even_intCast]
  push_cast
  rw [mul_assoc, ← zpow_natCast, ht, ← zpow_add₀ (by norm_num : (2 : ℚ) ≠ 0)]
  congr 2
  ring

theorem fl_natCast (n : ℕ) (hn : n < 2 ^ 53) : fl (n : ℚ) = n := by
  simpa using fl_natCast_mul_zpow n 0 hn

theorem fl_of_pos {x : ℚ} (hx : 0 < x) :
    fl x = (round_even (x / (2 : ℚ) ^ (Int.log 2 x - 52)) : ℚ) * (2 : ℚ) ^ (Int.log 2 x - 52) := by
  unfold fl
  rw [if_neg (ne_of_gt hx), abs_of_pos hx]

theorem zpow_log_le_fl {x : ℚ} (hx : 0 < x) : (2 : ℚ) ^ Int.log 2 x ≤ fl x := by
  rw [fl_of_pos hx]
  set e := Int.log 2 x with he
  have hu := two_zpow_pos (e - 52)
  have hle : (2 : ℚ) ^ e ≤ x := by
    have := Int.zpow_log_le_self (b := 2) (by norm_num) hx
    simpa using this
  have h1 : (((2 ^ 52 : ℕ) : ℤ) : ℚ) ≤ x / (2 : ℚ) ^ (e - 52) := by
    rw [le_div_iff₀ hu]
    have : (((2 ^ 52 : ℕ) : ℤ) : ℚ) = (2 : ℚ) ^ (52 : ℤ) := by norm_num
    rw [this, ← zpow_add₀ (by norm_num : (2 : ℚ) ≠ 0)]
    simpa using hle
  have h2 := round_even_mono h1
  rw [round_even_intCast] at h2
  have h3 : (((2 ^ 52 : ℕ) : ℤ) : ℚ) ≤ (round_even (x / (2 : ℚ) ^ (e - 52)) : ℚ) := by
    exact_mod_cast h2
  have h4 : (2 : ℚ) ^ e = (((2 ^ 52 : ℕ) : ℤ) : ℚ) * (2 : ℚ) ^ (e - 52) := by
    have : (((2 ^ 52 : ℕ) : ℤ) : ℚ) = (2 : ℚ) ^ (52 : ℤ) := by norm_num
    rw [this, ← zpow_add₀ (by norm_num : (2 : ℚ) ≠ 0)]
    simp
  rw [h4]
  exact mul_le_mul_of_nonneg_right h3 hu.le

theorem fl_le_zpow_log_succ {x : ℚ} (hx : 0 < x) : fl x ≤ (2 : ℚ) ^ (Int.log 2 x + 1) := by
  rw [fl_of_pos hx]
  set e := Int.log 2 x with he
  have hu := two_zpow_pos (e - 52)
  have hlt : x < (2 : ℚ) ^ (e + 1) := by
    have := Int.lt_zpow_succ_log_self (b := 2) (by norm_num) x
    simpa using this
  have h1 : x / (2 : ℚ) ^ (e - 52) ≤ (((2 ^ 53 : ℕ) : ℤ) : ℚ) := by
    rw [div_le_iff₀ hu]
    have : (((2 ^ 53 : ℕ) : ℤ) : ℚ) = (2 : ℚ) ^ (53 : ℤ) := by norm_num
    rw [this, ← zpow_add₀ (by norm_num : (2 : ℚ) ≠ 0)]
    have h53 : (53 : ℤ) + (e - 52) = e + 1 := by ring
    rw [h53]
    exact hlt.le
  have h2 := round_even_mono h1
  rw [round_even_intCast] at h2
  have h3 : (round_even (x / (2 : ℚ) ^ (e - 52)) : ℚ) ≤ (((2 ^ 53 : ℕ) : ℤ) : ℚ) := by
    exact_mod_cast h2
  have h4 : (2 : ℚ) ^ (e + 1) = (((2 ^ 53 : ℕ) : ℤ) : ℚ) * (2 : ℚ) ^ (e - 52) := by
    have : (((2 ^ 53 : ℕ) : ℤ) : ℚ) = (2 : ℚ) ^ (53 : ℤ) := by norm_num
    rw [this, ← zpow_add₀ (by norm_num : (2 : ℚ) ≠ 0)]
    congr 1
    ring
  rw [h4]
  exact mul_le_mul_of_nonneg_right h3 hu.le

theorem fl_pos {x : ℚ} (hx : 0 < x) : 0 < fl x :=
  lt_of_lt_of_le (two_zpow_pos _) (zpow_log_le_fl hx)

/-- Rounding is monotone on the non-negative values. -/
theorem fl_mono {x y : ℚ} (hx : 0 ≤ x) (hxy : x ≤ y) : fl x ≤ fl y := by
  rcases eq_or_lt_of_le hx with h0 | hpos
  · rw [← h0, fl_zero]
    rcases eq_or_lt_of_le (le_trans hx hxy) with h0' | hpos'
    · rw [← h0', fl_zero]
    · exact (fl_pos hpos').le
  have hy : 0 < y := lt_of_lt_of_le hpos hxy
  have hlog : Int.log 2 x ≤ Int.log 2 y := Int.log_mono_right hpos hxy
  rcases eq_or_lt_of_le hlog with heq | hlt
  · rw [fl_of_pos hpos, fl_of_pos hy, heq]
    have hu := two_zpow_pos (Int.log 2 y - 52)
    have h1 : x / (2 : ℚ) ^ (Int.log 2 y - 52) ≤ y / (2 : ℚ) ^ (Int.log 2 y - 52) :=
      div_le_div_of_nonneg_right hxy hu.le
    have h2 := round_even_mono h1
    have h3 : (round_even (x / (2 : ℚ) ^ (Int.log 2 y - 52)) : ℚ) ≤
        (round_even (y / (2 : ℚ) ^ (Int.log 2 y - 52)) : ℚ) := by exact_mod_cast h2
    exact mul_le_mul_of_nonneg_right h3 hu.le
  · calc fl x ≤ (2 : ℚ) ^ (Int.log 2 x + 1) := fl_le_zpow_log_succ hpos
      _ ≤ (2 : ℚ) ^ Int.log 2 y :=
        zpow_le_zpow_right₀ (by norm_num) (by omega)
      _ ≤ fl y := zpow_log_le_fl hy

theorem lit_1_7_eq : lit_1_7 = 7656119366529843 / 4503599627370496 := by decide!

theorem one_add_lit_0_01 : fl (1 + lit_0_01) = 4548635623644201 / 4503599627370496 := by
  decide!

theorem one_sub_lit_0_01 : fl (1 - lit_0_01) = 4458563631096791 / 4503599627370496 := by
  decide!

theorem one_add_lit_0_1 : fl (1 + lit_0_1) = 2476979795053773 / 2251799813685248 := by
  decide!

theorem one_sub_lit_0_1 : fl (1 - lit_0_1) = 8106479329266893 / 9007199254740992 := by
  decide!

/-- A pair of equal non-zero counts passes the 1% test of lines 198-199. -/
theorem within_range_self (h : ℕ) (h1 : 1 ≤ h) (h2 : h < 2 ^ 31) :
    within_range (h : ℚ) (fl ((((h : ℤ) + (h : ℤ) : ℤ) : ℚ) / 2)) lit_0_01 = true := by
  have hmean : ((((h : ℤ) + (h : ℤ) : ℤ) : ℚ) / 2) = (h : ℚ) := by push_cast; ring
  rw [hmean, fl_natCast h (by omega)]
  unfold within_range
  rw [one_add_lit_0_01, one_sub_lit_0_01]
  have hpos : (0 : ℚ) < h := by exact_mod_cast h1
  have lo_le : fl ((h : ℚ) * (4458563631096791 / 4503599627370496)) ≤
      ((127 * h : ℕ) : ℚ) * (2 : ℚ) ^ (-7 : ℤ) := by
    rw [← fl_natCast_mul_zpow (127 * h) (-7) (by omega)]
    apply fl_mono (by positivity)
    push_cast
    norm_num
    nlinarith
  have hi_ge : ((129 * h : ℕ) : ℚ) * (2 : ℚ) ^ (-7 : ℤ) ≤
      fl ((h : ℚ) * (4548635623644201 / 4503599627370496)) := by
    rw [← fl_natCast_mul_zpow (129 * h) (-7) (by omega)]
    apply fl_mono (by positivity)
    push_cast
    norm_num
    nlinarith
  have e1 : ((127 * h : ℕ) : ℚ) * (2 : ℚ) ^ (-7 : ℤ) < h := by
    push_cast; norm_num; nlinarith
  have e2 : (h : ℚ) < ((129 * h : ℕ) : ℚ) * (2 : ℚ) ^ (-7 : ℤ) := by
    push_cast; norm_num; nlinarith
  simp only [Bool.and_eq_true, decide_eq_true_eq, gt_iff_lt]
  exact ⟨lt_of_le_of_lt lo_le e1, lt_of_lt_of_le e2 hi_ge⟩

/-- Rule 1 does not fire on a low count equal to the estimate. -/
theorem not_rule_one_self (h : ℕ) (h2 : h < 2 ^ 31) :
    ¬ ((h : ℚ) > fl (lit_1_7 * (h : ℚ))) := by
  rw [lit_1_7_eq, not_lt]
  calc (h : ℚ) = fl (h : ℚ) := (fl_natCast h (by omega)).symm
    _ ≤ _ := by
      apply fl_mono (by positivity)
      have : (0 : ℚ) ≤ h := by positivity
      nlinarith

/-- Rule 1 fires on a low count that exceeds 1.7 times the estimate by half a sample. -/
theorem rule_one_of_le (lo dw : ℕ) (h : 17 * dw + 5 ≤ 10 * lo) (h2 : lo < 2 ^ 52) :
    (lo : ℚ) > fl (lit_1_7 * (dw : ℚ)) := by
  rw [lit_1_7_eq]
  have hlo : 1 ≤ lo := by omega
  have key : fl (7656119366529843 / 4503599627370496 * (dw : ℚ)) ≤
      ((2 * lo - 1 : ℕ) : ℚ) * (2 : ℚ) ^ (-1 : ℤ) := by
    rw [← fl_natCast_mul_zpow (2 * lo - 1) (-1) (by omega)]
    apply fl_mono (by positivity)
    have h' : (17 : ℚ) * dw + 5 ≤ 10 * lo := by exact_mod_cast h
    have hd : (0 : ℚ) ≤ dw := by positivity
    rw [Nat.cast_sub (by omega)]
    push_cast
    norm_num
    nlinarith
  have e : ((2 * lo - 1 : ℕ) : ℚ) * (2 : ℚ) ^ (-1 : ℤ) < lo := by
    rw [Nat.cast_sub (by omega)]
    push_cast
    norm_num
    linarith
  exact lt_of_le_of_lt key e

/-! ## The report: theorems -/

theorem print_packet_at_eq (d c : List Char) (i : Nat) :
    print_packet_at d c i = report_char d c i := by
  unfold print_packet_at report_char
  by_cases hd : i < d.length
  · by_cases hc : i < c.length
    · have h1 : ¬ (i ≥ d.length) := by omega
      have h2 : ¬ (i ≥ c.length) := by omega
      simp only [h1, h2, if_false, List.get?_eq_get hd, List.get?_eq_get hc]
      simp [List.getD_eq_getElem?_getD, List.getElem?_eq_getElem hd,
        List.getElem?_eq_getElem hc]
    · have h1 : ¬ (i ≥ d.length) := by omega
      have h2 : i ≥ c.length := by omega
      have h3 : c.get? i = none := List.get?_eq_none.mpr h2
      simp only [h1, h2, if_false, if_true, List.get?_eq_get hd, h3]
  · have h1 : i ≥ d.length := by omega
    have h3 : d.get? i = none := List.get?_eq_none.mpr h1
    simp only [h1, if_true, h3]

theorem print_packet_loop_eq (d c : List Char) :
    ∀ (fuel idx : Nat), idx + fuel = Nat.max d.length c.length →
      print_packet_loop d c fuel idx =
        (List.range' idx fuel).flatMap
          (fun i => report_char d c i :: (if (i + 1) % 4 = 0 then [' '] else []))
  | 0, _, _ => by simp [print_packet_loop]
  | fuel + 1, idx, h => by
    have hlt : idx < Nat.max d.length c.length := by omega
    have ih := print_packet_loop_eq d c fuel (idx + 1) (by omega)
    simp only [print_packet_loop, hlt, if_true, ih, List.range'_succ, List.flatMap_cons,
      print_packet_at_eq, List.cons_append]

/-- C3 (amended): the report has the format the specification describes, for every sync count and every
pair of bit sequences; for the data frame 1100 and the check frame 1110 the text after
`P ` is `11X0`, the group separator and the newline. -/
theorem print_packet_format (s : Nat) (d c : List Char) :
    print_packet (s : Int) d c = report_format s d c ∧
    print_packet (s : Int) ['1', '1', '0', '0'] ['1', '1', '1', '0'] =
      List.replicate s 'S' ++ ['P', ' ', '1', '1', 'X', '0', ' ', '\n'] := by
  have key : ∀ d c : List Char, print_packet (s : Int) d c = report_format s d c := by
    intro d c
    unfold print_packet report_format
    rw [print_packet_loop_eq d c _ 0 (by simp), List.range_eq_range', Int.toNat_ofNat]
  refine ⟨key d c, ?_⟩
  rw [key]
  simp [report_format, report_char, List.range_succ, List.flatMap]

/-- C3 (counterexample): for the data frame 1100, the check frame 1110 and no sync pulse the report
is not `P 110X` with the separator and the newline: the mismatch is at the third position. -/
theorem print_packet_1100_1110 :
    print_packet 0 ['1', '1', '0', '0'] ['1', '1', '1', '0'] =
        ['P', ' ', '1', '1', 'X', '0', ' ', '\n'] ∧
      print_packet 0 ['1', '1', '0', '0'] ['1', '1', '1', '0'] ≠
        ['P', ' ', '1', '1', '0', 'X', ' ', '\n'] := by
  decide

/-! ## The engine: theorems -/

theorem resume_loop_nil (fuel : Nat) (s : state) (h : s.data = []) :
    resume_loop fuel s = .ok s := by
  cases fuel <;> simp [resume_loop, state.hasNext, h]

theorem run_process_steps :
    ∀ (xs : List Sample) (c : Context) (d : decoder_state),
      match run_process xs c d with
      | .yielded c' d' => steps xs c d = .yielded c' d'
      | .returned _ d' rest =>
        rest.length < xs.length ∧ (∃ pre, xs = pre ++ rest) ∧
          steps xs c d = steps rest .call_run d'
      | .undefined => steps xs c d = .undefined
  | [], c, d => by simp [run_process, steps]
  | x :: rest, c, d => by
    simp only [run_process, steps]
    cases h : deliver d c x with
    | reading site count d' =>
      simp only
      have ih := run_process_steps rest (.next site count) d'
      cases h2 : run_process rest (.next site count) d' with
      | yielded c' d'' => rw [h2] at ih; simpa using ih
      | returned how d'' rest' =>
        rw [h2] at ih
        simp only at ih ⊢
        obtain ⟨h3, ⟨pre, h4⟩, h5⟩ := ih
        refine ⟨?_, ⟨x :: pre, ?_⟩, h5⟩
        · simp only [List.length_cons]; omega
        · simp [h4]
      | undefined => rw [h2] at ih; simpa using ih
    | ended how d' =>
      simp only
      exact ⟨by simp, ⟨[x], by simp⟩, trivial⟩
    | undefined => simp

theorem resume_loop_steps :
    ∀ (fuel : Nat) (s : state), s.need_reset = false → s.data.length ≤ fuel →
      resume_loop fuel s = (steps s.data s.process_context s.vars).outcome
  | 0, s, h1, h2 => by
    have h : s.data = [] := List.length_eq_zero.mp (by omega)
    rw [resume_loop_nil 0 s h, h]
    cases s
    simp_all [steps, ProcessResult.outcome]
  | fuel + 1, s, h1, h2 => by
    by_cases h : s.data = []
    · rw [resume_loop_nil _ s h, h]
      cases s
      simp_all [steps, ProcessResult.outcome]
    · have hn : s.hasNext = true := by
        cases hd : s.data with
        | nil => exact absurd hd h
        | cons x xs => simp [state.hasNext, hd]
      have key := run_process_steps s.data s.process_context s.vars
      unfold resume_loop
      simp only [hn, if_true, swapcontext]
      cases hr : run_process s.data s.process_context s.vars with
      | yielded c' d' =>
        rw [hr] at key
        simp only at key ⊢
        simp only [h1, Bool.false_eq_true, if_false]
        rw [resume_loop_nil _ _ rfl, key]
        simp [ProcessResult.outcome, h1]
      | returned how d' rest =>
        rw [hr] at key
        simp only at key ⊢
        obtain ⟨h3, -, h5⟩ := key
        simp only [fallthrough, if_true]
        rw [resume_loop_steps fuel _ (by simp [reset]) (by simp [reset]; omega), h5]
        simp [reset]
      | undefined =>
        rw [hr] at key
        simp only at key ⊢
        rw [key]
        simp [ProcessResult.outcome]

theorem steps_append :
    ∀ (xs ys : List Sample) (c : Context) (d : decoder_state),
      steps (xs ++ ys) c d =
        match steps xs c d with
        | .yielded c' d' => steps ys c' d'
        | r => r
  | [], ys, c, d => by simp [steps]
  | x :: xs, ys, c, d => by
    simp only [List.cons_append, steps]
    cases h : deliver d c x with
    | reading site count d' => simpa using steps_append xs ys (.next site count) d'
    | ended how d' => simpa using steps_append xs ys .call_run d'
    | undefined => simp

theorem resume_eq_steps (s : state) (chunk : List Sample)
    (h1 : s.hasNext = false) (h2 : s.need_reset = false) :
    resume s chunk = (steps chunk s.process_context s.vars).outcome := by
  unfold resume
  simp only [h1, Bool.false_eq_true, if_false]
  rw [resume_loop_steps _ _ (by simpa using h2) (by simp)]

/-- C1: chunk-split invariance of `resume`.  For every engine state with no unread samples (the flag
`need_reset` being clear, as it is whenever control is outside `resume`) and all sample
sequences `xs` and `ys`, `resume xs` followed by `resume ys` comes out exactly as
`resume (xs ++ ys)`: the same members, the same saved context, the same text written. -/
theorem resume_split (s : state) (xs ys : List Sample)
    (h1 : s.hasNext = false) (h2 : s.need_reset = false) :
    (resume s xs).bind (fun s' => resume s' ys) = resume s (xs ++ ys) := by
  rw [resume_eq_steps s xs h1 h2, resume_eq_steps s (xs ++ ys) h1 h2, steps_append]
  cases h : steps xs s.process_context s.vars with
  | yielded c' d' =>
    simp only [ProcessResult.outcome, Outcome.bind]
    rw [resume_eq_steps _ ys (by simp [state.hasNext]) rfl]
    rfl
  | returned how d' rest => simp [ProcessResult.outcome, Outcome.bind]
  | undefined => simp [ProcessResult.outcome, Outcome.bind]

/-- C1 (witness): a sync sequence delivered in two calls and in one. -/
theorem resume_split_witness :
    state.new.hasNext = false ∧ state.new.need_reset = false ∧
      (resume state.new [0, 1, 1, 1, 0]).bind (fun s' => resume s' [0, 0, 1, 1, 1, 0]) =
        resume state.new ([0, 1, 1, 1, 0] ++ [0, 0, 1, 1, 1, 0]) :=
  ⟨rfl, rfl, resume_split state.new [0, 1, 1, 1, 0] [0, 0, 1, 1, 1, 0] rfl rfl⟩

theorem steps_not_returned :
    ∀ (xs : List Sample) (c : Context) (d : decoder_state) (how : Ending)
      (d' : decoder_state) (rest : List Sample), steps xs c d ≠ .returned how d' rest
  | [], c, d, how, d', rest => by simp [steps]
  | x :: xs, c, d, how, d', rest => by
    simp only [steps]
    cases h : deliver d c x with
    | reading site count d'' => exact steps_not_returned xs _ _ how d' rest
    | ended how' d'' => exact steps_not_returned xs _ _ how d' rest
    | undefined => simp

/-- On a chunk supplied when no sample is unread, `resume` never exhausts the bound of one
loop iteration per sample, and unless the procedure pops an empty vector it returns with
every sample of the chunk delivered once, in order, and none left unread; each hand-off
that returns has read at least one sample. -/
theorem resume_consumes (s : state) (chunk : List Sample)
    (h1 : s.hasNext = false) (h2 : s.need_reset = false) :
    (resume s chunk = .fault .pop_back_empty ∨
      ∃ s', resume s chunk = .ok s' ∧ s'.hasNext = false ∧ s'.need_reset = false ∧
        steps chunk s.process_context s.vars = .yielded s'.process_context s'.vars) ∧
    (∀ t t' : state, t.hasNext = true → swapcontext t = .ok t' →
      t'.data.length < t.data.length) := by
  constructor
  · rw [resume_eq_steps s chunk h1 h2]
    cases h : steps chunk s.process_context s.vars with
    | yielded c' d' => exact Or.inr ⟨_, rfl, rfl, rfl, rfl⟩
    | returned how d' rest => exact absurd h (steps_not_returned _ _ _ _ _ _)
    | undefined => exact Or.inl rfl
  · intro t t' ht hs
    have key := run_process_steps t.data t.process_context t.vars
    unfold swapcontext at hs
    have hne : t.data ≠ [] := by
      intro h0
      simp [state.hasNext, h0] at ht
    cases hr : run_process t.data t.process_context t.vars with
    | yielded c' d' =>
      rw [hr] at hs
      simp only [Outcome.ok.injEq] at hs
      subst hs
      exact List.length_pos.mpr hne
    | returned how d' rest =>
      rw [hr] at hs key
      simp only [Outcome.ok.injEq, fallthrough] at hs
      subst hs
      exact key.1
    | undefined =>
      rw [hr] at hs
      simp at hs

/-- C2 (failing input): a fresh engine is given one sync pair measured as 2 and 2, a closing pair, a
preamble pulse measured as 4, and a first frame pulse measured as 2 whose low run,
measured as 4, is in the mid-amble class.  The data sequence is empty when line 234 pops
it, so the call of `resume` has no defined behaviour from the 29th sample on and does not
come back with the chunk consumed. -/
theorem resume_pop_back_empty :
    resume state.new
      [1, 1, 1, 0, 0, 0, 1, 1, 1, 0, 0, 0, 0, 0, 1, 1, 1, 1, 1, 0,
        1, 1, 1, 0, 0, 0, 0, 0, 1, 0, 1, 0] = .fault .pop_back_empty := by
  decide!

/-- C9: however an attempt ends -- normal completion, failed sync, bad preamble, timeout, overflow --
the hand-off returns to `resume` with a proper suffix of the samples unread, `resume`
goes on with a fresh context and that same suffix, and the next attempt reads the head of
the suffix first, at the wait for a rising edge of line 259, with the sync count zero and
both bit sequences empty. -/
theorem attempt_restart (s : state) (how : Ending) (d' : decoder_state)
    (rest : List Sample) (fuel : Nat)
    (h : run_process s.data s.process_context s.vars = .returned how d' rest) :
    (∃ pre, pre ≠ [] ∧ s.data = pre ++ rest) ∧
    resume_loop (fuel + 1) s =
      resume_loop fuel
        { need_reset := false, process_context := .call_run, data := rest, vars := d' } ∧
    ∀ (y : Sample) (rest' : List Sample), rest = y :: rest' →
      (call_run_clear d').sync_count = 0 ∧ (call_run_clear d').packet_data = [] ∧
      (call_run_clear d').packet_check = [] ∧
      run_process rest .call_run d' =
        if is_high y then
          run_process rest' (.next (.sync (.hi (-1))) 0)
            { call_run_clear d' with detected_width := 0 }
        else run_process rest' (.next .run_rising 1) (call_run_clear d') := by
  have key := run_process_steps s.data s.process_context s.vars
  rw [h] at key
  obtain ⟨hlt, ⟨pre, hpre⟩, -⟩ := key
  refine ⟨⟨pre, ?_, hpre⟩, ?_, ?_⟩
  · rintro rfl
    rw [hpre] at hlt
    simp at hlt
  · have hne : s.data ≠ [] := by
      intro h0
      rw [h0] at hlt
      simp at hlt
    have hn : s.hasNext = true := by
      cases hd : s.data with
      | nil => exact absurd hd hne
      | cons x xs => simp [state.hasNext, hd]
    simp [resume_loop, hn, swapcontext, h, fallthrough, reset]
  · intro y rest' hy
    subst hy
    refine ⟨rfl, rfl, rfl, ?_⟩
    by_cases hy : is_high y = true
    · simp [run_process, deliver, take, count_until_step, Site.fn, Site.max, hy,
        continue_from]
    · simp [run_process, deliver, take, count_until_step, Site.fn, Site.max, hy]

/-- C9 (witness): an attempt that ends at its third sample, the sync having failed. -/
theorem attempt_restart_witness :
    run_process [1, 0, 1, 1] .call_run state.new.vars =
        .returned .no_sync state.new.vars [1] ∧
      ((∃ pre, pre ≠ [] ∧ [1, 0, 1, (1 : Sample)] = pre ++ [1]) ∧
        resume_loop (0 + 1) { state.new with data := [1, 0, 1, 1] } =
          resume_loop 0
            { need_reset := false, process_context := .call_run, data := [1],
              vars := state.new.vars } ∧
        ∀ (y : Sample) (rest' : List Sample), [(1 : Sample)] = y :: rest' →
          (call_run_clear state.new.vars).sync_count = 0 ∧
          (call_run_clear state.new.vars).packet_data = [] ∧
          (call_run_clear state.new.vars).packet_check = [] ∧
          run_process [1] .call_run state.new.vars =
            if is_high y then
              run_process rest' (.next (.sync (.hi (-1))) 0)
                { call_run_clear state.new.vars with detected_width := 0 }
            else run_process rest' (.next .run_rising 1) (call_run_clear state.new.vars)) :=
  ⟨by decide!,
    attempt_restart { state.new with data := [1, 0, 1, 1] } .no_sync state.new.vars [1] 0
      (by decide!)⟩

/-! ## The sync width estimator: theorems -/

theorem count_until_step_again (fn : Sample → Bool) (max count : Int) (x : Sample)
    (hx : fn x = false) (hm : max = -1 ∨ count < max) :
    count_until_step fn max count x = .again (count + 1) := by
  unfold count_until_step
  rcases hm with h | h
  · simp [hx, h]
  · simp [hx, h]

theorem count_until_step_ret (fn : Sample → Bool) (max count : Int) (x : Sample)
    (hx : fn x = true) (hm : max = -1 ∨ count ≤ max) :
    count_until_step fn max count x = .ret count := by
  unfold count_until_step
  rcases hm with h | h
  · simp [hx, h]
  · simp [hx, not_lt.mpr h]

theorem count_until_step_cap (fn : Sample → Bool) (max : Int) (x : Sample)
    (hx : fn x = false) (hm : max ≠ -1) :
    count_until_step fn max max x = .ret max := by
  unfold count_until_step
  simp [hx, hm]

theorem is_low_of_is_high {x : Sample} (h : is_high x = true) : is_low x = false := by
  unfold is_high at h
  unfold is_low
  simp only [decide_eq_true_eq, decide_eq_false_iff_not, not_lt] at h ⊢
  exact h.le

theorem is_high_of_is_low {x : Sample} (h : is_low x = true) : is_high x = false := by
  unfold is_low at h
  unfold is_high
  simp only [decide_eq_true_eq, decide_eq_false_iff_not, not_lt, gt_iff_lt] at h ⊢
  exact h.le

theorem detect_sync_width_from_run (site : SyncSite) (dw sc : Int) (x : Sample)
    (hx : site.fn x = false) (rest : List Sample) :
    ∀ (n : Nat) (count : Int), (site.max = -1 ∨ count + n ≤ site.max) →
      detect_sync_width_from site count dw sc (run_of x n ++ rest) =
        detect_sync_width_from site (count + n) dw sc rest
  | 0, count, _ => by simp [run_of]
  | n + 1, count, hm => by
    have hstep : count_until_step site.fn site.max count x = .again (count + 1) :=
      count_until_step_again _ _ _ _ hx (by
        rcases hm with h | h
        · exact Or.inl h
        · right; push_cast at h; omega)
    have ih := detect_sync_width_from_run site dw sc x hx rest n (count + 1) (by
      rcases hm with h | h
      · exact Or.inl h
      · right; push_cast at h; omega)
    rw [show run_of x (n + 1) ++ rest = x :: (run_of x n ++ rest) from rfl]
    simp only [detect_sync_width_from, hstep]
    rw [ih]
    congr 1
    push_cast
    ring

theorem detect_sync_width_from_edge (site : SyncSite) (count dw sc : Int) (x : Sample)
    (hx : site.fn x = true) (hm : site.max = -1 ∨ count ≤ site.max) (rest : List Sample) :
    detect_sync_width_from site count dw sc (x :: rest) =
      match detect_sync_width_step dw sc site count with
      | .call site' dw' sc' => detect_sync_width_from site' 0 dw' sc' rest
      | .ret result dw' sc' => .ret result dw' sc' rest := by
  simp only [detect_sync_width_from, count_until_step_ret _ _ _ _ hx hm]

theorem detect_sync_width_from_cap (site : SyncSite) (dw sc : Int) (x : Sample)
    (hx : site.fn x = false) (hm : site.max ≠ -1) (rest : List Sample) :
    detect_sync_width_from site site.max dw sc (x :: rest) =
      match detect_sync_width_step dw sc site site.max with
      | .call site' dw' sc' => detect_sync_width_from site' 0 dw' sc' rest
      | .ret result dw' sc' => .ret result dw' sc' rest := by
  simp only [detect_sync_width_from, count_until_step_cap _ _ _ hx hm]

theorem run_of_succ (x : Sample) (n : Nat) : run_of x (n + 1) = x :: run_of x n := rfl

theorem cycles_pulse_shift (a b : Sample) (h : Nat) (T : List Sample) :
    ∀ N : Nat, cycles (pulse a b (h + 1) (h + 1)) N ++ a :: T =
      a :: (cycles (run_of a h ++ b :: run_of b h ++ [a]) N ++ T)
  | 0 => rfl
  | N + 1 => by
    simp only [cycles, List.append_assoc]
    rw [cycles_pulse_shift a b h T N]
    simp [pulse, run_of_succ]

theorem detect_sync_width_body_uniform (h : ℕ) (dw sc : Int) (h1 : 1 ≤ h) (h2 : h < 2 ^ 31)
    (inv : (sc = 0 ∧ dw = 0) ∨ (1 ≤ sc ∧ dw = h)) :
    detect_sync_width_body dw sc h h = .again h (sc + 1) (h * 4) := by
  have hw := within_range_self h h1 h2
  have hr := not_rule_one_self h h2
  have hw' : within_range (((h : ℤ) : ℚ)) (fl ((((h : ℤ) + (h : ℤ) : ℤ) : ℚ) / 2))
      lit_0_01 = true := by
    simpa using hw
  unfold detect_sync_width_body
  rcases inv with ⟨hsc, hdw⟩ | ⟨hsc, hdw⟩
  · subst hsc hdw
    have h0 : decide ((0 : ℤ) > 1) = false := by decide
    simp only [h0, Bool.false_and, Bool.false_eq_true, if_false, hw', Bool.not_true,
      Bool.or_self, mul_zero, zero_add, Int.tdiv_one]
  · subst hdw
    have hd : ((h : ℤ) * sc + h).tdiv (sc + 1) = h := by
      have : (h : ℤ) * sc + h = h * (sc + 1) := by ring
      rw [this, Int.mul_tdiv_cancel _ (by omega)]
    have hr' : decide ((((h : ℤ) : ℚ)) > fl (lit_1_7 * (((h : ℤ) : ℚ)))) = false := by
      simpa using hr
    simp only [hr', Bool.and_false, Bool.false_eq_true, if_false, hw', Bool.not_true,
      Bool.or_self, hd]

theorem detect_sync_width_from_block (a b : Sample) (ha : is_high a = true)
    (hb : is_low b = true) (h : ℕ) (h1 : 1 ≤ h) (h2 : h < 2 ^ 31) (dw sc wt : Int)
    (inv : (sc = 0 ∧ dw = 0 ∧ wt = -1) ∨ (1 ≤ sc ∧ dw = h ∧ wt = h * 4))
    (rest : List Sample) :
    detect_sync_width_from (.hi wt) 0 dw sc
        ((run_of a h ++ b :: run_of b h ++ [a]) ++ rest) =
      detect_sync_width_from (.hi (h * 4)) 0 h (sc + 1) rest := by
  have hwt : wt = -1 ∨ (0 : ℤ) + h ≤ wt := by
    rcases inv with ⟨-, -, h3⟩ | ⟨-, -, h3⟩
    · exact Or.inl h3
    · right; omega
  have hwt' : wt = -1 ∨ (h : ℤ) ≤ wt := by simpa using hwt
  have hbody := detect_sync_width_body_uniform h dw sc h1 h2 (by
    rcases inv with ⟨x, y, -⟩ | ⟨x, y, -⟩
    · exact Or.inl ⟨x, y⟩
    · exact Or.inr ⟨x, y⟩)
  simp only [List.append_assoc, List.cons_append, List.nil_append]
  rw [detect_sync_width_from_run (.hi wt) dw sc a (is_low_of_is_high ha) _ h 0 hwt, zero_add,
    detect_sync_width_from_edge (.hi wt) h dw sc b hb hwt']
  simp only [detect_sync_width_step]
  rw [detect_sync_width_from_run (.lo wt h) dw sc b (is_high_of_is_low hb) _ h 0 hwt, zero_add]
  rw [detect_sync_width_from_edge (.lo wt h) h dw sc a ha hwt']
  simp only [detect_sync_width_step, hbody]

theorem detect_sync_width_from_cycles (a b : Sample) (ha : is_high a = true)
    (hb : is_low b = true) (h : ℕ) (h1 : 1 ≤ h) (h2 : h < 2 ^ 31) (rest : List Sample) :
    ∀ (N : ℕ) (dw sc wt : Int),
      ((sc = 0 ∧ dw = 0 ∧ wt = -1) ∨ (1 ≤ sc ∧ dw = h ∧ wt = h * 4)) →
      detect_sync_width_from (.hi wt) 0 dw sc
          (cycles (run_of a h ++ b :: run_of b h ++ [a]) (N + 1) ++ rest) =
        detect_sync_width_from (.hi (h * 4)) 0 h (sc + (N + 1 : ℕ)) rest
  | 0, dw, sc, wt, inv => by
    simp only [cycles, List.append_nil]
    rw [detect_sync_width_from_block a b ha hb h h1 h2 dw sc wt inv]
    simp
  | N + 1, dw, sc, wt, inv => by
    rw [show cycles (run_of a h ++ b :: run_of b h ++ [a]) (N + 1 + 1) ++ rest =
      (run_of a h ++ b :: run_of b h ++ [a]) ++
        (cycles (run_of a h ++ b :: run_of b h ++ [a]) (N + 1) ++ rest) by
      simp [cycles]]
    rw [detect_sync_width_from_block a b ha hb h h1 h2 dw sc wt inv,
      detect_sync_width_from_cycles a b ha hb h h1 h2 rest N h (sc + 1) (h * 4) (by
        right
        refine ⟨?_, rfl, rfl⟩
        rcases inv with ⟨x, -, -⟩ | ⟨x, -, -⟩ <;> omega)]
    congr 1
    push_cast
    ring

theorem detect_sync_width_from_close (a b : Sample) (ha : is_high a = true)
    (hb : is_low b = true) (h N H L : ℕ) (h1 : 2 ≤ h) (h2 : h < 2 ^ 31) (hH : H ≤ h * 4)
    (hL : 17 * h + 5 ≤ 10 * L) :
    ∃ rest, detect_sync_width_from (.hi (h * 4)) 0 h N
        (run_of a H ++ b :: run_of b L ++ [a]) = .ret true h N rest := by
  have hdw : decide ((h : ℤ) > 1) = true := by simp; omega
  simp only [List.append_assoc, List.cons_append, List.nil_append]
  rw [detect_sync_width_from_run (.hi (h * 4)) h N a (is_low_of_is_high ha) _ H 0
      (by right; simp only [SyncSite.max]; omega),
    zero_add,
    detect_sync_width_from_edge (.hi (h * 4)) H h N b hb
      (by right; simp only [SyncSite.max]; omega)]
  simp only [detect_sync_width_step]
  by_cases hcap : L ≤ h * 4
  · refine ⟨[], ?_⟩
    have hr := rule_one_of_le L h hL (by omega)
    have hr' : decide ((((L : ℤ) : ℚ)) > fl (lit_1_7 * (((h : ℤ) : ℚ)))) = true := by
      simpa using hr
    rw [detect_sync_width_from_run (.lo (h * 4) H) h N b (is_high_of_is_low hb) _ L 0
        (by right; simp only [SyncSite.max]; omega),
      zero_add,
      detect_sync_width_from_edge (.lo (h * 4) H) L h N a ha
        (by right; simp only [SyncSite.max]; omega)]
    simp only [detect_sync_width_step, detect_sync_width_body, hdw, hr', Bool.and_self,
      if_true]
  · push_neg at hcap
    obtain ⟨k, hk⟩ : ∃ k, L = h * 4 + (k + 1) := ⟨L - h * 4 - 1, by omega⟩
    refine ⟨run_of b k ++ [a], ?_⟩
    have hr := rule_one_of_le (h * 4) h (by omega) (by omega)
    have hr' : decide (((((h : ℤ) * 4 : ℤ) : ℚ)) > fl (lit_1_7 * (((h : ℤ) : ℚ)))) = true := by
      simpa using hr
    have hsplit : run_of b L ++ [a] = run_of b (h * 4) ++ b :: (run_of b k ++ [a]) := by
      rw [hk]
      simp [run_of, List.replicate_add, List.replicate_succ]
    rw [hsplit,
      detect_sync_width_from_run (.lo (h * 4) H) h N b (is_high_of_is_low hb) _ (h * 4) 0
        (by right; simp only [SyncSite.max]; push_cast; omega),
      zero_add]
    have hcap' := detect_sync_width_from_cap (.lo (h * 4) H) h N b (is_high_of_is_low hb)
      (by simp only [SyncSite.max]; omega) (run_of b k ++ [a])
    simp only [SyncSite.max] at hcap'
    rw [show (((h * 4 : ℕ) : ℤ)) = (h : ℤ) * 4 by push_cast; ring, hcap']
    simp only [detect_sync_width_step, detect_sync_width_body, hdw, hr', Bool.and_self,
      if_true]

/-! ## The frame receiver: theorems -/

theorem receive_data_from_run (w : Widths) (site : RecvSite) (out : List Char) (x : Sample)
    (hx : site.fn x = false) (rest : List Sample) :
    ∀ (n : Nat) (count : Int), count + n ≤ w.timeout →
      receive_data_from w site count out (run_of x n ++ rest) =
        receive_data_from w site (count + n) out rest
  | 0, count, _ => by simp [run_of]
  | n + 1, count, hm => by
    have hstep : count_until_step site.fn w.timeout count x = .again (count + 1) :=
      count_until_step_again _ _ _ _ hx (by right; push_cast at hm; omega)
    have ih := receive_data_from_run w site out x hx rest n (count + 1) (by
      push_cast at hm; omega)
    rw [show run_of x (n + 1) ++ rest = x :: (run_of x n ++ rest) from rfl]
    simp only [receive_data_from, hstep]
    rw [ih]
    congr 1
    push_cast
    ring

theorem receive_data_from_edge_call (w : Widths) (site site' : RecvSite) (count : Int)
    (out out' : List Char) (x : Sample) (hx : site.fn x = true) (hm : count ≤ w.timeout)
    (hstep : receive_data_step w out site count = .call site' out') (rest : List Sample) :
    receive_data_from w site count out (x :: rest) = receive_data_from w site' 0 out' rest := by
  rw [receive_data_from, count_until_step_ret _ _ _ _ hx (Or.inr hm)]
  simp only []
  rw [hstep]

theorem receive_data_from_edge_ret (w : Widths) (site : RecvSite) (count : Int)
    (out out' : List Char) (x : Sample) (hx : site.fn x = true) (hm : count ≤ w.timeout)
    (hstep : receive_data_step w out site count = .ret out') (rest : List Sample) :
    receive_data_from w site count out (x :: rest) = .ret out' rest := by
  rw [receive_data_from, count_until_step_ret _ _ _ _ hx (Or.inr hm)]
  simp only []
  rw [hstep]

theorem receive_data_from_edge_throw (w : Widths) (site : RecvSite) (count : Int)
    (out out' : List Char) (x : Sample) (hx : site.fn x = true) (hm : count ≤ w.timeout)
    (hstep : receive_data_step w out site count = .too_many_bits_error out')
    (rest : List Sample) :
    receive_data_from w site count out (x :: rest) = .too_many_bits_error out' rest := by
  rw [receive_data_from, count_until_step_ret _ _ _ _ hx (Or.inr hm)]
  simp only []
  rw [hstep]

theorem receive_data_from_cap_ret (w : Widths) (site : RecvSite)
    (out out' : List Char) (x : Sample) (hx : site.fn x = false) (hm : w.timeout ≠ -1)
    (hstep : receive_data_step w out site w.timeout = .ret out') (rest : List Sample) :
    receive_data_from w site w.timeout out (x :: rest) = .ret out' rest := by
  rw [receive_data_from, count_until_step_cap _ _ _ hx hm]
  simp only []
  rw [hstep]

theorem receive_data_step_hi (w : Widths) (out : List Char) (hi : Int) (logic_val : Bool)
    (h : receive_data_hi w hi = some logic_val) :
    receive_data_step w out .hi hi = .call (.lo hi logic_val) out := by
  rw [receive_data_step, h]

theorem receive_data_step_lo (w : Widths) (out : List Char) (hi lo : Int)
    (logic_val : Bool) :
    receive_data_step w out (.lo hi logic_val) lo = receive_data_lo w out logic_val lo := by
  rw [receive_data_step]

theorem receive_data_push_ok (out : List Char) (logic_val : Bool)
    (h : out.length < 1024) :
    receive_data_push out logic_val = .call .hi (out ++ [bit_char logic_val]) := by
  have hlen : ¬ ((out ++ [bit_char logic_val]).length > 1024) := by
    rw [List.length_append, List.length_singleton]; omega
  unfold receive_data_push
  exact if_neg hlen

theorem within_range_bounds {act exp : ℚ} (h : within_range act exp lit_0_1 = true) :
    fl (exp * (8106479329266893 / 9007199254740992)) < act ∧
      act < fl (exp * (2476979795053773 / 2251799813685248)) := by
  unfold within_range at h
  rw [one_add_lit_0_1, one_sub_lit_0_1] at h
  simpa using h

/-- A count in the 10% class of a width `X` is below `2 * X`, and so in no class of a width
from `2 * X` on. -/
theorem within_range_lt_two_mul (act : ℚ) (X : ℕ) (hX : X < 2 ^ 31)
    (h : within_range act X lit_0_1 = true) : act < 2 * (X : ℚ) := by
  have h1 := (within_range_bounds h).2
  have h2 : fl ((X : ℚ) * (2476979795053773 / 2251799813685248)) ≤ fl (((2 * X : ℕ) : ℚ)) := by
    apply fl_mono (by positivity)
    push_cast
    have : (0 : ℚ) ≤ X := by positivity
    nlinarith
  rw [fl_natCast (2 * X) (by omega)] at h2
  push_cast at h2
  linarith

/-- The 10% classes of two widths at least a quarter apart are disjoint. -/
theorem not_within_range_of_le (act : ℚ) (X Y : ℕ) (hY : 5 * X ≤ 4 * Y)
    (h : within_range act X lit_0_1 = true) : within_range act Y lit_0_1 = false := by
  have h1 := (within_range_bounds h).2
  rw [Bool.eq_false_iff]
  intro h2
  have h3 := (within_range_bounds h2).1
  have h4 : fl ((X : ℚ) * (2476979795053773 / 2251799813685248)) ≤
      fl ((Y : ℚ) * (8106479329266893 / 9007199254740992)) := by
    apply fl_mono (by positivity)
    have : (5 : ℚ) * X ≤ 4 * Y := by exact_mod_cast hY
    have hX0 : (0 : ℚ) ≤ X := by positivity
    nlinarith
  linarith
theorem locals_one (U : ℕ) : (receive_data_locals U).one_width = (U : ℤ) := rfl

theorem locals_zero (U : ℕ) : (receive_data_locals U).zero_width = ((U / 2 : ℕ) : ℤ) :=
  (Int.ofNat_tdiv U 2).symm

theorem locals_preamb (U : ℕ) : (receive_data_locals U).preamb_width = ((U * 2 : ℕ) : ℤ) := by
  simp [receive_data_locals]

theorem locals_end (U : ℕ) : (receive_data_locals U).end_width = ((U * 4 : ℕ) : ℤ) := by
  simp [receive_data_locals]

theorem locals_timeout (U : ℕ) : (receive_data_locals U).timeout = ((U * 8 : ℕ) : ℤ) := by
  simp [receive_data_locals]; ring

theorem in_class_natCast (k X : ℕ) :
    in_class k (X : ℤ) = within_range (k : ℚ) (X : ℚ) lit_0_1 := by
  simp [in_class]

/-- A high count in the class of a bit is classified as that bit, and is below twice the
unit. -/
theorem in_class_bit (U : ℕ) (hU' : U < 2 ^ 28) (bit : Bool) (h : ℕ)
    (hh : in_class h (if bit then (receive_data_locals U).one_width
      else (receive_data_locals U).zero_width) = true) :
    receive_data_hi (receive_data_locals U) h = some bit ∧ h < 2 * U := by
  cases bit with
  | true =>
    simp only [if_true, locals_one, in_class_natCast] at hh
    have hb := within_range_lt_two_mul _ U (by omega) hh
    refine ⟨?_, by exact_mod_cast hb⟩
    have hh' : within_range (((h : ℤ)) : ℚ) (((receive_data_locals U).one_width : ℤ) : ℚ)
        lit_0_1 = true := by
      rw [locals_one]; simpa using hh
    simp only [receive_data_hi, hh', if_true]
  | false =>
    simp only [Bool.false_eq_true, if_false, locals_zero, in_class_natCast] at hh
    have hb := within_range_lt_two_mul _ (U / 2) (by omega) hh
    have hb' : h < 2 * (U / 2) := by exact_mod_cast hb
    refine ⟨?_, by omega⟩
    have hone := not_within_range_of_le _ (U / 2) U (by omega) hh
    have h1 : within_range (((h : ℤ)) : ℚ) (((receive_data_locals U).one_width : ℤ) : ℚ)
        lit_0_1 = false := by
      rw [locals_one]; simpa using hone
    have h2 : within_range (((h : ℤ)) : ℚ) (((receive_data_locals U).zero_width : ℤ) : ℚ)
        lit_0_1 = true := by
      rw [locals_zero]; simpa using hh
    simp only [receive_data_hi, h1, h2, Bool.false_eq_true, if_false, if_true]

/-- A low count in the zero-bit or the one-bit class makes the pulse pair a bit: line 249
is reached. -/
theorem receive_data_lo_bit (U : ℕ) (hU' : U < 2 ^ 28) (out : List Char)
    (logic_val : Bool) (l : ℕ)
    (hl : in_class l (receive_data_locals U).zero_width = true ∨
      in_class l (receive_data_locals U).one_width = true) :
    receive_data_lo (receive_data_locals U) out logic_val l =
        receive_data_push out logic_val ∧ l < 2 * U := by
  have key : ∃ X : ℕ, X ≤ U ∧ within_range (l : ℚ) (X : ℚ) lit_0_1 = true := by
    rcases hl with h | h
    · rw [locals_zero, in_class_natCast] at h
      exact ⟨U / 2, by omega, h⟩
    · rw [locals_one, in_class_natCast] at h
      exact ⟨U, le_refl _, h⟩
  obtain ⟨X, hX, hc⟩ := key
  have hb := within_range_lt_two_mul _ X (by omega) hc
  have hb' : l < 2 * X := by exact_mod_cast hb
  have hpre := not_within_range_of_le _ X (U * 2) (by omega) hc
  have h1 : within_range (((l : ℤ)) : ℚ) (((receive_data_locals U).preamb_width : ℤ) : ℚ)
      lit_0_1 = false := by
    rw [locals_preamb]; simpa using hpre
  have h2 : ¬ ((l : ℤ) > (receive_data_locals U).end_width) := by
    rw [locals_end]; push_cast; omega
  refine ⟨?_, by omega⟩
  unfold receive_data_lo
  simp only [h1, Bool.false_eq_true, if_false, h2]
  rcases hl with h | h
  · simp only [in_class] at h
    simp only [h, if_true]
  · simp only [in_class] at h
    simp only [h, if_true, ite_self]

theorem receive_data_from_pulse (a b : Sample) (ha : is_high a = true)
    (hb : is_low b = true) (U : ℕ) (hU' : U < 2 ^ 28) (out : List Char)
    (hout : out.length < 1024) (bit : Bool) (h l : ℕ)
    (hh : in_class h (if bit then (receive_data_locals U).one_width
      else (receive_data_locals U).zero_width) = true)
    (hl : in_class l (receive_data_locals U).zero_width = true ∨
      in_class l (receive_data_locals U).one_width = true)
    (rest : List Sample) :
    receive_data_from (receive_data_locals U) .hi 0 out
        (run_of a h ++ b :: (run_of b l ++ a :: rest)) =
      receive_data_from (receive_data_locals U) .hi 0 (out ++ [bit_char bit]) rest := by
  obtain ⟨hhi, hh2⟩ := in_class_bit U hU' bit h hh
  obtain ⟨hlo, hl2⟩ := receive_data_lo_bit U hU' out bit l hl
  have ht := locals_timeout U
  have t1 : (0 : ℤ) + (h : ℕ) ≤ (receive_data_locals U).timeout := by
    rw [ht]; push_cast; omega
  have t2 : ((h : ℕ) : ℤ) ≤ (receive_data_locals U).timeout := by
    rw [ht]; push_cast; omega
  have t3 : (0 : ℤ) + (l : ℕ) ≤ (receive_data_locals U).timeout := by
    rw [ht]; push_cast; omega
  have t4 : ((l : ℕ) : ℤ) ≤ (receive_data_locals U).timeout := by
    rw [ht]; push_cast; omega
  rw [receive_data_from_run _ .hi out a (is_low_of_is_high ha) _ h 0 t1, zero_add,
    receive_data_from_edge_call _ .hi _ h out out b hb t2
      (receive_data_step_hi _ out h bit hhi),
    receive_data_from_run _ (.lo h bit) out b (is_high_of_is_low hb) _ l 0 t3, zero_add,
    receive_data_from_edge_call _ (.lo h bit) .hi l out (out ++ [bit_char bit]) a ha t4
      (by rw [receive_data_step_lo, hlo, receive_data_push_ok out bit hout])]
theorem pulses_shift (a b : Sample) (T : List Sample) :
    ∀ ps : List (ℕ × ℕ),
      pulses a b (ps.map (fun p => (p.1 + 1, p.2 + 1))) ++ a :: T =
        a :: (counted a b ps ++ T)
  | [] => rfl
  | p :: ps => by
    simp only [List.map_cons, pulses, counted, List.append_assoc]
    rw [pulses_shift a b T ps]
    simp [pulse, run_of_succ]

theorem receive_data_from_counted (a b : Sample) (ha : is_high a = true)
    (hb : is_low b = true) (U : ℕ) (hU' : U < 2 ^ 28) (rest : List Sample) :
    ∀ (ps : List (Bool × ℕ × ℕ)) (out : List Char), out.length + ps.length ≤ 1024 →
      (∀ p ∈ ps,
        in_class p.2.1 (if p.1 then (receive_data_locals U).one_width
          else (receive_data_locals U).zero_width) = true ∧
        (in_class p.2.2 (receive_data_locals U).zero_width = true ∨
          in_class p.2.2 (receive_data_locals U).one_width = true)) →
      receive_data_from (receive_data_locals U) .hi 0 out
          (counted a b (ps.map (fun p => p.2)) ++ rest) =
        receive_data_from (receive_data_locals U) .hi 0
          (out ++ ps.map (fun p => bit_char p.1)) rest
  | [], out, _, _ => by simp [counted]
  | p :: ps, out, hlen, hps => by
    have hp := hps p (List.mem_cons_self _ _)
    simp only [List.length_cons] at hlen
    simp only [List.map_cons, counted, List.append_assoc, List.cons_append]
    rw [receive_data_from_pulse a b ha hb U hU' out (by omega) p.1 p.2.1 p.2.2 hp.1 hp.2,
      receive_data_from_counted a b ha hb U hU' rest ps (out ++ [bit_char p.1])
        (by rw [List.length_append, List.length_singleton]; omega)
        (fun q hq => hps q (List.mem_cons_of_mem _ hq))]
    simp

theorem pop_back_of_ne_nil (out : List Char) (h : out ≠ []) :
    pop_back out = some out.dropLast := by
  unfold pop_back
  exact if_neg h

theorem receive_data_from_mid_amble (a b : Sample) (ha : is_high a = true)
    (hb : is_low b = true) (U : ℕ) (hU' : U < 2 ^ 28) (out : List Char)
    (hout : out ≠ []) (bt : Bool) (ht lt p q : ℕ)
    (hh : in_class ht (if bt then (receive_data_locals U).one_width
      else (receive_data_locals U).zero_width) = true)
    (hl : in_class lt (receive_data_locals U).preamb_width = true)
    (hp : p ≤ 8 * U) (hq : q ≤ 8 * U) :
    receive_data_from (receive_data_locals U) .hi 0 out
        (run_of a ht ++ b :: (run_of b lt ++ a :: (run_of a p ++ b :: (run_of b q ++ [a])))) =
      .ret out.dropLast [] := by
  obtain ⟨hhi, hh2⟩ := in_class_bit U hU' bt ht hh
  have ht' := locals_timeout U
  have hl' : within_range (lt : ℚ) ((U * 2 : ℕ) : ℚ) lit_0_1 = true := by
    rw [locals_preamb, in_class_natCast] at hl; exact hl
  have hlt := within_range_lt_two_mul _ (U * 2) (by omega) hl'
  have hlt' : lt < 2 * (U * 2) := by exact_mod_cast hlt
  have hlo : receive_data_lo (receive_data_locals U) out bt lt = .call .mid_low out.dropLast := by
    unfold receive_data_lo
    unfold in_class at hl
    rw [if_pos hl, pop_back_of_ne_nil out hout]
  rw [receive_data_from_run _ .hi out a (is_low_of_is_high ha) _ ht 0
      (by rw [ht']; push_cast; omega), zero_add,
    receive_data_from_edge_call _ .hi _ ht out out b hb (by rw [ht']; push_cast; omega)
      (receive_data_step_hi _ out ht bt hhi),
    receive_data_from_run _ (.lo ht bt) out b (is_high_of_is_low hb) _ lt 0
      (by rw [ht']; push_cast; omega), zero_add,
    receive_data_from_edge_call _ (.lo ht bt) .mid_low lt out out.dropLast a ha
      (by rw [ht']; push_cast; omega) (by rw [receive_data_step_lo, hlo]),
    receive_data_from_run _ .mid_low _ a (is_low_of_is_high ha) _ p 0
      (by rw [ht']; push_cast; omega), zero_add,
    receive_data_from_edge_call _ .mid_low .mid_high p _ out.dropLast b hb
      (by rw [ht']; push_cast; omega) (by rw [receive_data_step]),
    receive_data_from_run _ .mid_high _ b (is_high_of_is_low hb) _ q 0
      (by rw [ht']; push_cast; omega), zero_add,
    receive_data_from_edge_ret _ .mid_high q _ out.dropLast a ha
      (by rw [ht']; push_cast; omega) (by rw [receive_data_step])]

theorem receive_data_lo_end (U : ℕ) (hU' : U < 2 ^ 28) (out : List Char) (hout : out ≠ [])
    (bt : Bool) (lt : ℕ) (hl : 4 * U < lt) :
    receive_data_lo (receive_data_locals U) out bt lt = .ret out.dropLast := by
  have hpre : within_range (((lt : ℤ)) : ℚ) (((receive_data_locals U).preamb_width : ℤ) : ℚ)
      lit_0_1 = false := by
    rw [Bool.eq_false_iff]
    intro hc
    rw [locals_preamb] at hc
    have hc' : within_range (lt : ℚ) ((U * 2 : ℕ) : ℚ) lit_0_1 = true := by simpa using hc
    have hlt := within_range_lt_two_mul _ (U * 2) (by omega) hc'
    have hlt' : lt < 2 * (U * 2) := by exact_mod_cast hlt
    omega
  have hend : (lt : ℤ) > (receive_data_locals U).end_width := by
    rw [locals_end]; push_cast; omega
  unfold receive_data_lo
  rw [hpre, if_neg (by simp), if_pos hend, pop_back_of_ne_nil out hout]

theorem receive_data_from_end (a b : Sample) (ha : is_high a = true)
    (hb : is_low b = true) (U : ℕ) (hU : 1 ≤ U) (hU' : U < 2 ^ 28) (out : List Char)
    (hout : out ≠ []) (bt : Bool) (ht lt : ℕ)
    (hh : in_class ht (if bt then (receive_data_locals U).one_width
      else (receive_data_locals U).zero_width) = true)
    (hl : 4 * U < lt) :
    ∃ rest, receive_data_from (receive_data_locals U) .hi 0 out
        (run_of a ht ++ b :: (run_of b lt ++ [a])) = .ret out.dropLast rest := by
  obtain ⟨hhi, hh2⟩ := in_class_bit U hU' bt ht hh
  have ht' := locals_timeout U
  rw [receive_data_from_run _ .hi out a (is_low_of_is_high ha) _ ht 0
      (by rw [ht']; push_cast; omega), zero_add,
    receive_data_from_edge_call _ .hi _ ht out out b hb (by rw [ht']; push_cast; omega)
      (receive_data_step_hi _ out ht bt hhi)]
  by_cases hcap : lt ≤ 8 * U
  · refine ⟨[], ?_⟩
    rw [receive_data_from_run _ (.lo ht bt) out b (is_high_of_is_low hb) _ lt 0
        (by rw [ht']; push_cast; omega), zero_add,
      receive_data_from_edge_ret _ (.lo ht bt) lt out out.dropLast a ha
        (by rw [ht']; push_cast; omega)
        (by rw [receive_data_step_lo, receive_data_lo_end U hU' out hout bt lt hl])]
  · push_neg at hcap
    obtain ⟨k, hk⟩ : ∃ k, lt = U * 8 + (k + 1) := ⟨lt - U * 8 - 1, by omega⟩
    refine ⟨run_of b k ++ [a], ?_⟩
    have hsplit : run_of b lt ++ [a] = run_of b (U * 8) ++ b :: (run_of b k ++ [a]) := by
      rw [hk]
      simp [run_of, List.replicate_add, List.replicate_succ]
    have hcap' := receive_data_from_cap_ret (receive_data_locals U) (.lo ht bt) out
      out.dropLast b (is_high_of_is_low hb) (by rw [ht']; push_cast; omega)
      (by rw [receive_data_step_lo, ht',
        receive_data_lo_end U hU' out hout bt (U * 8) (by omega)])
      (run_of b k ++ [a])
    rw [hsplit,
      receive_data_from_run _ (.lo ht bt) out b (is_high_of_is_low hb) _ (U * 8) 0
        (by rw [ht']; push_cast; omega), zero_add, ← ht', hcap']
theorem pulse_succ_append (a b : Sample) (h l : ℕ) (X : List Sample) :
    pulse a b (h + 1) (l + 1) ++ X = a :: (run_of a h ++ b :: (run_of b l ++ X)) := by
  simp [pulse, run_of_succ]

theorem count_until_first (a : Sample) (ha : is_high a = true) (max : Int) (hmax : 0 ≤ max)
    (wave : List Sample) : count_until is_high max (a :: wave) = .ret 0 wave := by
  simp only [count_until, count_until_from]
  rw [count_until_step_ret _ _ _ _ ha (Or.inr hmax)]

/-- C4 (amended): for a unit width `U` from 2 on and `n` pulse pairs, `1 ≤ n ≤ 1024`, whose
counts -- one less than the run lengths, the first sample of every run being taken by the
read that ended the run before -- fall in the class of their bit (high count) and in the
zero-bit or one-bit class (low count), followed by a pulse with a bit-class high count and
a low count in the mid-amble class (and then one more pulse pair and a high sample) or
above the end-of-frame threshold (and then a high sample): once the wait of line 273 has
taken the first sample, `receive_data` on the empty sequence returns the first `n - 1`
bits.  The bit of the terminating pulse is never appended, and the last appended bit is the
one dropped. -/
theorem receive_data_frame (a b : Sample) (ha : is_high a = true) (hb : is_low b = true)
    (U : ℕ) (hU : 2 ≤ U) (hU' : U < 2 ^ 28) (ps : List (Bool × ℕ × ℕ)) (hn : ps ≠ [])
    (hlen : ps.length ≤ 1024)
    (hps : ∀ p ∈ ps,
      in_class p.2.1 (if p.1 then (receive_data_locals U).one_width
        else (receive_data_locals U).zero_width) = true ∧
      (in_class p.2.2 (receive_data_locals U).zero_width = true ∨
        in_class p.2.2 (receive_data_locals U).one_width = true))
    (bt : Bool) (ht lt : ℕ)
    (hh : in_class ht (if bt then (receive_data_locals U).one_width
      else (receive_data_locals U).zero_width) = true) :
    (in_class lt (receive_data_locals U).preamb_width = true →
      ∀ p q : ℕ, p ≤ 8 * U → q ≤ 8 * U →
        ∃ wave,
          count_until is_high (4 * (U : ℤ))
              (pulses a b (ps.map (fun p => (p.2.1 + 1, p.2.2 + 1))) ++
                (pulse a b (ht + 1) (lt + 1) ++ (pulse a b (p + 1) (q + 1) ++ [a]))) =
            .ret 0 wave ∧
          receive_data U [] wave = .ret (ps.map (fun p => bit_char p.1)).dropLast []) ∧
    (4 * U < lt →
      ∃ wave rest,
        count_until is_high (4 * (U : ℤ))
            (pulses a b (ps.map (fun p => (p.2.1 + 1, p.2.2 + 1))) ++
              (pulse a b (ht + 1) (lt + 1) ++ [a])) =
          .ret 0 wave ∧
        receive_data U [] wave = .ret (ps.map (fun p => bit_char p.1)).dropLast rest) := by
  have hmap : ps.map (fun p => (p.2.1 + 1, p.2.2 + 1)) =
      (ps.map (fun p => p.2)).map (fun p => (p.1 + 1, p.2 + 1)) := by
    rw [List.map_map]; rfl
  have hne : ([] ++ ps.map (fun p => bit_char p.1)) ≠ [] := by
    simpa using hn
  have hbits := fun rest => receive_data_from_counted a b ha hb U hU' rest ps []
    (by simpa using hlen) hps
  constructor
  · intro hl p q hp hq
    refine ⟨counted a b (ps.map (fun p => p.2)) ++
      (run_of a ht ++ b :: (run_of b lt ++ a :: (run_of a p ++ b :: (run_of b q ++ [a])))),
      ?_, ?_⟩
    · rw [hmap, pulse_succ_append, pulse_succ_append, pulses_shift,
        count_until_first a ha (4 * (U : ℤ)) (by positivity)]
    · unfold receive_data
      rw [hbits, receive_data_from_mid_amble a b ha hb U hU' _ hne bt ht lt p q hh hl hp hq]
      simp
  · intro hl
    obtain ⟨rest, hrest⟩ := receive_data_from_end a b ha hb U (by omega) hU'
      ([] ++ ps.map (fun p => bit_char p.1)) hne bt ht lt hh hl
    refine ⟨counted a b (ps.map (fun p => p.2)) ++ (run_of a ht ++ b :: (run_of b lt ++ [a])),
      rest, ?_, ?_⟩
    · rw [hmap, pulse_succ_append, pulses_shift,
        count_until_first a ha (4 * (U : ℤ)) (by positivity)]
    · unfold receive_data
      rw [hbits, hrest]
      simp
/-- C4 (witness): unit 40 and the bits 1, 0, 1, 1. -/
theorem receive_data_frame_witness :
    (in_class 80 (receive_data_locals (40 : ℕ)).preamb_width = true →
      ∀ p q : ℕ, p ≤ 8 * 40 → q ≤ 8 * 40 →
        ∃ wave,
          count_until is_high (4 * ((40 : ℕ) : ℤ))
              (pulses 1 0
                  ([(true, 40, 20), (false, 20, 20), (true, 40, 20), (true, 40, 20)].map
                    (fun p => (p.2.1 + 1, p.2.2 + 1))) ++
                (pulse 1 0 (40 + 1) (80 + 1) ++ (pulse 1 0 (p + 1) (q + 1) ++ [1]))) =
            .ret 0 wave ∧
          receive_data (40 : ℕ) [] wave =
            .ret ([(true, 40, 20), (false, 20, 20), (true, 40, 20), (true, 40, 20)].map
              (fun p => bit_char p.1)).dropLast []) ∧
    (4 * 40 < 80 →
      ∃ wave rest,
        count_until is_high (4 * ((40 : ℕ) : ℤ))
            (pulses 1 0
                ([(true, 40, 20), (false, 20, 20), (true, 40, 20), (true, 40, 20)].map
                  (fun p => (p.2.1 + 1, p.2.2 + 1))) ++
              (pulse 1 0 (40 + 1) (80 + 1) ++ [1])) =
          .ret 0 wave ∧
        receive_data (40 : ℕ) [] wave =
          .ret ([(true, 40, 20), (false, 20, 20), (true, 40, 20), (true, 40, 20)].map
            (fun p => bit_char p.1)).dropLast rest) :=
  receive_data_frame 1 0 (by decide!) (by decide!) 40 (by decide) (by decide)
    [(true, 40, 20), (false, 20, 20), (true, 40, 20), (true, 40, 20)] (by decide) (by decide)
    (by decide!) true 40 80 (by decide!)

/-- C4 (counterexample): unit width 40; four pulse pairs for the bits 1, 0, 1, 1 with high runs of 41
and 21 samples and low runs of 21 samples, a further one-bit pulse whose low run of 81
samples is in the mid-amble class, a pulse pair of 21 and 21 samples and a high sample.
The runs and the counts alike are in their classes, the wait of line 273 takes the first
sample, and `receive_data` returns 101, not 1011. -/
theorem receive_data_1011 :
    (within_range 41 40 lit_0_1 = true ∧ within_range 40 40 lit_0_1 = true ∧
      within_range 21 20 lit_0_1 = true ∧ within_range 20 20 lit_0_1 = true ∧
      within_range 81 80 lit_0_1 = true ∧ within_range 80 80 lit_0_1 = true) ∧
    count_until is_high (4 * 40)
        (pulses 1 0 [(41, 21), (21, 21), (41, 21), (41, 21)] ++
          (pulse 1 0 41 81 ++ (pulse 1 0 21 21 ++ [1]))) =
      .ret 0
        (pulses 1 0 [(41, 21), (21, 21), (41, 21), (41, 21)] ++
          (pulse 1 0 41 81 ++ (pulse 1 0 21 21 ++ [1]))).tail ∧
    receive_data 40 []
        (pulses 1 0 [(41, 21), (21, 21), (41, 21), (41, 21)] ++
          (pulse 1 0 41 81 ++ (pulse 1 0 21 21 ++ [1]))).tail =
      .ret ['1', '0', '1'] [] := by
  decide!

/-! ## The edge-counting primitive: theorems -/

theorem count_until_step_ne_timeout (fn : Sample → Bool) (max count : Int) (x : Sample)
    (h : max = -1 ∨ count ≤ max) :
    count_until_step fn max count x ≠ .timeout_error ∧
      ∀ count', count_until_step fn max count x = .again count' →
        (max = -1 ∨ count' ≤ max) := by
  unfold count_until_step
  by_cases h1 : (!fn x && (max == -1 || decide (count < max))) = true
  · rw [if_pos h1]
    refine ⟨by simp, ?_⟩
    intro count' hc
    simp only [CountStep.again.injEq] at hc
    subst hc
    rcases h with h | h
    · exact Or.inl h
    · simp only [Bool.and_eq_true, Bool.not_eq_true', Bool.or_eq_true, beq_iff_eq,
        decide_eq_true_eq] at h1
      rcases h1.2 with h2 | h2
      · exact Or.inl h2
      · right; omega
  · rw [if_neg h1]
    have h2 : ¬ ((max != -1 && decide (count > max)) = true) := by
      rcases h with h | h
      · simp [h]
      · simp [not_lt.mpr h]
    rw [if_neg h2]
    simp

theorem count_until_from_ne_timeout (fn : Sample → Bool) (max : Int) :
    ∀ (xs : List Sample) (count : Int), (max = -1 ∨ count ≤ max) →
      ∀ rest, count_until_from fn max count xs ≠ .timeout_error rest
  | [], count, _, rest => by simp [count_until_from]
  | x :: xs, count, h, rest => by
    have hs := count_until_step_ne_timeout fn max count x h
    rw [count_until_from]
    cases hc : count_until_step fn max count x with
    | again count' =>
      simp only
      exact count_until_from_ne_timeout fn max xs count' (hs.2 count' hc) rest
    | ret k => simp
    | timeout_error => exact absurd hc hs.1

theorem count_until_from_all (fn : Sample → Bool) (max : ℕ) (x : Sample)
    (ys : List Sample) :
    ∀ (xs : List Sample) (count : ℕ), count + xs.length = max →
      (∀ y ∈ xs, fn y = false) → fn x = false →
      count_until_from fn max count (xs ++ x :: ys) = .ret max ys
  | [], count, hlen, _, hx => by
    simp only [List.length_nil, add_zero] at hlen
    subst hlen
    simp only [List.nil_append, count_until_from]
    rw [count_until_step_cap fn count x hx (by omega)]
  | y :: xs, count, hlen, hall, hx => by
    simp only [List.length_cons] at hlen
    simp only [List.cons_append, count_until_from]
    rw [count_until_step_again fn max count y (hall y (List.mem_cons_self _ _))
      (by right; omega)]
    simp only
    have ih := count_until_from_all fn max x ys xs (count + 1) (by omega)
      (fun z hz => hall z (List.mem_cons_of_mem _ hz)) hx
    rw [← ih]
    push_cast
    rfl

/-- C8 (what the code does): with a bound `max ≥ 0`, when none of the next `max + 1` samples satisfies `fn`,
`count_until` reads exactly those samples and returns `max`; and no call of
`count_until` with a bound from 0 on ever throws the timeout, the test `count > max` of
line 131 coming after a loop that stops at `count == max`. -/
theorem count_until_bound_reached (fn : Sample → Bool) (max : ℕ) (xs ys : List Sample)
    (hlen : xs.length = max + 1) (hall : ∀ x ∈ xs, fn x = false) :
    count_until fn max (xs ++ ys) = .ret max ys ∧
      ∀ zs rest, count_until fn max zs ≠ .timeout_error rest := by
  constructor
  · obtain ⟨xs', x, rfl⟩ : ∃ xs' x, xs = xs' ++ [x] :=
      ⟨xs.dropLast, xs.getLast (by intro h; simp [h] at hlen),
        (List.dropLast_append_getLast _).symm⟩
    simp only [List.length_append, List.length_singleton, add_left_inj] at hlen
    rw [List.append_assoc, List.singleton_append]
    unfold count_until
    have := count_until_from_all fn max x ys xs' 0 (by omega)
      (fun y hy => hall y (List.mem_append_left _ hy))
      (hall x (List.mem_append_right _ (List.mem_singleton_self x)))
    simpa using this
  · intro zs rest
    exact count_until_from_ne_timeout fn max zs 0 (by right; omega) rest

/-- C8 (witness, the failing input): bound 2 and high samples only, waiting for a low one. -/
theorem count_until_bound_reached_witness :
    count_until is_low ((2 : ℕ) : ℤ) ([1, 1, 1] ++ [1]) = .ret ((2 : ℕ) : ℤ) [1] ∧
      ∀ zs rest, count_until is_low ((2 : ℕ) : ℤ) zs ≠ .timeout_error rest :=
  count_until_bound_reached is_low 2 [1, 1, 1] [1] rfl (by decide!)

theorem detect_sync_width_from_edge_ret (site : SyncSite) (count dw sc dw' sc' : Int)
    (result : Bool) (x : Sample) (hx : site.fn x = true)
    (hm : site.max = -1 ∨ count ≤ site.max)
    (hstep : detect_sync_width_step dw sc site count = .ret result dw' sc')
    (rest : List Sample) :
    detect_sync_width_from site count dw sc (x :: rest) = .ret result dw' sc' rest := by
  rw [detect_sync_width_from, count_until_step_ret _ _ _ _ hx hm]
  simp only []
  rw [hstep]

/-- C6 (amended): in any iteration of `detect_sync_width`, when rule 1 does not apply and the high count or the
low count of the pair is not within 1% of their mean `(hi + lo) / 2`, the function returns
failure as soon as the low count is measured -- the sample `x` that ends it being the last
one read -- and leaves the estimate and the pair count as they were.  The running estimate
takes no part in that test. -/
theorem detect_sync_width_rejects (dw sc hi lo wt : Int) (x : Sample) (rest : List Sample)
    (hx : is_high x = true) (hwt : wt = -1 ∨ lo ≤ wt)
    (h1 : ¬ (dw > 1 ∧ (lo : ℚ) > fl (lit_1_7 * (dw : ℚ))))
    (h2 : within_range hi (fl (((hi + lo : Int) : ℚ) / 2)) lit_0_01 = false ∨
      within_range lo (fl (((hi + lo : Int) : ℚ) / 2)) lit_0_01 = false) :
    detect_sync_width_body dw sc hi lo = .ret false ∧
      detect_sync_width_from (.lo wt hi) lo dw sc (x :: rest) = .ret false dw sc rest := by
  have hbody : detect_sync_width_body dw sc hi lo = .ret false := by
    unfold detect_sync_width_body
    have c1 : ¬ ((decide (dw > 1) && decide ((lo : ℚ) > fl (lit_1_7 * (dw : ℚ)))) = true) := by
      simpa using h1
    rw [if_neg c1]
    have c2 : (!within_range hi (fl (((hi + lo : Int) : ℚ) / 2)) lit_0_01 ||
        !within_range lo (fl (((hi + lo : Int) : ℚ) / 2)) lit_0_01) = true := by
      rcases h2 with h | h
      · rw [h]; rfl
      · rw [h]; exact Bool.or_true _
    exact if_pos c2
  refine ⟨hbody, ?_⟩
  apply detect_sync_width_from_edge_ret (.lo wt hi) lo dw sc dw sc false x hx hwt
  rw [detect_sync_width_step, hbody]

/-- C6 (witness): after one pair of counts 10 and 10, a pair of counts 10 and 13. -/
theorem detect_sync_width_rejects_witness :
    detect_sync_width_body 10 1 10 13 = .ret false ∧
      detect_sync_width_from (.lo 40 10) 13 10 1 (1 :: [0, 0]) = .ret false 10 1 [0, 0] :=
  detect_sync_width_rejects 10 1 10 13 40 1 [0, 0] (by decide!) (by decide) (by decide!)
    (by decide!)

/-- C6 (counterexample): the running estimate is 10 after one pair; the second pair measures 15 and 15.
The high count differs from the estimate by half of it, rule 1 does not apply (15 is not
above 1.7 times 10), and yet the pair is folded: the estimate becomes 12 and the pair
count 2. -/
theorem detect_sync_width_folds_deviating :
    ¬ ((15 : ℚ) > fl (lit_1_7 * 10)) ∧ |(15 : ℚ) - 10| > 1 / 100 * 10 ∧
      detect_sync_width_body 10 1 15 15 = .again 12 2 48 ∧
      detect_sync_width 0 (counted 1 0 [(10, 10), (15, 15)]) = .blocked (.hi 48) 0 12 2 := by
  refine ⟨by decide!, by norm_num, by decide!, by decide!⟩

/-! ## The attempt: theorems -/

theorem run_process_run (site : Site) (d : decoder_state) (x : Sample)
    (hx : site.fn x = false) (rest : List Sample) :
    ∀ (n : Nat) (count : Int), (site.max = -1 ∨ count + n ≤ site.max) →
      run_process (run_of x n ++ rest) (.next site count) d =
        run_process rest (.next site (count + n)) d
  | 0, count, _ => by simp [run_of]
  | n + 1, count, hm => by
    have hstep : count_until_step site.fn site.max count x = .again (count + 1) :=
      count_until_step_again _ _ _ _ hx (by
        rcases hm with h | h
        · exact Or.inl h
        · right; push_cast at h; omega)
    have ih := run_process_run site d x hx rest n (count + 1) (by
      rcases hm with h | h
      · exact Or.inl h
      · right; push_cast at h; omega)
    rw [show run_of x (n + 1) ++ rest = x :: (run_of x n ++ rest) from rfl]
    rw [run_process, deliver, take, hstep]
    simp only []
    rw [ih]
    congr 2
    push_cast
    ring

theorem run_process_edge_call (site site' : Site) (count : Int) (d d' : decoder_state)
    (x : Sample) (hx : site.fn x = true) (hm : site.max = -1 ∨ count ≤ site.max)
    (hstep : continue_from d site count = (d', .call site')) (rest : List Sample) :
    run_process (x :: rest) (.next site count) d = run_process rest (.next site' 0) d' := by
  rw [run_process, deliver, take, count_until_step_ret _ _ _ _ hx hm]
  simp only []
  rw [hstep]

theorem run_process_edge_ended (site : Site) (count : Int) (d d' : decoder_state)
    (how : Ending) (x : Sample) (hx : site.fn x = true)
    (hm : site.max = -1 ∨ count ≤ site.max)
    (hstep : continue_from d site count = (d', .ended how)) (rest : List Sample) :
    run_process (x :: rest) (.next site count) d = .returned how d' rest := by
  rw [run_process, deliver, take, count_until_step_ret _ _ _ _ hx hm]
  simp only []
  rw [hstep]

/-- C10 (amended): once `detect_sync_width` has returned success -- the low count `lo` of the closing pair
having passed rule 1, and whatever that count is beyond that -- the quantity `run` holds
against the preamble class is what line 267 counts: the samples that are not low, from the
one after the high sample `x` that ended the low count up to the first low sample, that
is the high run that follows the post-sync low run, less its first sample.  With `k` such
samples, within the bound `4 * U` of the read, the attempt goes on to the wait of line 273
exactly when `within_range(k, 2.0 * U, 0.1)` holds, and is otherwise ended at line 270 with
the decoder state untouched. -/
theorem run_preamble_measures_high_run (d : decoder_state) (wt hi lo : Int)
    (x a b : Sample) (k : ℕ) (rest : List Sample)
    (hrule : detect_sync_width_body d.detected_width d.sync_count hi lo = .ret true)
    (hx : is_high x = true) (hwt : wt = -1 ∨ lo ≤ wt)
    (ha : is_low a = false) (hb : is_low b = true)
    (hk : (k : Int) ≤ 4 * d.detected_width) :
    run_process (x :: (run_of a k ++ b :: rest)) (.next (.sync (.lo wt hi)) lo) d =
      if within_range (k : ℚ) (fl (2 * (d.detected_width : ℚ))) lit_0_1 then
        run_process rest (.next (.run_gap (4 * d.detected_width)) 0) d
      else .returned .bad_preamble d rest := by
  have hd : ({ d with detected_width := d.detected_width, sync_count := d.sync_count } :
      decoder_state) = d := rfl
  have s1 : continue_from d (.sync (.lo wt hi)) lo =
      (d, .call (.run_preamble (4 * d.detected_width))) := by
    rw [continue_from, detect_sync_width_step, hrule]
  rw [run_process_edge_call (.sync (.lo wt hi)) _ lo d d x hx hwt s1,
    run_process_run (.run_preamble (4 * d.detected_width)) d a ha _ k 0
      (by right; simp only [Site.max]; omega),
    zero_add]
  by_cases hw : within_range (k : ℚ) (fl (2 * (d.detected_width : ℚ))) lit_0_1 = true
  · rw [if_pos hw]
    apply run_process_edge_call (.run_preamble (4 * d.detected_width)) _ k d d b hb
      (by right; exact hk)
    have hw' : within_range (((k : ℤ)) : ℚ) (fl (2 * (d.detected_width : ℚ))) lit_0_1 = true := by
      simpa using hw
    rw [continue_from, hw']
    rfl
  · rw [if_neg hw]
    apply run_process_edge_ended (.run_preamble (4 * d.detected_width)) k d d .bad_preamble
      b hb (by right; exact hk)
    have hw' : within_range (((k : ℤ)) : ℚ) (fl (2 * (d.detected_width : ℚ))) lit_0_1 = false := by
      simpa using hw
    rw [continue_from, hw']
    rfl

/-- C10 (witness): estimate 10 after one pair, a closing pair of counts 10 and 20, then a high run of
20 counted samples. -/
theorem run_preamble_measures_high_run_witness :
    run_process (1 :: (run_of 1 20 ++ 0 :: []))
        (.next (.sync (.lo 40 10)) 20)
        { sync_count := 1, detected_width := 10, packet_data := [], packet_check := [],
          stdout := [] } =
      if within_range ((20 : ℕ) : ℚ) (fl (2 * ((10 : Int) : ℚ))) lit_0_1 then
        run_process [] (.next (.run_gap (4 * 10)) 0)
          { sync_count := 1, detected_width := 10, packet_data := [], packet_check := [],
            stdout := [] }
      else
        .returned .bad_preamble
          { sync_count := 1, detected_width := 10, packet_data := [], packet_check := [],
            stdout := [] } [] :=
  run_preamble_measures_high_run
    { sync_count := 1, detected_width := 10, packet_data := [], packet_check := [],
      stdout := [] }
    40 10 20 1 1 0 20 [] (by decide!) (by decide!) (by decide) (by decide!) (by decide!)
    (by decide)

/-- C10 (counterexample): estimate 10 (one sync pair of 11 and 11 samples).  First waveform: the post-sync
low run has 21 samples, count 20, both within 10% of 20, and the attempt is ended at
line 270 all the same, the high run after it having 5 samples.  Second waveform: the
post-sync low run has 31 samples, count 30, neither within 10% of 20, and the attempt goes
on into `receive_data`, the high run after it having 21 samples. -/
theorem run_preamble_not_low_run :
    (within_range 21 (fl (2 * 10)) lit_0_1 = true ∧
      within_range 20 (fl (2 * 10)) lit_0_1 = true ∧
      run_process (pulse 1 0 11 11 ++ pulse 1 0 11 21 ++ pulse 1 0 5 1) .call_run
          state.new.vars =
        .returned .bad_preamble
          { sync_count := 1, detected_width := 10, packet_data := [], packet_check := [],
            stdout := [] } []) ∧
    (within_range 31 (fl (2 * 10)) lit_0_1 = false ∧
      within_range 30 (fl (2 * 10)) lit_0_1 = false ∧
      run_process (pulse 1 0 11 11 ++ pulse 1 0 11 31 ++ pulse 1 0 21 3 ++ [1]) .call_run
          state.new.vars =
        .yielded (.next (.recv .packet_data (receive_data_locals 10) .hi) 0)
          { sync_count := 1, detected_width := 10, packet_data := [], packet_check := [],
            stdout := [] }) := by
  decide!

/-! ## The overflow cap: theorems -/

theorem pop_back_length (out v : List Char) (h : pop_back out = some v) :
    v.length ≤ out.length := by
  unfold pop_back at h
  by_cases h0 : out = []
  · rw [if_pos h0] at h; exact absurd h (by simp)
  · rw [if_neg h0] at h
    simp only [Option.some.injEq] at h
    subst h
    simp

theorem receive_data_push_length (out : List Char) (logic_val : Bool)
    (h : out.length ≤ 1024) :
    match receive_data_push out logic_val with
    | .call _ out' => out'.length ≤ 1024
    | .ret out' => out'.length ≤ 1024
    | .too_many_bits_error out' => out'.length = 1025 ∧ out' = out ++ [bit_char logic_val]
    | .undefined => True := by
  unfold receive_data_push
  by_cases hl : (out ++ [if logic_val = true then '1' else '0']).length > 1024
  · rw [if_pos hl]
    simp only [List.length_append, List.length_singleton] at hl ⊢
    exact ⟨by omega, rfl⟩
  · rw [if_neg hl]
    simp only [List.length_append, List.length_singleton] at hl ⊢
    omega

theorem receive_data_lo_length (w : Widths) (out : List Char) (logic_val : Bool) (lo : Int)
    (h : out.length ≤ 1024) :
    match receive_data_lo w out logic_val lo with
    | .call _ out' => out'.length ≤ 1024
    | .ret out' => out'.length ≤ 1024
    | .too_many_bits_error out' => out'.length = 1025 ∧ out' = out ++ [bit_char logic_val]
    | .undefined => True := by
  unfold receive_data_lo
  split_ifs
  · cases hp : pop_back out with
    | none => trivial
    | some v => exact le_trans (pop_back_length out v hp) h
  · cases hp : pop_back out with
    | none => trivial
    | some v => exact le_trans (pop_back_length out v hp) h
  · exact receive_data_push_length out logic_val h
  · exact receive_data_push_length out logic_val h
  · exact h

theorem receive_data_step_length (w : Widths) (out : List Char) (site : RecvSite) (k : Int)
    (h : out.length ≤ 1024) :
    match receive_data_step w out site k with
    | .call _ out' => out'.length ≤ 1024
    | .ret out' => out'.length ≤ 1024
    | .too_many_bits_error out' => out'.length = 1025 ∧ ∃ c, out' = out ++ [c]
    | .undefined => True := by
  cases site with
  | hi =>
    rw [receive_data_step]
    cases receive_data_hi w k with
    | none => exact h
    | some b => exact h
  | lo hi logic_val =>
    rw [receive_data_step]
    have := receive_data_lo_length w out logic_val k h
    cases hr : receive_data_lo w out logic_val k with
    | call s v => rw [hr] at this; exact this
    | ret v => rw [hr] at this; exact this
    | too_many_bits_error v => rw [hr] at this; exact ⟨this.1, _, this.2⟩
    | undefined => trivial
  | mid_low => rw [receive_data_step]; exact h
  | mid_high => rw [receive_data_step]; exact h

theorem receive_data_from_length (w : Widths) :
    ∀ (xs : List Sample) (site : RecvSite) (count : Int) (out : List Char),
      out.length ≤ 1024 →
      match receive_data_from w site count out xs with
      | .ret out' _ => out'.length ≤ 1024
      | .too_many_bits_error out' _ => out'.length = 1025
      | _ => True
  | [], site, count, out, h => by simp [receive_data_from]
  | x :: xs, site, count, out, h => by
    rw [receive_data_from]
    cases hc : count_until_step site.fn w.timeout count x with
    | again count' => exact receive_data_from_length w xs site count' out h
    | timeout_error => trivial
    | ret k =>
      simp only []
      have hs := receive_data_step_length w out site k h
      cases hr : receive_data_step w out site k with
      | call s v =>
        rw [hr] at hs
        exact receive_data_from_length w xs s 0 v hs
      | ret v => rw [hr] at hs; exact hs
      | too_many_bits_error v => rw [hr] at hs; exact hs.1
      | undefined => trivial
theorem set_out_out (d : decoder_state) (frame : Frame) : d.set_out frame (d.out frame) = d := by
  cases frame <;> rfl

theorem out_set_out (d : decoder_state) (frame : Frame) (v : List Char) :
    (d.set_out frame v).out frame = v := by
  cases frame <;> rfl

theorem set_out_set_out (d : decoder_state) (frame : Frame) (v v' : List Char) :
    (d.set_out frame v).set_out frame v' = d.set_out frame v' := by
  cases frame <;> rfl

/-- What `receive_data` does on the samples is what the procedure does on them while it is
inside `receive_data`. -/
theorem run_process_recv (frame : Frame) (w : Widths) :
    ∀ (xs : List Sample) (site : RecvSite) (count : Int) (d : decoder_state),
      run_process xs (.next (.recv frame w site) count) d =
        match receive_data_from w site count (d.out frame) xs with
        | .blocked site' count' out' =>
          .yielded (.next (.recv frame w site') count') (d.set_out frame out')
        | .ret out' rest =>
          (match run_after_receive (d.set_out frame out') frame with
            | (d', .call s) => run_process rest (.next s 0) d'
            | (d', .ended how) => .returned how d' rest
            | (_, .undefined) => .undefined)
        | .too_many_bits_error out' rest =>
          .returned .too_many_bits_error (d.set_out frame out') rest
        | .timeout_error out' rest => .returned .timeout_error (d.set_out frame out') rest
        | .undefined => .undefined
  | [], site, count, d => by
    rw [run_process, receive_data_from]
    simp only []
    rw [set_out_out]
  | x :: xs, site, count, d => by
    rw [run_process, deliver, take, receive_data_from]
    have hfn : (Site.recv frame w site).fn = site.fn := rfl
    have hmax : (Site.recv frame w site).max = w.timeout := rfl
    rw [hfn, hmax]
    cases hc : count_until_step site.fn w.timeout count x with
    | again count' =>
      simp only []
      exact run_process_recv frame w xs site count' d
    | timeout_error =>
      simp only []
      rw [set_out_out]
    | ret k =>
      simp only []
      rw [continue_from]
      cases hr : receive_data_step w (d.out frame) site k with
      | call s v =>
        simp only []
        rw [run_process_recv frame w xs s 0 (d.set_out frame v), out_set_out]
        cases receive_data_from w s 0 v xs <;> simp only [set_out_set_out]
      | ret v =>
        simp only []
        cases hrun : run_after_receive (d.set_out frame v) frame with
        | mk d' c =>
          cases c <;> rfl
      | too_many_bits_error v => rfl
      | undefined => rfl
theorem counted_append (a b : Sample) :
    ∀ l1 l2 : List (ℕ × ℕ), counted a b (l1 ++ l2) = counted a b l1 ++ counted a b l2
  | [], l2 => rfl
  | p :: l1, l2 => by
    rw [List.cons_append, counted, counted, counted_append a b l1 l2]
    simp only [List.append_assoc, List.cons_append]

theorem receive_data_push_throw (out : List Char) (logic_val : Bool)
    (h : 1024 ≤ out.length) :
    receive_data_push out logic_val = .too_many_bits_error (out ++ [bit_char logic_val]) := by
  have hlen : (out ++ [bit_char logic_val]).length > 1024 := by
    rw [List.length_append, List.length_singleton]; omega
  unfold receive_data_push
  exact if_pos hlen

theorem receive_data_from_pulse_throw (a b : Sample) (ha : is_high a = true)
    (hb : is_low b = true) (U : ℕ) (hU' : U < 2 ^ 28) (out : List Char)
    (hout : 1024 ≤ out.length) (bit : Bool) (h l : ℕ)
    (hh : in_class h (if bit then (receive_data_locals U).one_width
      else (receive_data_locals U).zero_width) = true)
    (hl : in_class l (receive_data_locals U).zero_width = true ∨
      in_class l (receive_data_locals U).one_width = true)
    (rest : List Sample) :
    receive_data_from (receive_data_locals U) .hi 0 out
        (run_of a h ++ b :: (run_of b l ++ a :: rest)) =
      .too_many_bits_error (out ++ [bit_char bit]) rest := by
  obtain ⟨hhi, hh2⟩ := in_class_bit U hU' bit h hh
  obtain ⟨hlo, hl2⟩ := receive_data_lo_bit U hU' out bit l hl
  have ht := locals_timeout U
  have t1 : (0 : ℤ) + (h : ℕ) ≤ (receive_data_locals U).timeout := by
    rw [ht]; push_cast; omega
  have t2 : ((h : ℕ) : ℤ) ≤ (receive_data_locals U).timeout := by
    rw [ht]; push_cast; omega
  have t3 : (0 : ℤ) + (l : ℕ) ≤ (receive_data_locals U).timeout := by
    rw [ht]; push_cast; omega
  have t4 : ((l : ℕ) : ℤ) ≤ (receive_data_locals U).timeout := by
    rw [ht]; push_cast; omega
  rw [receive_data_from_run _ .hi out a (is_low_of_is_high ha) _ h 0 t1, zero_add,
    receive_data_from_edge_call _ .hi _ h out out b hb t2
      (receive_data_step_hi _ out h bit hhi),
    receive_data_from_run _ (.lo h bit) out b (is_high_of_is_low hb) _ l 0 t3, zero_add,
    receive_data_from_edge_throw _ (.lo h bit) l out (out ++ [bit_char bit]) a ha t4
      (by rw [receive_data_step_lo, hlo, receive_data_push_throw out bit hout])]

theorem receive_data_from_overflow (a b : Sample) (ha : is_high a = true)
    (hb : is_low b = true) (U : ℕ) (hU' : U < 2 ^ 28) (ps : List (Bool × ℕ × ℕ))
    (hlen : 1024 < ps.length)
    (hps : ∀ p ∈ ps,
      in_class p.2.1 (if p.1 then (receive_data_locals U).one_width
        else (receive_data_locals U).zero_width) = true ∧
      (in_class p.2.2 (receive_data_locals U).zero_width = true ∨
        in_class p.2.2 (receive_data_locals U).one_width = true))
    (rest : List Sample) :
    receive_data_from (receive_data_locals U) .hi 0 []
        (counted a b (ps.map (fun p => p.2)) ++ rest) =
      .too_many_bits_error ((ps.take 1025).map (fun p => bit_char p.1))
        (counted a b ((ps.drop 1025).map (fun p => p.2)) ++ rest) := by
  obtain ⟨p, l2, hdrop⟩ : ∃ p l2, ps.drop 1024 = p :: l2 := by
    cases hd : ps.drop 1024 with
    | nil =>
      have := congrArg List.length hd
      simp only [List.length_drop, List.length_nil] at this
      omega
    | cons p l2 => exact ⟨p, l2, rfl⟩
  have hsplit : ps = ps.take 1024 ++ p :: l2 := by
    rw [← hdrop, List.take_append_drop]
  have hl1 : (ps.take 1024).length = 1024 := by
    rw [List.length_take]; omega
  have htake : ps.take 1025 = ps.take 1024 ++ [p] := by
    conv_lhs => rw [hsplit]
    rw [List.take_append_eq_append_take, hl1]
    simp
  have hdrop' : ps.drop 1025 = l2 := by
    conv_lhs => rw [hsplit]
    rw [List.drop_append_eq_append_drop, hl1]
    simp [List.drop_eq_nil_of_le, hl1]
  have hmem1 : ∀ q ∈ ps.take 1024, q ∈ ps := fun q hq => List.mem_of_mem_take hq
  have hp : p ∈ ps := by
    rw [hsplit]; simp
  have hwave : counted a b (ps.map (fun p => p.2)) ++ rest =
      counted a b ((ps.take 1024).map (fun p => p.2)) ++
        (run_of a p.2.1 ++ b :: (run_of b p.2.2 ++ a ::
          (counted a b (l2.map (fun p => p.2)) ++ rest))) := by
    conv_lhs => rw [hsplit]
    rw [List.map_append, counted_append, List.map_cons, counted]
    simp only [List.append_assoc, List.cons_append]
  rw [hwave, receive_data_from_counted a b ha hb U hU' _ (ps.take 1024) []
      (by rw [hl1]; simp) (fun q hq => hps q (hmem1 q hq)),
    receive_data_from_pulse_throw a b ha hb U hU' _
      (by simp [hl1]; omega) p.1 p.2.1 p.2.2 (hps p hp).1 (hps p hp).2,
    htake, hdrop']
  simp
/-- C7: the cap of 1024 bits.  Started on the empty sequence, `receive_data` throws the overflow only
with a sequence of 1025 bits, that is when an append has just made it longer than 1024,
and every append that does so throws; whenever it returns the sequence holds at most 1024
bits.  On a frame of more than 1024 consecutive pulse pairs that qualify as bits (`counted`
lists the samples after the first high sample of the frame, pair by pair) it throws at
the 1025th pair, and the attempt ends there in the handler of line 181: nothing is written
to the standard output and the check sequence is as it was. -/
theorem receive_data_overflow (a b : Sample) (ha : is_high a = true) (hb : is_low b = true)
    (U : ℕ) (hU' : U < 2 ^ 28) (ps : List (Bool × ℕ × ℕ)) (hlen : 1024 < ps.length)
    (hps : ∀ p ∈ ps,
      in_class p.2.1 (if p.1 then (receive_data_locals U).one_width
        else (receive_data_locals U).zero_width) = true ∧
      (in_class p.2.2 (receive_data_locals U).zero_width = true ∨
        in_class p.2.2 (receive_data_locals U).one_width = true))
    (rest : List Sample) (d : decoder_state) (hd : d.packet_data = []) :
    (∀ (dw : Int) (xs : List Sample) (out : List Char) (rest' : List Sample),
      receive_data dw [] xs = .too_many_bits_error out rest' → out.length = 1025) ∧
    (∀ (out : List Char) (logic_val : Bool), 1024 ≤ out.length →
      receive_data_push out logic_val =
        .too_many_bits_error (out ++ [bit_char logic_val])) ∧
    (∀ (dw : Int) (xs : List Sample) (out : List Char) (rest' : List Sample),
      receive_data dw [] xs = .ret out rest' → out.length ≤ 1024) ∧
    receive_data U [] (counted a b (ps.map (fun p => p.2)) ++ rest) =
      .too_many_bits_error ((ps.take 1025).map (fun p => bit_char p.1))
        (counted a b ((ps.drop 1025).map (fun p => p.2)) ++ rest) ∧
    run_process (counted a b (ps.map (fun p => p.2)) ++ rest)
        (.next (.recv .packet_data (receive_data_locals U) .hi) 0) d =
      .returned .too_many_bits_error
        { d with packet_data := (ps.take 1025).map (fun p => bit_char p.1) }
        (counted a b ((ps.drop 1025).map (fun p => p.2)) ++ rest) := by
  have hover := receive_data_from_overflow a b ha hb U hU' ps hlen hps rest
  refine ⟨?_, ?_, ?_, hover, ?_⟩
  · intro dw xs out rest' h
    have := receive_data_from_length (receive_data_locals dw) xs .hi 0 [] (by simp)
    unfold receive_data at h
    rw [h] at this
    exact this
  · intro out logic_val h
    exact receive_data_push_throw out logic_val h
  · intro dw xs out rest' h
    have := receive_data_from_length (receive_data_locals dw) xs .hi 0 [] (by simp)
    unfold receive_data at h
    rw [h] at this
    exact this
  · rw [run_process_recv]
    have hout : d.out .packet_data = [] := hd
    rw [hout, hover]
    rfl

/-- C7 (witness): unit 40 and 1025 one-bit pulse pairs of counts 40 and 20. -/
theorem receive_data_overflow_witness :
    (∀ (dw : Int) (xs : List Sample) (out : List Char) (rest' : List Sample),
      receive_data dw [] xs = .too_many_bits_error out rest' → out.length = 1025) ∧
    (∀ (out : List Char) (logic_val : Bool), 1024 ≤ out.length →
      receive_data_push out logic_val =
        .too_many_bits_error (out ++ [bit_char logic_val])) ∧
    (∀ (dw : Int) (xs : List Sample) (out : List Char) (rest' : List Sample),
      receive_data dw [] xs = .ret out rest' → out.length ≤ 1024) ∧
    receive_data (40 : ℕ) []
        (counted 1 0 ((List.replicate 1025 (true, 40, 20)).map (fun p => p.2)) ++ [1, 0]) =
      .too_many_bits_error
        (((List.replicate 1025 (true, 40, 20)).take 1025).map (fun p => bit_char p.1))
        (counted 1 0 (((List.replicate 1025 (true, 40, 20)).drop 1025).map (fun p => p.2)) ++
          [1, 0]) ∧
    run_process
        (counted 1 0 ((List.replicate 1025 (true, 40, 20)).map (fun p => p.2)) ++ [1, 0])
        (.next (.recv .packet_data (receive_data_locals (40 : ℕ)) .hi) 0) state.new.vars =
      .returned .too_many_bits_error
        { state.new.vars with
          packet_data :=
            ((List.replicate 1025 (true, 40, 20)).take 1025).map (fun p => bit_char p.1) }
        (counted 1 0 (((List.replicate 1025 (true, 40, 20)).drop 1025).map (fun p => p.2)) ++
          [1, 0]) :=
  receive_data_overflow 1 0 (by decide!) (by decide!) 40 (by decide)
    (List.replicate 1025 (true, 40, 20)) (by rw [List.length_replicate]; decide)
    (fun p hp => by
      rw [List.eq_of_mem_replicate hp]
      exact ⟨by decide!, Or.inl (by decide!)⟩)
    [1, 0] state.new.vars rfl

/-! ## The value of a count: theorems -/

theorem count_until_step_cases (fn : Sample → Bool) (max count : Int) (x : Sample)
    (h : max = -1 ∨ count ≤ max) :
    (fn x = false ∧ (max = -1 ∨ count < max) ∧
        count_until_step fn max count x = .again (count + 1)) ∨
      ((fn x = true ∨ count = max) ∧ count_until_step fn max count x = .ret count) := by
  by_cases hx : fn x = true
  · exact Or.inr ⟨Or.inl hx, count_until_step_ret fn max count x hx h⟩
  · have hx' : fn x = false := by simpa using hx
    by_cases hm : max = -1 ∨ count < max
    · exact Or.inl ⟨hx', hm, count_until_step_again fn max count x hx' hm⟩
    · have hne : max ≠ -1 := fun e => hm (Or.inl e)
      have hc : count = max := by
        rcases h with h | h
        · exact absurd h hne
        · have : ¬ count < max := fun e => hm (Or.inr e)
          omega
      subst hc
      exact Or.inr ⟨Or.inr rfl, count_until_step_cap fn count x hx' hne⟩

theorem count_until_from_ret (fn : Sample → Bool) (max : Int) :
    ∀ (xs : List Sample) (count k : Int) (rest : List Sample),
      (max = -1 ∨ count ≤ max) → count_until_from fn max count xs = .ret k rest →
      ∃ j : ℕ, k = count + j ∧ rest = xs.drop (j + 1) ∧ j < xs.length ∧
        j ≤ (xs.takeWhile (fun x => !fn x)).length ∧
        (j = (xs.takeWhile (fun x => !fn x)).length ∨ k = max) ∧
        (max = -1 ∨ k ≤ max)
  | [], count, k, rest, _, h => by simp [count_until_from] at h
  | x :: xs, count, k, rest, hm, h => by
    rw [count_until_from] at h
    rcases count_until_step_cases fn max count x hm with ⟨hx, hlt, hs⟩ | ⟨hx, hs⟩
    · rw [hs] at h
      simp only [] at h
      obtain ⟨j, hk, hrest, hj, hle, hor, hkm⟩ :=
        count_until_from_ret fn max xs (count + 1) k rest
          (by rcases hlt with e | e
              · exact Or.inl e
              · right; omega) h
      refine ⟨j + 1, by push_cast; omega, by simpa using hrest, by simpa using hj, ?_, ?_,
        hkm⟩
      · simpa [List.takeWhile_cons, hx] using hle
      · rcases hor with e | e
        · left; simp [List.takeWhile_cons, hx, e]
        · exact Or.inr e
    · rw [hs] at h
      simp only [CountResult.ret.injEq] at h
      obtain ⟨rfl, rfl⟩ := h
      refine ⟨0, by simp, by simp, by simp, by simp, ?_, hm⟩
      rcases hx with e | e
      · left; simp [List.takeWhile_cons, e]
      · exact Or.inr e

theorem count_until_from_returns (fn : Sample → Bool) (max : Int) :
    ∀ (xs : List Sample) (count : Int), (max = -1 ∨ count ≤ max) →
      ((∃ x ∈ xs, fn x = true) ∨ (max ≠ -1 ∧ max < count + xs.length)) →
      ∃ k rest, count_until_from fn max count xs = .ret k rest
  | [], count, hm, h => by
    rcases h with ⟨x, hx, _⟩ | ⟨_, h⟩
    · simp at hx
    · rcases hm with e | e
      · omega
      · simp at h; omega
  | x :: xs, count, hm, h => by
    rw [count_until_from]
    rcases count_until_step_cases fn max count x hm with ⟨hx, hlt, hs⟩ | ⟨_, hs⟩
    · rw [hs]
      simp only []
      apply count_until_from_returns fn max xs (count + 1)
      · rcases hlt with e | e
        · exact Or.inl e
        · right; omega
      · rcases h with ⟨y, hy, hfy⟩ | ⟨hne, h⟩
        · rcases List.mem_cons.mp hy with e | e
          · subst e; rw [hx] at hfy; exact absurd hfy (by simp)
          · exact Or.inl ⟨y, e, hfy⟩
        · right
          refine ⟨hne, ?_⟩
          simp only [List.length_cons] at h
          push_cast at h
          omega
    · rw [hs]
      exact ⟨count, xs, rfl⟩

/-- C16: for every predicate `fn` and every bound `max` that is -1 or at least 0, as long
as the counter stays an `int` (`max` is one and, without a bound, at most 2^31 - 1 leading
samples fail `fn`): when `count_until(fn, max)` returns `k` with the samples `rest`
unread, `k` is the number of leading samples that do not satisfy `fn`, capped at `max`
when `max ≥ 0` (so `0 ≤ k ≤ max`), it is the largest value `count` has taken and fits an
`int`, and exactly `k + 1` samples were read: `rest` is the stream less its first `k + 1`
samples, the sample that ends the count included.  The call does return as soon as the
stream holds a sample satisfying `fn`, or more than `max ≥ 0` samples. -/
theorem count_until_value (fn : Sample → Bool) (max : Int) (hmax : max = -1 ∨ 0 ≤ max)
    (hint : max ≤ 2147483647) (xs : List Sample)
    (hlead : max = -1 → (xs.takeWhile (fun x => !fn x)).length ≤ 2147483647) :
    (∀ (k : Int) (rest : List Sample), count_until fn max xs = .ret k rest →
      k = (if max = -1 then ((xs.takeWhile (fun x => !fn x)).length : Int)
            else min ((xs.takeWhile (fun x => !fn x)).length : Int) max) ∧
      0 ≤ k ∧ (max ≠ -1 → k ≤ max) ∧ int_ok k = true ∧
      k.toNat + 1 ≤ xs.length ∧ rest = xs.drop (k.toNat + 1)) ∧
    (((∃ x ∈ xs, fn x = true) ∨ (max ≠ -1 ∧ max < xs.length)) →
      ∃ k rest, count_until fn max xs = .ret k rest) := by
  constructor
  · intro k rest h
    obtain ⟨j, hk, hrest, hj, hle, hor, hkm⟩ := count_until_from_ret fn max xs 0 k rest hmax h
    simp only [zero_add] at hk
    subst hk
    simp only [Int.toNat_ofNat]
    refine ⟨?_, by omega, ?_, ?_, by omega, hrest⟩
    · split_ifs with e
      · rcases hor with e' | e'
        · rw [e']
        · omega
      · rcases hkm with e' | e'
        · exact absurd e' e
        · rcases hor with e'' | e''
          · rw [← e'']; exact (min_eq_left e').symm
          · rw [e'']; exact (min_eq_right (by rw [← e'']; exact_mod_cast hle)).symm
    · intro hne
      rcases hkm with e | e
      · exact absurd e hne
      · exact e
    · unfold int_ok
      simp only [Bool.and_eq_true, decide_eq_true_eq]
      rcases hkm with e | e
      · have := hlead e
        omega
      · omega
  · intro h
    exact count_until_from_returns fn max xs 0 hmax (by simpa using h)

/-- C16 (witness): `count_until(&is_low, 5)` on three high samples, a low one and two more
samples returns 3 and leaves the last two unread; `count_until(&is_high)` without a bound
returns on two low samples and a high one. -/
theorem count_until_value_witness :
    (∀ (k : Int) (rest : List Sample), count_until is_low 5 [1, 1, 1, 0, 0, 1] = .ret k rest →
      k = (if (5 : Int) = -1 then
              (([1, 1, 1, 0, 0, 1].takeWhile (fun x => !is_low x)).length : Int)
            else min (([1, 1, 1, 0, 0, 1].takeWhile (fun x => !is_low x)).length : Int) 5) ∧
      0 ≤ k ∧ ((5 : Int) ≠ -1 → k ≤ 5) ∧ int_ok k = true ∧
      k.toNat + 1 ≤ [1, 1, 1, 0, 0, (1 : Sample)].length ∧
      rest = [1, 1, 1, 0, 0, (1 : Sample)].drop (k.toNat + 1)) ∧
    (((∃ x ∈ [1, 1, 1, 0, 0, (1 : Sample)], is_low x = true) ∨
        ((5 : Int) ≠ -1 ∧ (5 : Int) < [1, 1, 1, 0, 0, (1 : Sample)].length)) →
      ∃ k rest, count_until is_low 5 [1, 1, 1, 0, 0, 1] = .ret k rest) ∧
    count_until is_low 5 [1, 1, 1, 0, 0, 1] = .ret 3 [0, 1] ∧
    ∃ k rest, count_until is_high (-1) [0, 0, 1, 0] = .ret k rest :=
  ⟨(count_until_value is_low 5 (by decide) (by decide) [1, 1, 1, 0, 0, 1]
      (fun h => absurd h (by decide))).1,
    (count_until_value is_low 5 (by decide) (by decide) [1, 1, 1, 0, 0, 1]
      (fun h => absurd h (by decide))).2, by decide!,
    (count_until_value is_high (-1) (by decide) (by decide) [0, 0, 1, 0]
      (fun _ => by decide!)).2 (Or.inl ⟨1, by simp, by decide!⟩)⟩

/-! ## Rule 1 of the sync width estimator: theorems -/

/-- C11 (counterexample): with one pair folded and an estimate of 1, a low count of 3
exceeds 1.7 times the estimate, yet the iteration returns failure -- on the waveform of
the counts 1/1 and 1/3 as well. -/
theorem detect_sync_width_rule_one_estimate_1 :
    (3 : ℚ) > fl (lit_1_7 * 1) ∧
      detect_sync_width_body 1 1 1 3 = .ret false ∧
      detect_sync_width 0 (counted 1 0 [(1, 1), (1, 3)]) = .ret false 1 1 [] := by
  refine ⟨by decide!, by decide!, by decide!⟩

/-- C11 (amended): an iteration of `detect_sync_width` returns success exactly when the
estimate exceeds 1 and the low count exceeds 1.7 times the estimate (both as `double`),
whatever the pair count and the high count; the function then returns `true` as soon as
the low count is measured, leaving the estimate and the pair count as they were.  With an
estimate of 0 or 1 rule 1 never applies. -/
theorem detect_sync_width_rule_one (dw sc hi lo : Int) :
    (detect_sync_width_body dw sc hi lo = .ret true ↔
      1 < dw ∧ (lo : ℚ) > fl (lit_1_7 * (dw : ℚ))) ∧
    (1 < dw → (lo : ℚ) > fl (lit_1_7 * (dw : ℚ)) →
      ∀ (wt : Int) (x : Sample) (rest : List Sample), is_high x = true →
        (wt = -1 ∨ lo ≤ wt) →
        detect_sync_width_from (.lo wt hi) lo dw sc (x :: rest) = .ret true dw sc rest) := by
  have key : detect_sync_width_body dw sc hi lo = .ret true ↔
      1 < dw ∧ (lo : ℚ) > fl (lit_1_7 * (dw : ℚ)) := by
    unfold detect_sync_width_body
    by_cases h : (decide (dw > 1) && decide ((lo : ℚ) > fl (lit_1_7 * (dw : ℚ)))) = true
    · rw [if_pos h]
      simp only [Bool.and_eq_true, decide_eq_true_eq] at h
      simpa using h
    · rw [if_neg h]
      have h' : ¬ (1 < dw ∧ (lo : ℚ) > fl (lit_1_7 * (dw : ℚ))) := by
        simpa only [Bool.and_eq_true, decide_eq_true_eq, gt_iff_lt] using h
      simp only []
      split_ifs <;> simp [h']
  refine ⟨key, ?_⟩
  intro h1 h2 wt x rest hx hm
  apply detect_sync_width_from_edge_ret (.lo wt hi) lo dw sc dw sc true x hx hm
  simp only [detect_sync_width_step]
  rw [key.mpr ⟨h1, h2⟩]

/-- C11 (witness): estimate 10 after three pairs, low count 18. -/
theorem detect_sync_width_rule_one_witness :
    detect_sync_width_body 10 3 10 18 = .ret true ∧
      detect_sync_width_from (.lo 40 10) 18 10 3 [1, 0] = .ret true 10 3 [0] :=
  ⟨(detect_sync_width_rule_one 10 3 10 18).1.mpr (by decide!),
    (detect_sync_width_rule_one 10 3 10 18).2 (by decide) (by decide!) 40 1 [0]
      (by decide!) (by decide)⟩

/-! ## The precondition of `resume`: theorems -/

theorem resume_ok_hasNext (s s' : state) (chunk : List Sample)
    (h : resume s chunk = .ok s') : s'.hasNext = false := by
  unfold resume at h
  by_cases h1 : s.hasNext = true
  · simp [h1] at h
  · simp only [h1, Bool.false_eq_true, if_false] at h
    have key : ∀ (fuel : Nat) (t : state), resume_loop fuel t = .ok s' → s'.hasNext = false := by
      intro fuel
      induction fuel with
      | zero =>
        intro t ht
        simp only [resume_loop] at ht
        by_cases h2 : t.hasNext = true
        · simp [h2] at ht
        · simp only [h2, Bool.false_eq_true, if_false, Outcome.ok.injEq] at ht
          subst ht
          simpa using h2
      | succ fuel ih =>
        intro t ht
        simp only [resume_loop] at ht
        by_cases h2 : t.hasNext = true
        · simp only [h2, if_true] at ht
          cases hs : swapcontext t with
          | ok t' =>
            rw [hs] at ht
            exact ih _ ht
          | fault f =>
            rw [hs] at ht
            simp at ht
        · simp only [h2, Bool.false_eq_true, if_false, Outcome.ok.injEq] at ht
          subst ht
          simpa using h2
    exact key _ _ h

theorem resume_all_cases :
    ∀ (chunks : List (List Sample)) (s : state), s.hasNext = false → s.need_reset = false →
      (resume_all s chunks = .fault .pop_back_empty ∨
        ∃ s', resume_all s chunks = .ok s' ∧ s'.hasNext = false ∧ s'.need_reset = false) ∧
      ∀ b ∈ resume_assertions s chunks, b = true
  | [], s, h1, h2 => ⟨Or.inr ⟨s, rfl, h1, h2⟩, by simp [resume_assertions]⟩
  | chunk :: chunks, s, h1, h2 => by
    have he := resume_eq_steps s chunk h1 h2
    simp only [resume_all, resume_assertions, List.mem_cons, forall_eq_or_imp, h1,
      Bool.not_false, true_and]
    cases h : steps chunk s.process_context s.vars with
    | yielded c' d' =>
      rw [h] at he
      rw [he]
      simp only [ProcessResult.outcome, Outcome.bind]
      exact resume_all_cases chunks _ rfl rfl
    | returned how d' rest => exact absurd h (steps_not_returned _ _ _ _ _ _)
    | undefined =>
      rw [h] at he
      rw [he]
      simp [ProcessResult.outcome, Outcome.bind]

/-- C15: the assertion of line 297 always holds.  A freshly constructed engine has no
unread sample; every call of `resume` that returns, from any state, leaves none; hence in
every finite sequence of calls of `resume` on a fresh engine, whatever the chunks (empty
ones included), the assertion is true at the entry of every call that is reached, and the
sequence never stops on a failed assertion. -/
theorem resume_assertion_holds :
    state.new.hasNext = false ∧
    (∀ (s s' : state) (chunk : List Sample), resume s chunk = .ok s' → s'.hasNext = false) ∧
    ∀ chunks : List (List Sample),
      (∀ b ∈ resume_assertions state.new chunks, b = true) ∧
      resume_all state.new chunks ≠ .fault .assertion_failed ∧
      ∀ s, resume_all state.new chunks = .ok s → s.hasNext = false := by
  refine ⟨rfl, fun s s' chunk h => resume_ok_hasNext s s' chunk h, ?_⟩
  intro chunks
  obtain ⟨h, ha⟩ := resume_all_cases chunks state.new rfl rfl
  refine ⟨ha, ?_, ?_⟩
  · rcases h with h | ⟨s', h, _, _⟩ <;> rw [h] <;> simp
  · intro s hs
    rcases h with h | ⟨s', h, h1, _⟩
    · rw [h] at hs; simp at hs
    · rw [h] at hs
      simp only [Outcome.ok.injEq] at hs
      subst hs
      exact h1

/-! ## The running estimate: theorems -/

theorem detect_sync_width_body_again (dw sc hi lo dw' sc' wt' : Int)
    (h : detect_sync_width_body dw sc hi lo = .again dw' sc' wt') :
    dw' = (dw * sc + hi).tdiv (sc + 1) ∧ sc' = sc + 1 ∧ wt' = dw' * 4 := by
  unfold detect_sync_width_body at h
  split at h
  · simp at h
  · simp only [] at h
    split at h
    · simp at h
    · simp only [SyncStep.again.injEq] at h
      obtain ⟨h1, h2, h3⟩ := h
      subst h1
      exact ⟨rfl, h2.symm, h3.symm⟩

theorem detect_sync_width_from_folds :
    ∀ (xs : List Sample) (site : SyncSite) (count dw sc : Int),
      (detect_sync_width_from site count dw sc xs).sync_count =
          sc + (detect_sync_width_folds site count dw sc xs).length ∧
        (detect_sync_width_from site count dw sc xs).detected_width =
          fold_widths dw sc (detect_sync_width_folds site count dw sc xs)
  | [], site, count, dw, sc => by
    simp [detect_sync_width_from, detect_sync_width_folds, SyncResult.sync_count,
      SyncResult.detected_width, fold_widths]
  | x :: rest, site, count, dw, sc => by
    simp only [detect_sync_width_from, detect_sync_width_folds]
    cases hc : count_until_step site.fn site.max count x with
    | again count' =>
      simp only []
      exact detect_sync_width_from_folds rest site count' dw sc
    | timeout_error =>
      simp [SyncResult.sync_count, SyncResult.detected_width, fold_widths]
    | ret k =>
      simp only []
      cases site with
      | hi wt =>
        simp only [detect_sync_width_step, List.nil_append]
        exact detect_sync_width_from_folds rest (.lo wt k) 0 dw sc
      | lo wt hi =>
        simp only [detect_sync_width_step]
        cases hb : detect_sync_width_body dw sc hi k with
        | ret result =>
          simp [SyncResult.sync_count, SyncResult.detected_width, fold_widths]
        | again dw' sc' wt' =>
          obtain ⟨h1, h2, _⟩ := detect_sync_width_body_again dw sc hi k dw' sc' wt' hb
          have ih := detect_sync_width_from_folds rest (.hi wt') 0 dw' sc'
          simp only [List.singleton_append, List.length_cons, fold_widths]
          rw [← h1, ← h2]
          refine ⟨?_, ih.2⟩
          rw [ih.1, h2]
          push_cast
          ring

theorem count_until_step_value (fn : Sample → Bool) (max count : Int) (x : Sample) :
    (∀ k, count_until_step fn max count x = .ret k → k = count) ∧
      ∀ count', count_until_step fn max count x = .again count' → count' = count + 1 := by
  unfold count_until_step
  constructor
  · intro k h
    split at h
    · simp at h
    · split at h
      · simp at h
      · simp only [CountStep.ret.injEq] at h
        exact h.symm
  · intro k h
    split at h
    · simp only [CountStep.again.injEq] at h
      exact h.symm
    · split at h <;> simp at h

theorem detect_sync_width_folds_nonneg :
    ∀ (xs : List Sample) (site : SyncSite) (count dw sc : Int), 0 ≤ count →
      (∀ wt hi, site = .lo wt hi → 0 ≤ hi) →
      ∀ h ∈ detect_sync_width_folds site count dw sc xs, 0 ≤ h
  | [], site, count, dw, sc, _, _ => by simp [detect_sync_width_folds]
  | x :: rest, site, count, dw, sc, hcount, hsite => by
    have hv := count_until_step_value site.fn site.max count x
    simp only [detect_sync_width_folds]
    cases hc : count_until_step site.fn site.max count x with
    | again count' =>
      simp only []
      have := hv.2 count' hc
      exact detect_sync_width_folds_nonneg rest site count' dw sc (by omega) hsite
    | timeout_error => simp
    | ret k =>
      have hk := hv.1 k hc
      simp only []
      cases site with
      | hi wt =>
        simp only [detect_sync_width_step, List.nil_append]
        exact detect_sync_width_folds_nonneg rest (.lo wt k) 0 dw sc le_rfl (by
          intro wt' hi' e
          simp only [SyncSite.lo.injEq] at e
          omega)
      | lo wt hi =>
        simp only [detect_sync_width_step]
        cases hb : detect_sync_width_body dw sc hi k with
        | ret result => simp
        | again dw' sc' wt' =>
          simp only [List.singleton_append, List.mem_cons, forall_eq_or_imp]
          exact ⟨hsite wt hi rfl,
            detect_sync_width_folds_nonneg rest (.hi wt') 0 dw' sc' le_rfl (by
              intro wt'' hi' e
              exact absurd e (by simp))⟩

theorem tdiv_bounds (N n m M : Int) (hn : 0 < n) (h1 : m * n ≤ N) (h2 : N ≤ M * n) :
    m ≤ N.tdiv n ∧ N.tdiv n ≤ M := by
  rcases le_or_lt 0 N with h | h
  · rw [Int.tdiv_eq_ediv h hn.le]
    exact ⟨Int.le_ediv_of_mul_le hn h1, Int.ediv_le_of_le_mul hn h2⟩
  · have e : N.tdiv n = -((-N) / n) := by
      rw [← Int.tdiv_eq_ediv (by omega) hn.le, Int.neg_tdiv, neg_neg]
    rw [e]
    have a1 : (-N) / n ≤ -m := Int.ediv_le_of_le_mul hn (by linarith)
    have a2 : -M ≤ (-N) / n := Int.le_ediv_of_mul_le hn (by linarith)
    omega

theorem fold_widths_bounds (m M : Int) :
    ∀ (hs : List Int) (dw sc : Int), 0 ≤ sc → (sc = 0 ∨ (m ≤ dw ∧ dw ≤ M)) →
      (∀ h ∈ hs, m ≤ h ∧ h ≤ M) → (hs ≠ [] ∨ sc ≠ 0) →
      m ≤ fold_widths dw sc hs ∧ fold_widths dw sc hs ≤ M
  | [], dw, sc, _, inv, _, hne => by
    rcases hne with e | e
    · exact absurd rfl e
    · rcases inv with e' | e'
      · exact absurd e' e
      · simpa [fold_widths] using e'
  | h :: hs, dw, sc, hsc, inv, hall, _ => by
    have hh := hall h (List.mem_cons_self _ _)
    rw [fold_widths]
    apply fold_widths_bounds m M hs _ (sc + 1) (by omega) _
      (fun k hk => hall k (List.mem_cons_of_mem _ hk)) (Or.inr (by omega))
    right
    rcases inv with e | ⟨e1, e2⟩
    · subst e
      simpa using hh
    · apply tdiv_bounds _ _ _ _ (by omega)
      · nlinarith
      · nlinarith

theorem fold_widths_le_mean :
    ∀ (hs : List Int) (dw sc S : Int), 0 ≤ sc → 0 ≤ dw → dw * sc ≤ S →
      (∀ h ∈ hs, 0 ≤ h) →
      fold_widths dw sc hs * (sc + hs.length) ≤ S + hs.sum
  | [], dw, sc, S, _, _, hS, _ => by simpa [fold_widths] using hS
  | h :: hs, dw, sc, S, hsc, hdw, hS, hall => by
    have hh := hall h (List.mem_cons_self _ _)
    have hN : 0 ≤ dw * sc + h := by positivity
    have hq : (dw * sc + h).tdiv (sc + 1) = (dw * sc + h) / (sc + 1) :=
      Int.tdiv_eq_ediv hN (by omega)
    have ih := fold_widths_le_mean hs ((dw * sc + h).tdiv (sc + 1)) (sc + 1) (S + h)
      (by omega) (by rw [hq]; exact Int.ediv_nonneg hN (by omega))
      (by rw [hq]
          have := Int.ediv_mul_le (dw * sc + h) (show sc + 1 ≠ 0 by omega)
          linarith)
      (fun k hk => hall k (List.mem_cons_of_mem _ hk))
    rw [fold_widths]
    simp only [List.length_cons, List.sum_cons]
    push_cast
    have e1 : sc + ((hs.length : Int) + 1) = sc + 1 + hs.length := by ring
    have e2 : S + (h + hs.sum) = S + h + hs.sum := by ring
    rw [e1, e2]
    exact ih

/-- C19: for every sample stream, once `detect_sync_width` (entered with pair count 0 and
estimate 0) has folded at least one pair, the estimate lies between every lower bound and
every upper bound of the folded high counts, hence between their minimum and their maximum;
when all of them equal `h`, the estimate is `h`. -/
theorem detect_sync_width_estimate_in_range (xs : List Sample)
    (hne : detect_sync_width_folds (.hi (-1)) 0 0 0 xs ≠ []) :
    (∀ m M : Int, (∀ h ∈ detect_sync_width_folds (.hi (-1)) 0 0 0 xs, m ≤ h ∧ h ≤ M) →
      m ≤ (detect_sync_width 0 xs).detected_width ∧
        (detect_sync_width 0 xs).detected_width ≤ M) ∧
    (∀ h : Int, (∀ k ∈ detect_sync_width_folds (.hi (-1)) 0 0 0 xs, k = h) →
      (detect_sync_width 0 xs).detected_width = h) := by
  have h := (detect_sync_width_from_folds xs (.hi (-1)) 0 0 0).2
  have key : ∀ m M : Int,
      (∀ h ∈ detect_sync_width_folds (.hi (-1)) 0 0 0 xs, m ≤ h ∧ h ≤ M) →
      m ≤ (detect_sync_width 0 xs).detected_width ∧
        (detect_sync_width 0 xs).detected_width ≤ M := by
    intro m M hall
    unfold detect_sync_width
    rw [h]
    exact fold_widths_bounds m M _ 0 0 le_rfl (Or.inl rfl) hall (Or.inl hne)
  refine ⟨key, ?_⟩
  intro v hall
  have := key v v (fun k hk => by rw [hall k hk]; exact ⟨le_rfl, le_rfl⟩)
  omega

/-- C19 (witness): three pairs with counts 10, 11 and 12: the estimate is between 10 and
12. -/
theorem detect_sync_width_estimate_in_range_witness :
    detect_sync_width_folds (.hi (-1)) 0 0 0
        (counted 1 0 [(10, 10), (11, 11), (12, 12)]) ≠ [] ∧
      10 ≤ (detect_sync_width 0 (counted 1 0 [(10, 10), (11, 11), (12, 12)])).detected_width ∧
      (detect_sync_width 0 (counted 1 0 [(10, 10), (11, 11), (12, 12)])).detected_width ≤ 12 ∧
      (detect_sync_width 0 (counted 1 0 [(7, 7), (7, 7)])).detected_width = 7 :=
  ⟨by decide!,
    ((detect_sync_width_estimate_in_range (counted 1 0 [(10, 10), (11, 11), (12, 12)])
      (by decide!)).1 10 12 (by decide!)).1,
    ((detect_sync_width_estimate_in_range (counted 1 0 [(10, 10), (11, 11), (12, 12)])
      (by decide!)).1 10 12 (by decide!)).2,
    (detect_sync_width_estimate_in_range (counted 1 0 [(7, 7), (7, 7)])
      (by decide!)).2 7 (by decide!)⟩

/-! ## The markers of a report: theorems -/

theorem report_char_both (d c : List Char) (i : Nat) (hd : i < d.length) (hc : i < c.length) :
    report_char d c i = if d.get ⟨i, hd⟩ ≠ c.get ⟨i, hc⟩ then 'X' else d.get ⟨i, hd⟩ := by
  unfold report_char
  rw [List.get?_eq_get hd, List.get?_eq_get hc]

theorem report_char_data_only (d c : List Char) (i : Nat) (hd : i < d.length)
    (hc : c.length ≤ i) : report_char d c i = 'D' := by
  unfold report_char
  rw [List.get?_eq_get hd, List.get?_eq_none.mpr hc]

theorem report_char_check_only (d c : List Char) (i : Nat) (hd : d.length ≤ i) :
    report_char d c i = 'C' := by
  unfold report_char
  rw [List.get?_eq_none.mpr hd]

theorem mem_print_packet (sync_count : Int) (d c : List Char) (x : Char) :
    x ∈ print_packet sync_count d c ↔
      (x = 'S' ∧ sync_count.toNat ≠ 0) ∨ x = 'P' ∨ x = ' ' ∨ x = '\n' ∨
        ∃ i, i < Nat.max d.length c.length ∧ x = report_char d c i := by
  unfold print_packet
  rw [print_packet_loop_eq d c _ 0 (by simp)]
  simp only [List.mem_append, List.mem_replicate, List.mem_cons, List.mem_singleton,
    List.mem_flatMap, List.mem_range'_1, zero_add, Nat.zero_le, true_and, List.not_mem_nil,
    or_false]
  constructor
  · rintro (((⟨h, rfl⟩ | h | h) | ⟨i, hi, h | h⟩) | h)
    · exact Or.inl ⟨rfl, h⟩
    · exact Or.inr (Or.inl h)
    · exact Or.inr (Or.inr (Or.inl h))
    · exact Or.inr (Or.inr (Or.inr (Or.inr ⟨i, hi, h⟩)))
    · split_ifs at h
      · simp only [List.mem_singleton] at h
        exact Or.inr (Or.inr (Or.inl h))
      · simp at h
    · exact Or.inr (Or.inr (Or.inr (Or.inl h)))
  · rintro (⟨rfl, h⟩ | h | h | h | ⟨i, hi, h⟩)
    · exact Or.inl (Or.inl (Or.inl ⟨h, rfl⟩))
    · exact Or.inl (Or.inl (Or.inr (Or.inl h)))
    · exact Or.inl (Or.inl (Or.inr (Or.inr h)))
    · exact Or.inr h
    · exact Or.inl (Or.inr ⟨i, hi, Or.inl h⟩)

theorem mem_print_packet_marker (sync_count : Int) (d c : List Char) (x : Char)
    (hx : x = 'X' ∨ x = 'D' ∨ x = 'C') :
    x ∈ print_packet sync_count d c ↔
      ∃ i, i < Nat.max d.length c.length ∧ report_char d c i = x := by
  rw [mem_print_packet]
  constructor
  · rintro (⟨h, _⟩ | h | h | h | ⟨i, hi, h⟩)
    · rcases hx with e | e | e <;> rw [e] at h <;> exact absurd h (by decide)
    · rcases hx with e | e | e <;> rw [e] at h <;> exact absurd h (by decide)
    · rcases hx with e | e | e <;> rw [e] at h <;> exact absurd h (by decide)
    · rcases hx with e | e | e <;> rw [e] at h <;> exact absurd h (by decide)
    · exact ⟨i, hi, h.symm⟩
  · rintro ⟨i, hi, h⟩
    exact Or.inr (Or.inr (Or.inr (Or.inr ⟨i, hi, h.symm⟩)))

theorem bit_ne_marker (x : Char) (h : x = '0' ∨ x = '1') : x ≠ 'X' ∧ x ≠ 'D' ∧ x ≠ 'C' := by
  rcases h with e | e <;> subst e <;> decide

/-- C17: for all data and check sequences over the characters `0` and `1` and every sync
count, the report of `print_packet` holds none of the marker characters `X`, `D`, `C`
exactly when the two sequences are equal, and no report holds both `D` and `C`. -/
theorem print_packet_clean_iff (sync_count : Int) (d c : List Char)
    (hd : ∀ x ∈ d, x = '0' ∨ x = '1') (hc : ∀ x ∈ c, x = '0' ∨ x = '1') :
    (('X' ∉ print_packet sync_count d c ∧ 'D' ∉ print_packet sync_count d c ∧
        'C' ∉ print_packet sync_count d c) ↔ d = c) ∧
      ¬ ('D' ∈ print_packet sync_count d c ∧ 'C' ∈ print_packet sync_count d c) := by
  have hbit : ∀ i (h : i < d.length), d.get ⟨i, h⟩ ≠ 'X' ∧ d.get ⟨i, h⟩ ≠ 'D' ∧
      d.get ⟨i, h⟩ ≠ 'C' := fun i h => bit_ne_marker _ (hd _ (List.get_mem d i h))
  have hmax : Nat.max d.length c.length = max d.length c.length := rfl
  have hmax1 : d.length ≤ Nat.max d.length c.length := Nat.le_max_left _ _
  have hmax2 : c.length ≤ Nat.max d.length c.length := Nat.le_max_right _ _
  have mD : 'D' ∈ print_packet sync_count d c → c.length < d.length := by
    rw [mem_print_packet_marker sync_count d c 'D' (by simp)]
    rintro ⟨i, hi, h⟩
    by_cases h1 : i < d.length
    · by_cases h2 : i < c.length
      · rw [report_char_both d c i h1 h2] at h
        split_ifs at h
        · exact absurd h (by decide)
        · exact absurd h (hbit i h1).2.1
      · omega
    · rw [report_char_check_only d c i (by omega)] at h
      exact absurd h (by decide)
  have mC : 'C' ∈ print_packet sync_count d c → d.length < c.length := by
    rw [mem_print_packet_marker sync_count d c 'C' (by simp)]
    rintro ⟨i, hi, h⟩
    by_cases h1 : i < d.length
    · by_cases h2 : i < c.length
      · rw [report_char_both d c i h1 h2] at h
        split_ifs at h
        · exact absurd h (by decide)
        · exact absurd h (hbit i h1).2.2
      · rw [report_char_data_only d c i h1 (by omega)] at h
        exact absurd h (by decide)
    · have : i < c.length := by
        rcases Nat.lt_or_ge i c.length with e | e
        · exact e
        · exact absurd hi (by rw [hmax]; omega)
      omega
  refine ⟨⟨?_, ?_⟩, ?_⟩
  · rintro ⟨hX, hD, hC⟩
    have hlen : d.length = c.length := by
      rcases Nat.lt_trichotomy d.length c.length with e | e | e
      · exfalso
        apply hC
        rw [mem_print_packet_marker sync_count d c 'C' (by simp)]
        exact ⟨d.length, by rw [hmax]; omega,
          report_char_check_only d c _ le_rfl⟩
      · exact e
      · exfalso
        apply hD
        rw [mem_print_packet_marker sync_count d c 'D' (by simp)]
        exact ⟨c.length, by rw [hmax]; omega,
          report_char_data_only d c _ e le_rfl⟩
    apply List.ext_get hlen
    intro i h1 h2
    by_contra hne
    apply hX
    rw [mem_print_packet_marker sync_count d c 'X' (by simp)]
    refine ⟨i, by omega, ?_⟩
    rw [report_char_both d c i h1 h2, if_pos hne]
  · rintro rfl
    have hfree : ∀ x, (x = 'X' ∨ x = 'D' ∨ x = 'C') → x ∉ print_packet sync_count d d := by
      intro x hx
      rw [mem_print_packet_marker sync_count d d x hx]
      rintro ⟨i, hi, h⟩
      have h1 : i < d.length := by simpa using hi
      rw [report_char_both d d i h1 h1] at h
      simp only [ne_eq, not_true_eq_false, if_false] at h
      have := hbit i h1
      rcases hx with e | e | e
      · exact this.1 (h.trans e)
      · exact this.2.1 (h.trans e)
      · exact this.2.2 (h.trans e)
    exact ⟨hfree _ (by simp), hfree _ (by simp), hfree _ (by simp)⟩
  · rintro ⟨h1, h2⟩
    have := mD h1
    have := mC h2
    omega

/-- C17 (witness): the frame 1011 received twice gives a report without markers; the
frames 1100 and 110 do not. -/
theorem print_packet_clean_iff_witness :
    ('X' ∉ print_packet 2 ['1', '0', '1', '1'] ['1', '0', '1', '1'] ∧
        'D' ∉ print_packet 2 ['1', '0', '1', '1'] ['1', '0', '1', '1'] ∧
        'C' ∉ print_packet 2 ['1', '0', '1', '1'] ['1', '0', '1', '1']) ∧
      ¬ ('X' ∉ print_packet 2 ['1', '1', '0', '0'] ['1', '1', '0'] ∧
        'D' ∉ print_packet 2 ['1', '1', '0', '0'] ['1', '1', '0'] ∧
        'C' ∉ print_packet 2 ['1', '1', '0', '0'] ['1', '1', '0']) :=
  ⟨(print_packet_clean_iff 2 ['1', '0', '1', '1'] ['1', '0', '1', '1'] (by decide)
      (by decide)).1.mpr rfl,
    fun h => absurd ((print_packet_clean_iff 2 ['1', '1', '0', '0'] ['1', '1', '0']
      (by decide) (by decide)).1.mp h) (by decide)⟩

/-! ## The drop-last on the first pulse: theorems -/

theorem receive_data_from_edge_undefined (w : Widths) (site : RecvSite) (count : Int)
    (out : List Char) (x : Sample) (hx : site.fn x = true) (hm : count ≤ w.timeout)
    (hstep : receive_data_step w out site count = .undefined) (rest : List Sample) :
    receive_data_from w site count out (x :: rest) = .undefined := by
  rw [receive_data_from, count_until_step_ret _ _ _ _ hx (Or.inr hm)]
  simp only []
  rw [hstep]

theorem receive_data_lo_empty (U : ℕ) (bt : Bool) (lt : ℕ)
    (hl : in_class lt (receive_data_locals U).preamb_width = true ∨ 4 * U < lt) :
    receive_data_lo (receive_data_locals U) [] bt lt = .undefined := by
  have hpop : pop_back [] = none := rfl
  unfold receive_data_lo
  by_cases hpre : within_range (((lt : ℤ)) : ℚ)
      (((receive_data_locals U).preamb_width : ℤ) : ℚ) lit_0_1 = true
  · rw [if_pos hpre, hpop]
  · rw [if_neg hpre]
    rcases hl with hl | hl
    · exact absurd hl hpre
    · have hend : (lt : ℤ) > (receive_data_locals U).end_width := by
        rw [locals_end]; push_cast; omega
      rw [if_pos hend, hpop]

/-- C14 (the failing executions): whenever the first pulse pair `receive_data` reads on an
empty output sequence has a high count in a bit class and a low count in the mid-amble
class, or above the end-of-frame threshold `4U` (and within the timeout `8U`), line 234 or
line 239 calls `pop_back` on the empty vector, which has no defined behaviour -- in
`receive_data` alone and in the procedure standing at the call of line 275 with an empty
data sequence. -/
theorem receive_data_pops_empty (a b : Sample) (ha : is_high a = true)
    (hb : is_low b = true) (U : ℕ) (hU' : U < 2 ^ 28) (bt : Bool) (ht lt : ℕ)
    (hh : in_class ht (if bt then (receive_data_locals U).one_width
      else (receive_data_locals U).zero_width) = true)
    (hl : in_class lt (receive_data_locals U).preamb_width = true ∨ 4 * U < lt)
    (hlt : lt ≤ 8 * U) (rest : List Sample) :
    receive_data U [] (run_of a ht ++ b :: (run_of b lt ++ a :: rest)) = .undefined ∧
      ∀ d : decoder_state, d.packet_data = [] →
        run_process (run_of a ht ++ b :: (run_of b lt ++ a :: rest))
          (.next (.recv .packet_data (receive_data_locals U) .hi) 0) d = .undefined := by
  obtain ⟨hhi, hh2⟩ := in_class_bit U hU' bt ht hh
  have ht' := locals_timeout U
  have key : receive_data_from (receive_data_locals U) .hi 0 []
      (run_of a ht ++ b :: (run_of b lt ++ a :: rest)) = .undefined := by
    rw [receive_data_from_run _ .hi [] a (is_low_of_is_high ha) _ ht 0
        (by rw [ht']; push_cast; omega), zero_add,
      receive_data_from_edge_call _ .hi _ ht [] [] b hb (by rw [ht']; push_cast; omega)
        (receive_data_step_hi _ [] ht bt hhi),
      receive_data_from_run _ (.lo ht bt) [] b (is_high_of_is_low hb) _ lt 0
        (by rw [ht']; push_cast; omega), zero_add,
      receive_data_from_edge_undefined _ (.lo ht bt) lt [] a ha
        (by rw [ht']; push_cast; omega)
        (by rw [receive_data_step_lo, receive_data_lo_empty U bt lt hl])]
  refine ⟨key, ?_⟩
  intro d hd
  have hout : d.out .packet_data = [] := hd
  rw [run_process_recv, hout, key]

/-- C14 (witness, the failing input): unit width 2; the first pulse of the data frame has a
high count of 2 and a low count of 9, above the end-of-frame threshold 8.  The same pulse
reached by a fresh procedure: a sync pair measured 2/2, a closing pair with low count 4, a
preamble pulse measured 4, then that pulse. -/
theorem receive_data_pops_empty_witness :
    (receive_data (2 : ℕ) [] (run_of 1 2 ++ 0 :: (run_of 0 9 ++ 1 :: [0, 1])) = .undefined ∧
      ∀ d : decoder_state, d.packet_data = [] →
        run_process (run_of 1 2 ++ 0 :: (run_of 0 9 ++ 1 :: [0, 1]))
          (.next (.recv .packet_data (receive_data_locals (2 : ℕ)) .hi) 0) d = .undefined) ∧
    run_process
        [1, 1, 1, 0, 0, 0, 1, 1, 1, 0, 0, 0, 0, 0, 1, 1, 1, 1, 1, 0,
          1, 1, 1, 0, 0, 0, 0, 0, 0, 0, 0, 0, 0, 1, 0, 1]
        .call_run state.new.vars = .undefined :=
  ⟨receive_data_pops_empty 1 0 (by decide!) (by decide!) 2 (by decide) true 2 9
      (by decide!) (Or.inr (by decide)) (by decide) [0, 1],
    by decide!⟩

/-! ## Malformed timing: theorems -/

theorem receive_data_step_hi_none (w : Widths) (out : List Char) (hi : Int)
    (h : receive_data_hi w hi = none) :
    receive_data_step w out .hi hi = .ret out := by
  rw [receive_data_step, h]

theorem receive_data_hi_none (U : ℕ) (hi : ℕ)
    (h1 : in_class hi (receive_data_locals U).one_width = false)
    (h0 : in_class hi (receive_data_locals U).zero_width = false) :
    receive_data_hi (receive_data_locals U) hi = none := by
  unfold in_class at h1 h0
  unfold receive_data_hi
  rw [h1, h0]
  rfl

theorem receive_data_hi_cap (U : ℕ) (hU' : U < 2 ^ 28) :
    receive_data_hi (receive_data_locals U) ((U * 8 : ℕ) : ℤ) = none := by
  apply receive_data_hi_none
  · rw [Bool.eq_false_iff, locals_one, in_class_natCast]
    intro hc
    have hlt := within_range_lt_two_mul _ U (by omega) hc
    have hlt' : U * 8 < 2 * U := by exact_mod_cast hlt
    omega
  · rw [Bool.eq_false_iff, locals_zero, in_class_natCast]
    intro hc
    have hlt := within_range_lt_two_mul _ (U / 2) (by omega) hc
    have hlt' : U * 8 < 2 * (U / 2) := by exact_mod_cast hlt
    omega

theorem receive_data_lo_none (U : ℕ) (out : List Char) (bt : Bool) (lo : ℕ)
    (hp : in_class lo (receive_data_locals U).preamb_width = false)
    (he : lo ≤ 4 * U)
    (h0 : in_class lo (receive_data_locals U).zero_width = false)
    (h1 : in_class lo (receive_data_locals U).one_width = false) :
    receive_data_lo (receive_data_locals U) out bt lo = .ret out := by
  unfold in_class at hp h0 h1
  have hend : ¬ ((lo : ℤ) > (receive_data_locals U).end_width) := by
    rw [locals_end]; push_cast; omega
  unfold receive_data_lo
  rw [hp, h0, h1, if_neg (by simp), if_neg hend, if_neg (by simp), if_neg (by simp)]

/-- C13: malformed timing keeps the bits decoded so far.  For every unit width below 2^28
and `n ≤ 1024` pulse pairs whose counts are in the class of their bit (high) and in the
zero-bit or one-bit class (low), `receive_data` on the empty sequence appends the `n` bits,
and then returns with exactly those bits as soon as it has measured a high count that is in
neither bit class -- be it ended by a low sample or cut at the timeout `8U` -- or, after a
bit-class high count, a low count that is in none of the mid-amble, end-of-frame, zero-bit
and one-bit classes. -/
theorem receive_data_malformed (a b : Sample) (ha : is_high a = true) (hb : is_low b = true)
    (U : ℕ) (hU' : U < 2 ^ 28) (ps : List (Bool × ℕ × ℕ)) (hlen : ps.length ≤ 1024)
    (hps : ∀ p ∈ ps,
      in_class p.2.1 (if p.1 then (receive_data_locals U).one_width
        else (receive_data_locals U).zero_width) = true ∧
      (in_class p.2.2 (receive_data_locals U).zero_width = true ∨
        in_class p.2.2 (receive_data_locals U).one_width = true))
    (rest : List Sample) :
    (∀ hi : ℕ, in_class hi (receive_data_locals U).one_width = false →
      in_class hi (receive_data_locals U).zero_width = false → hi ≤ 8 * U →
      receive_data U [] (counted a b (ps.map (fun p => p.2)) ++ (run_of a hi ++ b :: rest)) =
        .ret (ps.map (fun p => bit_char p.1)) rest) ∧
    (receive_data U [] (counted a b (ps.map (fun p => p.2)) ++ (run_of a (8 * U + 1) ++ rest)) =
        .ret (ps.map (fun p => bit_char p.1)) rest) ∧
    (∀ (bt : Bool) (hi lo : ℕ),
      in_class hi (if bt then (receive_data_locals U).one_width
        else (receive_data_locals U).zero_width) = true →
      in_class lo (receive_data_locals U).preamb_width = false → lo ≤ 4 * U →
      in_class lo (receive_data_locals U).zero_width = false →
      in_class lo (receive_data_locals U).one_width = false →
      receive_data U []
          (counted a b (ps.map (fun p => p.2)) ++
            (run_of a hi ++ b :: (run_of b lo ++ a :: rest))) =
        .ret (ps.map (fun p => bit_char p.1)) rest) := by
  have ht' := locals_timeout U
  have hbits := fun rest => receive_data_from_counted a b ha hb U hU' rest ps []
    (by simpa using hlen) hps
  simp only [List.nil_append] at hbits
  refine ⟨?_, ?_, ?_⟩
  · intro hi h1 h0 hle
    unfold receive_data
    rw [hbits,
      receive_data_from_run _ .hi _ a (is_low_of_is_high ha) _ hi 0
        (by rw [ht']; push_cast; omega), zero_add,
      receive_data_from_edge_ret _ .hi hi _ _ b hb (by rw [ht']; push_cast; omega)
        (receive_data_step_hi_none _ _ _ (receive_data_hi_none U hi h1 h0))]
  · have hsplit : run_of a (8 * U + 1) ++ rest = run_of a (U * 8) ++ a :: rest := by
      simp [run_of, List.replicate_succ', Nat.mul_comm]
    have hcap := receive_data_from_cap_ret (receive_data_locals U) .hi
      (ps.map (fun p => bit_char p.1)) (ps.map (fun p => bit_char p.1)) a
      (is_low_of_is_high ha) (by rw [ht']; push_cast; omega)
      (by rw [ht']; exact receive_data_step_hi_none _ _ _ (receive_data_hi_cap U hU'))
      rest
    unfold receive_data
    rw [hbits, hsplit,
      receive_data_from_run _ .hi _ a (is_low_of_is_high ha) _ (U * 8) 0
        (by rw [ht']; push_cast; omega), zero_add, ← ht', hcap]
  · intro bt hi lo hh hp he h0 h1
    obtain ⟨hhi, hh2⟩ := in_class_bit U hU' bt hi hh
    unfold receive_data
    rw [hbits,
      receive_data_from_run _ .hi _ a (is_low_of_is_high ha) _ hi 0
        (by rw [ht']; push_cast; omega), zero_add,
      receive_data_from_edge_call _ .hi _ hi _ _ b hb (by rw [ht']; push_cast; omega)
        (receive_data_step_hi _ _ hi bt hhi),
      receive_data_from_run _ (.lo hi bt) _ b (is_high_of_is_low hb) _ lo 0
        (by rw [ht']; push_cast; omega), zero_add,
      receive_data_from_edge_ret _ (.lo hi bt) lo _ _ a ha
        (by rw [ht']; push_cast; omega)
        (by rw [receive_data_step_lo, receive_data_lo_none U _ bt lo hp he h0 h1])]

/-- C13 (witness): unit width 10, the bits 1 and 0 received, then a high count of 7, or a
high count of 10 followed by a low count of 15. -/
theorem receive_data_malformed_witness :
    receive_data (10 : ℕ) []
        (counted 1 0 ([(true, 10, 10), (false, 5, 5)].map (fun p => p.2)) ++
          (run_of 1 7 ++ 0 :: [0, 1])) =
      .ret ([(true, 10, 10), (false, 5, 5)].map (fun p => bit_char p.1)) [0, 1] ∧
    receive_data (10 : ℕ) []
        (counted 1 0 ([(true, 10, 10), (false, 5, 5)].map (fun p => p.2)) ++
          (run_of 1 10 ++ 0 :: (run_of 0 15 ++ 1 :: [0, 1]))) =
      .ret ['1', '0'] [0, 1] :=
  ⟨(receive_data_malformed 1 0 (by decide!) (by decide!) 10 (by decide)
      [(true, 10, 10), (false, 5, 5)] (by decide) (by decide!) [0, 1]).1 7
      (by decide!) (by decide!) (by decide),
    (receive_data_malformed 1 0 (by decide!) (by decide!) 10 (by decide)
      [(true, 10, 10), (false, 5, 5)] (by decide) (by decide!) [0, 1]).2.2 true 10 15
      (by decide!) (by decide!) (by decide) (by decide!) (by decide!)⟩

/-! ## The unit width of frame reception: theorems -/

theorem detect_sync_width_body_ret_true (dw sc hi lo : Int)
    (h : detect_sync_width_body dw sc hi lo = .ret true) : 1 < dw := by
  unfold detect_sync_width_body at h
  split at h
  · rename_i c
    simp only [Bool.and_eq_true, decide_eq_true_eq] at c
    exact c.1
  · simp only [] at h
    split at h <;> simp at h

theorem detect_sync_width_step_ret_true (dw sc dw' sc' k : Int) (site : SyncSite)
    (h : detect_sync_width_step dw sc site k = .ret true dw' sc') : 2 ≤ dw' := by
  cases site with
  | hi wt => simp [detect_sync_width_step] at h
  | lo wt hi =>
    simp only [detect_sync_width_step] at h
    cases hb : detect_sync_width_body dw sc hi k with
    | ret result =>
      rw [hb] at h
      simp only [SyncControl.ret.injEq] at h
      obtain ⟨h1, h2, _⟩ := h
      subst h1 h2
      have := detect_sync_width_body_ret_true dw sc hi k hb
      omega
    | again a b c =>
      rw [hb] at h
      simp at h

theorem set_out_detected_width (d : decoder_state) (frame : Frame) (v : List Char) :
    (d.set_out frame v).detected_width = d.detected_width := by
  cases frame <;> rfl

theorem continue_from_width_known (d d' : decoder_state) (site site' : Site) (k : Int)
    (hinv : site.width_known d) (h : continue_from d site k = (d', .call site')) :
    site'.width_known d' := by
  cases site with
  | run_rising =>
    simp only [continue_from, Prod.mk.injEq, Control.call.injEq] at h
    obtain ⟨_, h2⟩ := h
    subst h2
    trivial
  | sync s =>
    rw [continue_from] at h
    cases hs : detect_sync_width_step d.detected_width d.sync_count s k with
    | call s' dw sc =>
      rw [hs] at h
      simp only [Prod.mk.injEq, Control.call.injEq] at h
      obtain ⟨_, h2⟩ := h
      subst h2
      trivial
    | ret result dw sc =>
      rw [hs] at h
      cases result with
      | true =>
        simp only [Prod.mk.injEq, Control.call.injEq] at h
        obtain ⟨h1, h2⟩ := h
        subst h1 h2
        exact detect_sync_width_step_ret_true _ _ _ _ _ _ hs
      | false => simp at h
  | run_preamble t =>
    rw [continue_from] at h
    split at h
    · simp at h
    · simp only [Prod.mk.injEq, Control.call.injEq] at h
      obtain ⟨h1, h2⟩ := h
      subst h1 h2
      exact hinv
  | run_gap t =>
    simp only [continue_from, call_receive_data, Prod.mk.injEq, Control.call.injEq] at h
    obtain ⟨h1, h2⟩ := h
    subst h1 h2
    exact ⟨hinv, rfl⟩
  | recv frame w s =>
    obtain ⟨hw1, hw2⟩ := hinv
    rw [continue_from] at h
    cases hr : receive_data_step w (d.out frame) s k with
    | call s' v =>
      rw [hr] at h
      simp only [Prod.mk.injEq, Control.call.injEq] at h
      obtain ⟨h1, h2⟩ := h
      subst h1 h2
      exact ⟨by rw [set_out_detected_width]; exact hw1,
        by rw [set_out_detected_width]; exact hw2⟩
    | ret v =>
      rw [hr] at h
      simp only [] at h
      cases frame with
      | packet_data =>
        simp only [run_after_receive, call_receive_data, Prod.mk.injEq,
          Control.call.injEq] at h
        obtain ⟨h1, h2⟩ := h
        subst h1 h2
        exact ⟨hw1, rfl⟩
      | packet_check => simp [run_after_receive] at h
    | too_many_bits_error v =>
      rw [hr] at h
      simp at h
    | undefined =>
      rw [hr] at h
      simp at h

theorem take_width_known (d d' : decoder_state) (site site' : Site) (count count' : Int)
    (x : Sample) (hinv : site.width_known d)
    (h : take d site count x = .reading site' count' d') : site'.width_known d' := by
  rw [take] at h
  cases hc : count_until_step site.fn site.max count x with
  | again c =>
    rw [hc] at h
    simp only [Progress.reading.injEq] at h
    obtain ⟨h1, _, h3⟩ := h
    subst h1 h3
    exact hinv
  | timeout_error =>
    rw [hc] at h
    simp at h
  | ret k =>
    rw [hc] at h
    simp only [] at h
    cases hk : continue_from d site k with
    | mk d1 ctl =>
      rw [hk] at h
      cases ctl with
      | call s =>
        simp only [Progress.reading.injEq] at h
        obtain ⟨h1, _, h3⟩ := h
        subst h1 h3
        exact continue_from_width_known d d1 site s k hinv hk
      | ended how => simp at h
      | undefined => simp at h

theorem deliver_width_known (d d' : decoder_state) (c : Context) (site' : Site)
    (count' : Int) (x : Sample) (hinv : c.width_known d)
    (h : deliver d c x = .reading site' count' d') : site'.width_known d' := by
  cases c with
  | call_run => exact take_width_known _ _ .run_rising _ _ _ x trivial h
  | next site count => exact take_width_known _ _ site _ _ _ x hinv h

theorem steps_width_known :
    ∀ (xs : List Sample) (c c' : Context) (d d' : decoder_state), c.width_known d →
      steps xs c d = .yielded c' d' → c'.width_known d'
  | [], c, c', d, d', hinv, h => by
    simp only [steps, ProcessResult.yielded.injEq] at h
    obtain ⟨h1, h2⟩ := h
    subst h1 h2
    exact hinv
  | x :: xs, c, c', d, d', hinv, h => by
    simp only [steps] at h
    cases hd : deliver d c x with
    | reading site count d1 =>
      rw [hd] at h
      exact steps_width_known xs (.next site count) c' d1 d'
        (deliver_width_known d d1 c site count x hinv hd) h
    | ended how d1 =>
      rw [hd] at h
      exact steps_width_known xs .call_run c' d1 d' trivial h
    | undefined =>
      rw [hd] at h
      simp at h

theorem resume_all_width_known :
    ∀ (chunks : List (List Sample)) (s s' : state), s.hasNext = false →
      s.need_reset = false → s.process_context.width_known s.vars →
      resume_all s chunks = .ok s' → s'.process_context.width_known s'.vars
  | [], s, s', _, _, hinv, h => by
    simp only [resume_all, Outcome.ok.injEq] at h
    subst h
    exact hinv
  | chunk :: chunks, s, s', h1, h2, hinv, h => by
    have he := resume_eq_steps s chunk h1 h2
    simp only [resume_all] at h
    rw [he] at h
    cases hs : steps chunk s.process_context s.vars with
    | yielded c1 d1 =>
      rw [hs] at h
      simp only [ProcessResult.outcome, Outcome.bind] at h
      exact resume_all_width_known chunks
        { need_reset := false, process_context := c1, data := [], vars := d1 } s' rfl rfl
        (steps_width_known chunk _ c1 _ d1 hinv hs) h
    | returned how d1 rest => exact absurd hs (steps_not_returned _ _ _ _ _ _)
    | undefined =>
      rw [hs] at h
      simp [ProcessResult.outcome, Outcome.bind] at h

theorem classes_disjoint (U : Int) (hU : 2 ≤ U) (hi : Int) :
    1 ≤ (receive_data_locals U).zero_width ∧
      ¬ (within_range hi (receive_data_locals U).one_width lit_0_1 = true ∧
        within_range hi (receive_data_locals U).zero_width lit_0_1 = true) := by
  obtain ⟨n, rfl⟩ : ∃ n : ℕ, U = n := ⟨U.toNat, (Int.toNat_of_nonneg (by omega)).symm⟩
  have hn : 2 ≤ n := by exact_mod_cast hU
  rw [locals_zero, locals_one]
  constructor
  · have : 1 ≤ n / 2 := by omega
    exact_mod_cast this
  · rintro ⟨h1, h0⟩
    have h0' : within_range (hi : ℚ) ((n / 2 : ℕ) : ℚ) lit_0_1 = true := by
      simpa using h0
    have := not_within_range_of_le (hi : ℚ) (n / 2) n (by omega) h0'
    have h1' : within_range (hi : ℚ) (n : ℚ) lit_0_1 = true := by simpa using h1
    rw [h1'] at this
    exact absurd this (by simp)

/-- C18: frame reception only runs with a usable unit width.  On every sample stream, from
a fresh context and whatever the members hold, whenever the procedure is inside
`receive_data` the member `detected_width` is at least 2 and the locals of `receive_data`
are those computed from it -- also at the return of every call of `resume` of a sequence
of calls on a fresh engine.  For such a width the zero-bit width is at least 1 and no count
is within 10% of both the one-bit width and the zero-bit width. -/
theorem receive_data_width_usable :
    (∀ (xs : List Sample) (d d' : decoder_state) (frame : Frame) (w : Widths)
        (site : RecvSite) (count : Int),
      steps xs .call_run d = .yielded (.next (.recv frame w site) count) d' →
      2 ≤ d'.detected_width ∧ w = receive_data_locals d'.detected_width) ∧
    (∀ (chunks : List (List Sample)) (s : state) (frame : Frame) (w : Widths)
        (site : RecvSite) (count : Int),
      resume_all state.new chunks = .ok s →
      s.process_context = .next (.recv frame w site) count →
      2 ≤ s.vars.detected_width ∧ w = receive_data_locals s.vars.detected_width) ∧
    (∀ U hi : Int, 2 ≤ U →
      1 ≤ (receive_data_locals U).zero_width ∧
        ¬ (within_range hi (receive_data_locals U).one_width lit_0_1 = true ∧
          within_range hi (receive_data_locals U).zero_width lit_0_1 = true)) := by
  refine ⟨?_, ?_, ?_⟩
  · intro xs d d' frame w site count h
    exact steps_width_known xs .call_run _ d d' trivial h
  · intro chunks s frame w site count h hc
    have := resume_all_width_known chunks state.new s rfl rfl trivial h
    rw [hc] at this
    exact this
  · intro U hi hU
    exact classes_disjoint U hU hi

/-- C18 (witness): a sync pair measured 2/2, a closing pair, a preamble pulse measured 4
and the first high sample of the frame: the procedure stands at the first read of
`receive_data` with the estimate 2. -/
theorem receive_data_width_usable_witness :
    steps [1, 1, 1, 0, 0, 0, 1, 1, 1, 0, 0, 0, 0, 0, 1, 1, 1, 1, 1, 0, 1] .call_run
        state.new.vars =
      .yielded (.next (.recv .packet_data (receive_data_locals 2) .hi) 0)
        { sync_count := 1, detected_width := 2, packet_data := [], packet_check := [],
          stdout := [] } ∧
    (2 : Int) ≤ 2 ∧ receive_data_locals 2 = receive_data_locals 2 :=
  ⟨by decide!,
    receive_data_width_usable.1
      [1, 1, 1, 0, 0, 0, 1, 1, 1, 0, 0, 0, 0, 0, 1, 1, 1, 1, 1, 0, 1] state.new.vars
      { sync_count := 1, detected_width := 2, packet_data := [], packet_check := [],
        stdout := [] } .packet_data (receive_data_locals 2) .hi 0 (by decide!)⟩

/-! ## The range of `int`: theorems -/

theorem int_ok_of_bounds (x : Int) (h0 : 0 ≤ x) (h1 : x ≤ 2147483647) : int_ok x = true := by
  unfold int_ok
  simp only [Bool.and_eq_true, decide_eq_true_eq]
  omega

theorem detect_sync_width_body_ok_of_le (dw sc hi lo T : Int) (hdw : 0 ≤ dw) (hsc : 0 ≤ sc)
    (hhi : 0 ≤ hi) (hlo : 0 ≤ lo) (hsc' : sc ≤ T) (hsum : dw * sc + hi + lo ≤ T)
    (hT : T < 2 ^ 29) :
    detect_sync_width_body_ok dw sc hi lo = true := by
  have hp : 0 ≤ dw * sc := mul_nonneg hdw hsc
  have hN : 0 ≤ dw * sc + hi := by omega
  have hq : (dw * sc + hi).tdiv (sc + 1) = (dw * sc + hi) / (sc + 1) :=
    Int.tdiv_eq_ediv hN (by omega)
  have hq0 : 0 ≤ (dw * sc + hi) / (sc + 1) := Int.ediv_nonneg hN (by omega)
  have hq1 : (dw * sc + hi) / (sc + 1) ≤ dw * sc + hi := Int.ediv_le_self _ hN
  unfold detect_sync_width_body_ok
  split
  · rfl
  · simp only []
    rw [Bool.and_eq_true]
    refine ⟨int_ok_of_bounds _ (by omega) (by omega), ?_⟩
    split
    · rfl
    · simp only [Bool.and_eq_true]
      rw [hq]
      exact ⟨⟨⟨int_ok_of_bounds _ hp (by omega), int_ok_of_bounds _ hN (by omega)⟩,
        int_ok_of_bounds _ (by omega) (by omega)⟩,
        int_ok_of_bounds _ (by omega) (by omega)⟩

theorem detect_sync_width_ok_of_length :
    ∀ (xs : List Sample) (site : SyncSite) (count dw sc T : Int),
      0 ≤ count → 0 ≤ dw → 0 ≤ sc → sc ≤ T →
      (∀ wt, site = .hi wt → dw * sc + count ≤ T) →
      (∀ wt hi, site = .lo wt hi → 0 ≤ hi ∧ dw * sc + hi + count ≤ T) →
      T + xs.length < 2 ^ 29 →
      detect_sync_width_ok site count dw sc xs = true
  | [], site, count, dw, sc, T, _, _, _, _, _, _, _ => by simp [detect_sync_width_ok]
  | x :: rest, site, count, dw, sc, T, hcount, hdw, hsc, hscT, hhi, hlo, hT => by
    have hv := count_until_step_value site.fn site.max count x
    have hp : 0 ≤ dw * sc := mul_nonneg hdw hsc
    simp only [List.length_cons] at hT
    push_cast at hT
    have hcT : count ≤ T := by
      cases site with
      | hi wt => have := hhi wt rfl; omega
      | lo wt hi => have := hlo wt hi rfl; omega
    simp only [detect_sync_width_ok]
    cases hc : count_until_step site.fn site.max count x with
    | again count' =>
      have e := hv.2 count' hc
      subst e
      simp only []
      rw [Bool.and_eq_true]
      refine ⟨int_ok_of_bounds _ (by omega) (by omega), ?_⟩
      apply detect_sync_width_ok_of_length rest site (count + 1) dw sc (T + 1) (by omega) hdw
        hsc (by omega) _ _ (by omega)
      · intro wt e
        have := hhi wt e
        omega
      · intro wt hi e
        have := hlo wt hi e
        omega
    | timeout_error => rfl
    | ret k =>
      have e := hv.1 k hc
      subst e
      simp only []
      cases site with
      | hi wt =>
        simp only [detect_sync_width_step, Bool.true_and]
        have := hhi wt rfl
        apply detect_sync_width_ok_of_length rest (.lo wt k) 0 dw sc (T + 1) le_rfl hdw hsc
          (by omega) _ _ (by omega)
        · intro wt' e
          exact absurd e (by simp)
        · intro wt' hi' e
          simp only [SyncSite.lo.injEq] at e
          obtain ⟨_, e2⟩ := e
          subst e2
          exact ⟨hcount, by omega⟩
      | lo wt hi =>
        obtain ⟨h0, hs⟩ := hlo wt hi rfl
        simp only [detect_sync_width_step]
        rw [Bool.and_eq_true]
        refine ⟨detect_sync_width_body_ok_of_le dw sc hi k T hdw hsc h0 hcount hscT hs
          (by omega), ?_⟩
        cases hb : detect_sync_width_body dw sc hi k with
        | ret result => rfl
        | again dw' sc' wt' =>
          obtain ⟨h1, h2, _⟩ := detect_sync_width_body_again dw sc hi k dw' sc' wt' hb
          have hN : 0 ≤ dw * sc + hi := by omega
          have hq : (dw * sc + hi).tdiv (sc + 1) = (dw * sc + hi) / (sc + 1) :=
            Int.tdiv_eq_ediv hN (by omega)
          have hq0 : 0 ≤ (dw * sc + hi) / (sc + 1) := Int.ediv_nonneg hN (by omega)
          have hq2 : (dw * sc + hi) / (sc + 1) * (sc + 1) ≤ dw * sc + hi :=
            Int.ediv_mul_le _ (by omega)
          rw [hq] at h1
          subst h1 h2
          simp only []
          apply detect_sync_width_ok_of_length rest (.hi wt') 0 _ (sc + 1) (T + 1) le_rfl hq0
            (by omega) (by omega) _ _ (by omega)
          · intro wt'' _
            omega
          · intro wt'' hi' e
            exact absurd e (by simp)

/-! ## The uniform waveform and the running estimate: theorems -/

theorem cycles_length (w : List Sample) : ∀ n : Nat, (cycles w n).length = n * w.length
  | 0 => by simp [cycles]
  | n + 1 => by
    simp only [cycles, List.length_append, cycles_length w n]
    ring

/-- C5 (amended): on a waveform of `N` high/low pairs of exactly `W` samples each, `W` at
least 3, followed by a high run of at most `4 * (W - 1) + 1` samples and a low run longer
than `1.7 * W` that a high sample ends, the whole shorter than 2^29 samples, the wait of
line 259 takes the first sample and `detect_sync_width` then returns success with the pair
count `N` and the estimate `W - 1`, every run being measured one short, no `int` operation
overflowing on the way; that estimate is within 1% of `W` exactly when `W` is at least
100. -/
theorem detect_sync_width_uniform (a b : Sample) (ha : is_high a = true)
    (hb : is_low b = true) (W N H L : ℕ) (hW : 3 ≤ W) (hN : 1 ≤ N)
    (hH1 : 1 ≤ H) (hH2 : H ≤ 4 * (W - 1) + 1) (hL : 17 * W < 10 * L)
    (hlen : 2 * W * N + H + L < 2 ^ 29) :
    (∃ wave rest,
      count_until is_high (-1) (cycles (pulse a b W W) N ++ pulse a b H L ++ [a]) =
        .ret 0 wave ∧
      detect_sync_width_ok (.hi (-1)) 0 0 0 wave = true ∧
      detect_sync_width 0 wave = .ret true ((W : ℤ) - 1) N rest) ∧
    (|((((W : ℤ) - 1 : ℤ) : ℚ)) - (W : ℚ)| ≤ 1 / 100 * (W : ℚ) ↔ 100 ≤ W) := by
  constructor
  · have hWN : 2 * W ≤ 2 * W * N := Nat.le_mul_of_pos_right _ hN
    obtain ⟨h, rfl⟩ : ∃ h, W = h + 1 := ⟨W - 1, by omega⟩
    obtain ⟨N', rfl⟩ : ∃ n, N = n + 1 := ⟨N - 1, by omega⟩
    obtain ⟨H', rfl⟩ : ∃ n, H = n + 1 := ⟨H - 1, by omega⟩
    obtain ⟨L', rfl⟩ : ∃ n, L = n + 1 := ⟨L - 1, by omega⟩
    obtain ⟨rest, hrest⟩ := detect_sync_width_from_close a b ha hb h (N' + 1) H' L'
      (by omega) (by omega) (by simp at hH2; omega) (by omega)
    refine ⟨cycles (run_of a h ++ b :: run_of b h ++ [a]) (N' + 1) ++
      (run_of a H' ++ b :: run_of b L' ++ [a]), rest, ?_, ?_, ?_⟩
    · have hshape : cycles (pulse a b (h + 1) (h + 1)) (N' + 1) ++
          pulse a b (H' + 1) (L' + 1) ++ [a] =
          a :: (cycles (run_of a h ++ b :: run_of b h ++ [a]) (N' + 1) ++
            (run_of a H' ++ b :: run_of b L' ++ [a])) := by
        rw [← cycles_pulse_shift]
        simp [pulse, run_of_succ]
      rw [hshape]
      simp only [count_until, count_until_from]
      rw [count_until_step_ret _ _ _ _ ha (Or.inl rfl)]
    · apply detect_sync_width_ok_of_length _ (.hi (-1)) 0 0 0 0 le_rfl le_rfl le_rfl le_rfl
      · intro wt _
        simp
      · intro wt hi e
        exact absurd e (by simp)
      · have hl : (cycles (run_of a h ++ b :: run_of b h ++ [a]) (N' + 1) ++
            (run_of a H' ++ b :: run_of b L' ++ [a])).length =
            2 * (h + 1) * (N' + 1) + H' + L' + 2 := by
          simp only [List.length_append, cycles_length, run_of, List.length_replicate,
            List.length_cons, List.length_nil]
          ring
        rw [hl]
        have : (2 * (h + 1) * (N' + 1) + H' + L' + 2 : ℕ) < 2 ^ 29 := by omega
        have h' : (((2 * (h + 1) * (N' + 1) + H' + L' + 2 : ℕ)) : ℤ) < 2 ^ 29 := by
          exact_mod_cast this
        omega
    · unfold detect_sync_width
      rw [detect_sync_width_from_cycles a b ha hb h (by omega) (by omega) _ N' 0 0 (-1)
        (Or.inl ⟨rfl, rfl, rfl⟩)]
      simp only [zero_add]
      have e : ((h + 1 : ℕ) : ℤ) - 1 = (h : ℤ) := by push_cast; ring
      rw [e]
      exact hrest
  · have e : ((((W : ℤ) - 1 : ℤ) : ℚ)) - (W : ℚ) = -1 := by push_cast; ring
    rw [e]
    have : |(-1 : ℚ)| = 1 := by norm_num
    rw [this]
    constructor
    · intro hle
      have h1 : (100 : ℚ) ≤ (W : ℚ) := by linarith
      exact_mod_cast h1
    · intro hle
      have h1 : (100 : ℚ) ≤ (W : ℚ) := by exact_mod_cast hle
      linarith

/-- C5 (witness): one pair of width 3, a closing pulse of one high and six low samples. -/
theorem detect_sync_width_uniform_witness :
    (∃ wave rest,
      count_until is_high (-1) (cycles (pulse 1 0 3 3) 1 ++ pulse 1 0 1 6 ++ [1]) =
        .ret 0 wave ∧
      detect_sync_width_ok (.hi (-1)) 0 0 0 wave = true ∧
      detect_sync_width 0 wave = .ret true (((3 : ℕ) : ℤ) - 1) ((1 : ℕ) : ℤ) rest) ∧
    (|(((((3 : ℕ) : ℤ) - 1 : ℤ) : ℚ)) - ((3 : ℕ) : ℚ)| ≤ 1 / 100 * ((3 : ℕ) : ℚ) ↔
      100 ≤ 3) :=
  detect_sync_width_uniform 1 0 (by decide!) (by decide!) 3 1 1 6 (by decide) (by decide)
    (by decide) (by decide) (by decide) (by decide)

/-- C5 (counterexample): two pairs of width 10 and a closing pulse with a low run of 18 samples: the
estimator succeeds after two pairs with the estimate 9, which is not within 1% of 10. -/
theorem detect_sync_width_width_10 :
    count_until is_high (-1) (cycles (pulse 1 0 10 10) 2 ++ pulse 1 0 10 18 ++ [1]) =
        .ret 0 ((cycles (pulse 1 0 10 10) 2 ++ pulse 1 0 10 18 ++ [1]).tail) ∧
      detect_sync_width 0 ((cycles (pulse 1 0 10 10) 2 ++ pulse 1 0 10 18 ++ [1]).tail) =
        .ret true 9 2 [] ∧
      ¬ (|(9 : ℚ) - 10| ≤ 1 / 100 * 10) := by
  refine ⟨by decide!, by decide!, by norm_num⟩

/-- C12 (counterexample): on the waveform of three pairs with counts 10, 11 and 12 the
estimator folds the high counts 10, 11, 12 and its estimate is 10, while their arithmetic
mean rounded down is 11. -/
theorem detect_sync_width_not_floor_mean :
    detect_sync_width_folds (.hi (-1)) 0 0 0
        (counted 1 0 [(10, 10), (11, 11), (12, 12)]) = [10, 11, 12] ∧
      detect_sync_width 0 (counted 1 0 [(10, 10), (11, 11), (12, 12)]) =
        .blocked (.hi 40) 0 10 3 ∧
      ((10 : Int) + 11 + 12) / 3 = 11 := by
  refine ⟨by decide!, by decide!, by decide⟩

/-- C12 (amended): for every stream of fewer than 2^29 samples -- on which no `int`
operation of `detect_sync_width` overflows -- when `detect_sync_width` (entered with pair
count 0) has folded the high counts `h1..hn`, the pair count is `n` and the estimate is
what line 203 gives when applied to them in turn from 0, the division being an integer
division at every fold: `e_k = (e_(k-1) * (k-1) + h_k) / k`.  The estimate never exceeds
the arithmetic mean (`e_n * n ≤ h1 + ... + hn`). -/
theorem detect_sync_width_running_estimate (xs : List Sample) (hlen : xs.length < 2 ^ 29) :
    detect_sync_width_ok (.hi (-1)) 0 0 0 xs = true ∧
      (detect_sync_width 0 xs).sync_count =
        (detect_sync_width_folds (.hi (-1)) 0 0 0 xs).length ∧
      (detect_sync_width 0 xs).detected_width =
        fold_widths 0 0 (detect_sync_width_folds (.hi (-1)) 0 0 0 xs) ∧
      (detect_sync_width 0 xs).detected_width *
          (detect_sync_width_folds (.hi (-1)) 0 0 0 xs).length ≤
        (detect_sync_width_folds (.hi (-1)) 0 0 0 xs).sum := by
  have hok : detect_sync_width_ok (.hi (-1)) 0 0 0 xs = true := by
    apply detect_sync_width_ok_of_length xs (.hi (-1)) 0 0 0 0 le_rfl le_rfl le_rfl le_rfl
    · intro wt _
      simp
    · intro wt hi e
      exact absurd e (by simp)
    · have : ((xs.length : ℕ) : ℤ) < 2 ^ 29 := by exact_mod_cast hlen
      omega
  have h := detect_sync_width_from_folds xs (.hi (-1)) 0 0 0
  have hn := detect_sync_width_folds_nonneg xs (.hi (-1)) 0 0 0 le_rfl (by
    intro wt hi e
    exact absurd e (by simp))
  have hm := fold_widths_le_mean (detect_sync_width_folds (.hi (-1)) 0 0 0 xs) 0 0 0 le_rfl
    le_rfl (by simp) hn
  unfold detect_sync_width
  refine ⟨hok, by simpa using h.1, h.2, ?_⟩
  rw [h.2]
  simpa using hm

/-- C12 (witness): three pairs with counts 10, 11 and 12: three pairs counted, the
estimate 10 as the folds give it. -/
theorem detect_sync_width_running_estimate_witness :
    (detect_sync_width_ok (.hi (-1)) 0 0 0
        (counted 1 0 [(10, 10), (11, 11), (12, 12)]) = true ∧
      (detect_sync_width 0 (counted 1 0 [(10, 10), (11, 11), (12, 12)])).sync_count =
        (detect_sync_width_folds (.hi (-1)) 0 0 0
          (counted 1 0 [(10, 10), (11, 11), (12, 12)])).length ∧
      (detect_sync_width 0 (counted 1 0 [(10, 10), (11, 11), (12, 12)])).detected_width =
        fold_widths 0 0 (detect_sync_width_folds (.hi (-1)) 0 0 0
          (counted 1 0 [(10, 10), (11, 11), (12, 12)])) ∧
      (detect_sync_width 0 (counted 1 0 [(10, 10), (11, 11), (12, 12)])).detected_width *
          (detect_sync_width_folds (.hi (-1)) 0 0 0
            (counted 1 0 [(10, 10), (11, 11), (12, 12)])).length ≤
        (detect_sync_width_folds (.hi (-1)) 0 0 0
          (counted 1 0 [(10, 10), (11, 11), (12, 12)])).sum) ∧
    fold_widths 0 0 [10, 11, 12] = 10 :=
  ⟨detect_sync_width_running_estimate (counted 1 0 [(10, 10), (11, 11), (12, 12)])
      (by decide!), by decide⟩

end decode_impl
